import Mathlib

/-!
Shallow embedding of the uninformed-search grid repository
(`grid.py` and `algorithms.py`) and proofs about its claims.

Positions are integer pairs.  Python sets are embedded as duplicate-free
lists used only through membership; Python dicts as association lists in
which an assignment conses a new binding that shadows older ones.  The
probabilistic obstacle spawner is embedded with an explicit oracle: each
call to the reconciliation step consumes one `Option Pos` choice from a
schedule, and the choice is honoured exactly when the chosen cell is one
of the empty cells the Python code samples from.  `while` loops are
embedded as fuel-indexed recursion returning `none` on fuel exhaustion,
and the Python `IndexError` raised by popping an empty frontier is
embedded as an explicit error value.
-/

namespace GridSearch

abbrev Pos := Int × Int

/-- `Grid.__init__` state: dimensions, endpoints, wall set and the
dynamic-obstacle set (which grows during a search). -/
structure Grid where
  width : Int
  height : Int
  start : Pos
  target : Pos
  walls : List Pos
  dynamic_obstacles : List Pos
deriving Repr, DecidableEq

/-- `Grid._is_valid_position`: inside the rectangular bounds. -/
def is_valid_position (g : Grid) (p : Pos) : Bool :=
  0 ≤ p.1 && p.1 < g.width && 0 ≤ p.2 && p.2 < g.height

/-- `Grid.is_blocked`: out of bounds counts as blocked, otherwise a
position is blocked when it is a wall or a dynamic obstacle. -/
def is_blocked (g : Grid) (p : Pos) : Bool :=
  if !is_valid_position g p then true
  else p ∈ g.walls || p ∈ g.dynamic_obstacles

/-- The eight candidate moves of `Grid.get_neighbors`, in the source's
clockwise order: Up, Right, Down, BottomRight, Left, TopLeft, TopRight,
BottomLeft. -/
def movements (p : Pos) : List Pos :=
  [ (p.1, p.2 - 1), (p.1 + 1, p.2), (p.1, p.2 + 1), (p.1 + 1, p.2 + 1),
    (p.1 - 1, p.2), (p.1 - 1, p.2 - 1), (p.1 + 1, p.2 - 1), (p.1 - 1, p.2 + 1) ]

/-- `Grid.get_neighbors`: the movement candidates that are in bounds and
not blocked, in the fixed order. -/
def get_neighbors (g : Grid) (p : Pos) : List Pos :=
  (movements p).filter (fun q => is_valid_position g q && !is_blocked g q)

/-- The cells `Grid.spawn_dynamic_obstacle` samples from: in bounds, not a
wall, not an existing obstacle, and neither start nor target. -/
def isEmptyCell (g : Grid) (p : Pos) : Bool :=
  is_valid_position g p && !(p ∈ g.walls) && !(p ∈ g.dynamic_obstacles)
    && !(p = g.start) && !(p = g.target)

/-- `Grid.spawn_dynamic_obstacle`, with the random draw replaced by an
oracle choice.  A `some p` choice succeeds exactly when `p` is one of the
empty cells the Python code samples from; the new obstacle is added to the
grid and returned. -/
def spawn_dynamic_obstacle (g : Grid) (choice : Option Pos) : Grid × Option Pos :=
  match choice with
  | none => (g, none)
  | some p =>
    if isEmptyCell g p then
      ({ g with dynamic_obstacles := p :: g.dynamic_obstacles }, some p)
    else (g, none)

/-- Errors observable from the Python code: `ValueError` raised by
`Grid.__init__` and `IndexError` raised by popping an empty frontier. -/
inductive PyErr where
  | valueErrorStart
  | valueErrorTarget
  | indexError
deriving Repr, DecidableEq

/-- Result of running a Python fragment that can raise. -/
inductive Res (α : Type) where
  | ok : α → Res α
  | exc : PyErr → Res α
deriving Repr, DecidableEq

/-- `Grid.__init__` including its construction-time validation: a start or
target out of bounds raises `ValueError` immediately. -/
def mkGrid (width height : Int) (s t : Pos) : Res Grid :=
  let g : Grid := ⟨width, height, s, t, [], []⟩
  if !is_valid_position g s then Res.exc PyErr.valueErrorStart
  else if !is_valid_position g t then Res.exc PyErr.valueErrorTarget
  else Res.ok g

/-! ## Shared bookkeeping of `SearchAlgorithm` -/

/-- `SearchResult` of `algorithms.py`. -/
structure SearchResult where
  path : List Pos
  explored : List Pos
  frontier_history : List (List Pos)
  total_nodes_explored : Nat
  found : Bool
  dynamic_obstacles_encountered : List Pos
deriving Repr, DecidableEq

/-- Parent maps (`self.parent_map`): dict embedded as an association list
where an assignment conses a binding that shadows older ones. -/
abbrev PM := List (Pos × Option Pos)

/-- Dict lookup returning the stored value when the key is present. -/
def plookup : PM → Pos → Option (Option Pos)
  | [], _ => none
  | (k, v) :: rest, x => if k = x then some v else plookup rest x

/-- `self.parent_map.get(pos)`: `None` both for an absent key and for a
stored `None`. -/
def pmGet (pm : PM) (k : Pos) : Option Pos :=
  match plookup pm k with
  | none => none
  | some v => v

/-- The loop of `_reconstruct_path` before the final `reverse`, walking
parents from `pos`; fuel-indexed because a cyclic parent map makes the
Python loop diverge (`none` = would not terminate within the fuel). -/
def reconstructAux (pm : PM) : Nat → Pos → Option (List Pos)
  | 0, _ => none
  | fuel + 1, pos =>
    match pmGet pm pos with
    | none => some [pos]
    | some p => (reconstructAux pm fuel p).map (fun l => pos :: l)

/-- `SearchAlgorithm._reconstruct_path`.  A terminating walk visits
pairwise distinct keys of the map, so `pm.length + 1` fuel is exhausted
only on walks the Python code would never finish. -/
def reconstruct_path (pm : PM) (current : Pos) : Option (List Pos) :=
  (reconstructAux pm (pm.length + 1) current).map List.reverse

/-- Python `set.add` on a duplicate-free list. -/
def addSet (s : List Pos) (x : Pos) : List Pos :=
  if x ∈ s then s else s ++ [x]

/-- Python `set.discard` on a duplicate-free list. -/
def discardSet (s : List Pos) (x : Pos) : List Pos :=
  s.filter (fun y => decide (y ≠ x))

/-- One oracle draw from the spawn schedule. -/
def takeChoice : List (Option Pos) → Option Pos × List (Option Pos)
  | [] => (none, [])
  | c :: rest => (c, rest)

/-- The purge loop of `_check_dynamic_obstacles`: the frontier is emptied
and the surviving items are re-appended in their original order. -/
def purgeLoop {α : Type} (keep : α → Bool) (l : List α) : List α :=
  l.foldl (fun acc it => if keep it then acc ++ [it] else acc) []

/-- `SearchAlgorithm._check_dynamic_obstacles`, parametric in the function
that extracts the underlying position from a frontier item (the embedding
of `_extract_node_from_item` for each of the frontier item shapes).
Returns the updated grid, the purged frontier, and the updated obstacle
log. -/
def check_dynamic_obstacles {α : Type} (extract : α → Pos) (g : Grid)
    (frontier : List α) (log : List Pos) (choice : Option Pos) :
    Grid × List α × List Pos :=
  match spawn_dynamic_obstacle g choice with
  | (g', some ob) =>
      (g', purgeLoop (fun it => !is_blocked g' (extract it)) frontier, log ++ [ob])
  | (g', none) => (g', frontier, log)

/-! ## The `heapq` priority queue used by UCS

UCS stores `(cost, counter, node)` triples in a Python list managed by
`heapq`.  Pops depend on the exact array layout, so the CPython
`heappush`/`heappop`/`_siftup`/`_siftdown` algorithms are embedded
verbatim over lists. -/

/-- UCS heap entries `(cost, counter, node)`. -/
abbrev UItem := Nat × Nat × Pos

def uJunk : UItem := (0, 0, (0, 0))

/-- Python `<` on `(x, y)` integer pairs (lexicographic). -/
def posLtb (p q : Pos) : Bool :=
  p.1 < q.1 || (p.1 == q.1 && p.2 < q.2)

/-- Python `<` on `(cost, counter, node)` triples (lexicographic). -/
def uLtb (a b : UItem) : Bool :=
  a.1 < b.1 || (a.1 == b.1 &&
    (a.2.1 < b.2.1 || (a.2.1 == b.2.1 && posLtb a.2.2 b.2.2)))

/-- The `while` loop of CPython `heapq._siftdown` with `newitem` held
aside: move parents down while `newitem` is smaller, then place it. -/
def siftdownLoop (newitem : UItem) (startpos : Nat) (pos : Nat)
    (heap : List UItem) : List UItem :=
  if _h : startpos < pos then
    let parentpos := (pos - 1) / 2
    let parent := heap.getD parentpos uJunk
    if uLtb newitem parent then
      siftdownLoop newitem startpos parentpos (heap.set pos parent)
    else heap.set pos newitem
  else heap.set pos newitem
termination_by pos
decreasing_by
  simp_wf
  have := Nat.div_le_self (pos - 1) 2
  omega

/-- CPython `heapq._siftdown`. -/
def heap_siftdown (heap : List UItem) (startpos pos : Nat) : List UItem :=
  siftdownLoop (heap.getD pos uJunk) startpos pos heap

/-- The `while` loop of CPython `heapq._siftup`: bubble the hole at `pos`
down to a leaf following the smaller child, then place `newitem` and
report the final position. -/
def siftupLoop (endpos : Nat) (newitem : UItem) (pos : Nat)
    (heap : List UItem) : Nat × List UItem :=
  if _h : 2 * pos + 1 < endpos then
    let c0 := 2 * pos + 1
    let cp := if c0 + 1 < endpos &&
        !uLtb (heap.getD c0 uJunk) (heap.getD (c0 + 1) uJunk)
      then c0 + 1 else c0
    siftupLoop endpos newitem cp (heap.set pos (heap.getD cp uJunk))
  else (pos, heap.set pos newitem)
termination_by endpos - pos
decreasing_by
  simp_wf
  split <;> omega

/-- CPython `heapq._siftup`. -/
def heap_siftup (heap : List UItem) (pos : Nat) : List UItem :=
  let (pos', heap') := siftupLoop heap.length (heap.getD pos uJunk) pos heap
  heap_siftdown heap' pos pos'

/-- CPython `heapq.heappush`. -/
def heappush (heap : List UItem) (item : UItem) : List UItem :=
  heap_siftdown (heap ++ [item]) 0 heap.length

/-- CPython `heapq.heappop`; popping an empty heap raises `IndexError`. -/
def heappop (heap : List UItem) : Res (UItem × List UItem) :=
  match heap with
  | [] => Res.exc PyErr.indexError
  | [x] => Res.ok (x, [])
  | x :: _ :: _ =>
    let lastelt := (heap.getLast?).getD uJunk
    Res.ok (x, heap_siftup ((heap.dropLast).set 0 lastelt) 0)

/-- The array heap invariant maintained by `heapq`: every element is at
most its two children. -/
def isHeap (l : List UItem) : Prop :=
  ∀ i : Nat,
    (2 * i + 1 < l.length → uLtb (l.getD (2 * i + 1) uJunk) (l.getD i uJunk) = false) ∧
    (2 * i + 2 < l.length → uLtb (l.getD (2 * i + 2) uJunk) (l.getD i uJunk) = false)

instance (l : List UItem) : Decidable (isHeap l) :=
  decidable_of_iff
    (∀ i < l.length,
      (2 * i + 1 < l.length → uLtb (l.getD (2 * i + 1) uJunk) (l.getD i uJunk) = false) ∧
      (2 * i + 2 < l.length → uLtb (l.getD (2 * i + 2) uJunk) (l.getD i uJunk) = false))
    (by
      constructor
      · intro h i
        constructor
        · intro hi
          exact (h i (by omega)).1 hi
        · intro hi
          exact (h i (by omega)).2 hi
      · intro h i _
        exact h i)

/-- Pop/pulled-from-frontier outcomes of one loop iteration of a search. -/
inductive StepOut (σ : Type) where
  | next : σ → StepOut σ
  | finished : σ → Option (List Pos) → StepOut σ
  | fail : PyErr → StepOut σ
  | stuck : StepOut σ

/-! ## Breadth-first and depth-first search -/

/-- Mutable state of the BFS/DFS loops: the frontier (index 0 is the left
end of the deque / bottom of the stack), explored set, parent map,
in-frontier set, frontier history, obstacle log and remaining spawn
schedule. -/
structure PlainSt where
  grid : Grid
  frontier : List Pos
  explored : List Pos
  pm : PM
  in_frontier : List Pos
  history : List (List Pos)
  log : List Pos
  sched : List (Option Pos)
deriving Repr, DecidableEq

/-- The neighbor loop shared by BFS and DFS: enqueue each neighbor that is
neither explored nor already in the frontier, recording its parent.  DFS
passes the neighbor list reversed. -/
def plainEnqueue (current : Pos) (ns : List Pos) (s : PlainSt) : PlainSt :=
  ns.foldl (fun s n =>
    if n ∉ s.explored ∧ n ∉ s.in_frontier then
      { s with pm := (n, some current) :: s.pm,
               frontier := s.frontier ++ [n],
               in_frontier := addSet s.in_frontier n }
    else s) s

/-- Result assembly shared by the searches. -/
def mkSearchResult (explored : List Pos) (hist : List (List Pos))
    (log : List Pos) (po : Option (List Pos)) : SearchResult :=
  { path := po.getD [], explored := explored, frontier_history := hist,
    total_nodes_explored := explored.length, found := po.isSome,
    dynamic_obstacles_encountered := log }

/-- One iteration of the `BreadthFirstSearch.search` loop: reconcile
obstacles, record the frontier snapshot, pop from the left (raising
`IndexError` on an emptied frontier), skip already-explored nodes, mark
explored, test the target (reconstructing the path on success) and
otherwise enqueue neighbors. -/
def bfsStep (s : PlainSt) : StepOut PlainSt :=
  if s.frontier.isEmpty then StepOut.finished s none
  else
    let (choice, sched') := takeChoice s.sched
    let (g', fr', log') := check_dynamic_obstacles id s.grid s.frontier s.log choice
    let hist' := s.history ++ [fr'.dedup]
    match fr' with
    | [] => StepOut.fail PyErr.indexError
    | current :: rest =>
      let s' : PlainSt :=
        { grid := g', frontier := rest, explored := s.explored, pm := s.pm,
          in_frontier := discardSet s.in_frontier current,
          history := hist', log := log', sched := sched' }
      if current ∈ s'.explored then StepOut.next s'
      else
        let s'' := { s' with explored := addSet s'.explored current }
        if current = g'.target then
          match reconstruct_path s''.pm current with
          | none => StepOut.stuck
          | some path => StepOut.finished s'' (some path)
        else
          StepOut.next (plainEnqueue current (get_neighbors g' current) s'')

/-- One iteration of the `DepthFirstSearch.search` loop: as BFS but the
pop takes the last element and neighbors are enqueued in reverse order. -/
def dfsStep (s : PlainSt) : StepOut PlainSt :=
  if s.frontier.isEmpty then StepOut.finished s none
  else
    let (choice, sched') := takeChoice s.sched
    let (g', fr', log') := check_dynamic_obstacles id s.grid s.frontier s.log choice
    let hist' := s.history ++ [fr'.dedup]
    match fr'.getLast? with
    | none => StepOut.fail PyErr.indexError
    | some current =>
      let s' : PlainSt :=
        { grid := g', frontier := fr'.dropLast, explored := s.explored, pm := s.pm,
          in_frontier := discardSet s.in_frontier current,
          history := hist', log := log', sched := sched' }
      if current ∈ s'.explored then StepOut.next s'
      else
        let s'' := { s' with explored := addSet s'.explored current }
        if current = g'.target then
          match reconstruct_path s''.pm current with
          | none => StepOut.stuck
          | some path => StepOut.finished s'' (some path)
        else
          StepOut.next (plainEnqueue current (get_neighbors g' current).reverse s'')

/-- Fuel-indexed iteration of a step function; `none` means the Python
loop would still be running (or diverging) after `fuel` iterations. -/
def runLoop {σ : Type} (step : σ → StepOut σ) :
    Nat → σ → Option (Res (σ × Option (List Pos)))
  | 0, _ => none
  | fuel + 1, s =>
    match step s with
    | StepOut.next s' => runLoop step fuel s'
    | StepOut.finished s' po => some (Res.ok (s', po))
    | StepOut.fail e => some (Res.exc e)
    | StepOut.stuck => none

/-- Initial state shared by BFS and DFS. -/
def plainInit (g : Grid) (sched : List (Option Pos)) : PlainSt :=
  { grid := g, frontier := [g.start], explored := [],
    pm := [(g.start, none)], in_frontier := [g.start],
    history := [], log := [], sched := sched }

/-- `BreadthFirstSearch.search`. -/
def breadth_first_search (g : Grid) (sched : List (Option Pos)) (fuel : Nat) :
    Option (Res SearchResult) :=
  (runLoop bfsStep fuel (plainInit g sched)).map (fun r =>
    match r with
    | Res.ok (s, po) => Res.ok (mkSearchResult s.explored s.history s.log po)
    | Res.exc e => Res.exc e)

/-- `DepthFirstSearch.search`. -/
def depth_first_search (g : Grid) (sched : List (Option Pos)) (fuel : Nat) :
    Option (Res SearchResult) :=
  (runLoop dfsStep fuel (plainInit g sched)).map (fun r =>
    match r with
    | Res.ok (s, po) => Res.ok (mkSearchResult s.explored s.history s.log po)
    | Res.exc e => Res.exc e)

/-! ## Uniform-cost search -/

/-- Cost map of UCS (`cost_map`), a dict from positions to best known
costs. -/
abbrev CostMap := List (Pos × Nat)

def clookup : CostMap → Pos → Option Nat
  | [], _ => none
  | (k, v) :: rest, x => if k = x then some v else clookup rest x

/-- Mutable state of the `UniformCostSearch.search` loop. -/
structure UcsSt where
  grid : Grid
  frontier : List UItem
  explored : List Pos
  pm : PM
  cost_map : CostMap
  counter : Nat
  history : List (List Pos)
  log : List Pos
  sched : List (Option Pos)
deriving Repr, DecidableEq

/-- The UCS neighbor loop: when the `cost+1` path to a neighbor is the
first or a strictly cheaper one, update the cost map and parent map and
push a fresh `(cost, counter, node)` entry; stale entries are not
touched. -/
def ucsRelax (current : Pos) (current_cost : Nat) (ns : List Pos)
    (s : UcsSt) : UcsSt :=
  ns.foldl (fun s n =>
    let new_cost := current_cost + 1
    let better :=
      match clookup s.cost_map n with
      | none => true
      | some c => decide (new_cost < c)
    if better then
      { s with cost_map := (n, new_cost) :: s.cost_map,
               pm := (n, some current) :: s.pm,
               frontier := heappush s.frontier (new_cost, s.counter, n),
               counter := s.counter + 1 }
    else s) s

/-- One iteration of the `UniformCostSearch.search` loop: reconcile
obstacles, snapshot the frontier's positions, `heappop` (raising
`IndexError` on an emptied frontier), skip explored nodes, skip popped
entries whose recorded cost exceeds the best known cost, mark explored,
test the target and otherwise relax neighbors. -/
def ucsStep (s : UcsSt) : StepOut UcsSt :=
  if s.frontier.isEmpty then StepOut.finished s none
  else
    let (choice, sched') := takeChoice s.sched
    let (g', fr', log') :=
      check_dynamic_obstacles (fun it => it.2.2) s.grid s.frontier s.log choice
    let hist' := s.history ++ [(fr'.map (fun it => it.2.2)).dedup]
    match heappop fr' with
    | Res.exc e => StepOut.fail e
    | Res.ok ((current_cost, _cnt, current), rest) =>
      let s' : UcsSt :=
        { grid := g', frontier := rest, explored := s.explored, pm := s.pm,
          cost_map := s.cost_map, counter := s.counter,
          history := hist', log := log', sched := sched' }
      if current ∈ s'.explored then StepOut.next s'
      else if (match clookup s'.cost_map current with
               | none => false
               | some c => decide (current_cost > c)) then StepOut.next s'
      else
        let s'' := { s' with explored := addSet s'.explored current }
        if current = g'.target then
          match reconstruct_path s''.pm current with
          | none => StepOut.stuck
          | some path => StepOut.finished s'' (some path)
        else
          StepOut.next (ucsRelax current current_cost (get_neighbors g' current) s'')

/-- Initial UCS state. -/
def ucsInit (g : Grid) (sched : List (Option Pos)) : UcsSt :=
  { grid := g, frontier := [(0, 0, g.start)], explored := [],
    pm := [(g.start, none)], cost_map := [(g.start, 0)], counter := 1,
    history := [], log := [], sched := sched }

/-- `UniformCostSearch.search`. -/
def uniform_cost_search (g : Grid) (sched : List (Option Pos)) (fuel : Nat) :
    Option (Res SearchResult) :=
  (runLoop ucsStep fuel (ucsInit g sched)).map (fun r =>
    match r with
    | Res.ok (s, po) => Res.ok (mkSearchResult s.explored s.history s.log po)
    | Res.exc e => Res.exc e)

/-! ## Depth-limited search -/

/-- Mutable state of the `DepthLimitedSearch.search` loop; frontier items
are `(node, depth)` pairs. -/
structure DlsSt where
  grid : Grid
  frontier : List (Pos × Nat)
  explored : List Pos
  pm : PM
  in_frontier : List Pos
  history : List (List Pos)
  log : List Pos
  sched : List (Option Pos)
deriving Repr, DecidableEq

/-- The DLS neighbor loop (runs only when `depth < depth_limit`):
neighbors in reverse order, pushed with depth `depth + 1`. -/
def dlsEnqueue (current : Pos) (depth : Nat) (ns : List Pos) (s : DlsSt) : DlsSt :=
  ns.foldl (fun s n =>
    if n ∉ s.explored ∧ n ∉ s.in_frontier then
      { s with pm := (n, some current) :: s.pm,
               frontier := s.frontier ++ [(n, depth + 1)],
               in_frontier := addSet s.in_frontier n }
    else s) s

/-- One iteration of the `DepthLimitedSearch.search` loop.  The popped
node is tested against the target before its depth is compared with the
limit; neighbors are expanded only when `depth < depth_limit`. -/
def dlsStep (depth_limit : Nat) (s : DlsSt) : StepOut DlsSt :=
  if s.frontier.isEmpty then StepOut.finished s none
  else
    let (choice, sched') := takeChoice s.sched
    let (g', fr', log') :=
      check_dynamic_obstacles (fun it => it.1) s.grid s.frontier s.log choice
    let hist' := s.history ++ [(fr'.map (fun it => it.1)).dedup]
    match fr'.getLast? with
    | none => StepOut.fail PyErr.indexError
    | some (current, depth) =>
      let s' : DlsSt :=
        { grid := g', frontier := fr'.dropLast, explored := s.explored, pm := s.pm,
          in_frontier := discardSet s.in_frontier current,
          history := hist', log := log', sched := sched' }
      if current ∈ s'.explored then StepOut.next s'
      else
        let s'' := { s' with explored := addSet s'.explored current }
        if current = g'.target then
          match reconstruct_path s''.pm current with
          | none => StepOut.stuck
          | some path => StepOut.finished s'' (some path)
        else if depth < depth_limit then
          StepOut.next (dlsEnqueue current depth (get_neighbors g' current).reverse s'')
        else StepOut.next s''

/-- Initial DLS state. -/
def dlsInit (g : Grid) (sched : List (Option Pos)) : DlsSt :=
  { grid := g, frontier := [(g.start, 0)], explored := [],
    pm := [(g.start, none)], in_frontier := [g.start],
    history := [], log := [], sched := sched }

/-- `DepthLimitedSearch.search` with the given `depth_limit`. -/
def depth_limited_search (g : Grid) (depth_limit : Nat)
    (sched : List (Option Pos)) (fuel : Nat) : Option (Res SearchResult) :=
  (runLoop (dlsStep depth_limit) fuel (dlsInit g sched)).map (fun r =>
    match r with
    | Res.ok (s, po) => Res.ok (mkSearchResult s.explored s.history s.log po)
    | Res.exc e => Res.exc e)

/-! ## Iterative-deepening DFS -/

/-- Mutable state threaded through `IterativeDeepeningDFS`: there is no
frontier; the recursion is call-stack bound. -/
structure IddfsSt where
  grid : Grid
  explored : List Pos
  pm : PM
  history : List (List Pos)
  log : List Pos
  sched : List (Option Pos)
deriving Repr, DecidableEq

/-- The periodic obstacle check of `_dls_recursive`: invoked with an empty
frontier whenever `len(explored) % 10 == 0`, so it only spawns and logs. -/
def iddfsCheck (st : IddfsSt) : IddfsSt :=
  if st.explored.length % 10 == 0 then
    let (choice, sched') := takeChoice st.sched
    let (g', _, log') :=
      check_dynamic_obstacles id st.grid ([] : List Pos) st.log choice
    { st with grid := g', log := log', sched := sched' }
  else st

mutual

/-- `IterativeDeepeningDFS._dls_recursive`: periodic obstacle check, mark
explored, record a copy of the explored set in `frontier_history`, test
the target (reconstructing on success), stop the branch at limit `0`, and
otherwise visit the unexplored neighbors recursively with limit − 1.
Returns `none` when path reconstruction would diverge. -/
def iddfs_dls_rec (tgt : Pos) (limit : Nat) (current : Pos) (st : IddfsSt) :
    Option (IddfsSt × Option (List Pos)) :=
  let st1 := iddfsCheck st
  let st2 := { st1 with explored := addSet st1.explored current }
  let st3 := { st2 with history := st2.history ++ [st2.explored] }
  if current = tgt then
    match reconstruct_path st3.pm current with
    | none => none
    | some path => some (st3, some path)
  else
    match limit with
    | 0 => some (st3, none)
    | l + 1 => iddfs_dls_go tgt l current (get_neighbors st3.grid current) st3
termination_by (limit, 0)

/-- The neighbor loop of `_dls_recursive`, returning early when a
recursive call finds the target. -/
def iddfs_dls_go (tgt : Pos) (l : Nat) (current : Pos) (ns : List Pos)
    (st : IddfsSt) : Option (IddfsSt × Option (List Pos)) :=
  match ns with
  | [] => some (st, none)
  | n :: rest =>
    if n ∈ st.explored then iddfs_dls_go tgt l current rest st
    else
      let st' := { st with pm := (n, some current) :: st.pm }
      match iddfs_dls_rec tgt l n st' with
      | none => none
      | some (st'', some path) => some (st'', some path)
      | some (st'', none) => iddfs_dls_go tgt l current rest st''
termination_by (l, ns.length + 1)

end

/-- Python `set.update`: add every element of `b` to `a`. -/
def unionSet (a b : List Pos) : List Pos :=
  b.foldl addSet a

/-- The `for limit in range(1, max_depth + 1)` loop of
`IterativeDeepeningDFS.search`: each iteration clears the explored set and
parent map (re-seeding `start ↦ None`), runs the recursive DLS, and
accumulates the explored nodes. -/
def iddfsIters (tgt sp : Pos) : List Nat → IddfsSt → List Pos →
    Option (IddfsSt × List Pos × Option (List Pos))
  | [], st, allExp => some (st, allExp, none)
  | limit :: rest, st, allExp =>
    let st0 := { st with explored := [], pm := [(sp, none)] }
    match iddfs_dls_rec tgt limit sp st0 with
    | none => none
    | some (st', po) =>
      let allExp' := unionSet allExp st'.explored
      match po with
      | some path => some (st', allExp', some path)
      | none => iddfsIters tgt sp rest st' allExp'

/-- `IterativeDeepeningDFS.search`: limits 1, 2, …, `2 * max(width,
height)`.  Total up to path-reconstruction fuel; never raises. -/
def iterative_deepening_search (g : Grid) (sched : List (Option Pos)) :
    Option SearchResult :=
  let max_depth := (max g.width g.height) * 2
  let st0 : IddfsSt :=
    { grid := g, explored := [], pm := [], history := [], log := [], sched := sched }
  match iddfsIters g.target g.start (List.range' 1 max_depth.toNat) st0 [] with
  | none => none
  | some (st', allExp, po) =>
    some { path := po.getD [], explored := allExp,
           frontier_history := st'.history,
           total_nodes_explored :=
             if allExp.isEmpty then st'.explored.length else allExp.length,
           found := po.isSome,
           dynamic_obstacles_encountered := st'.log }

/-! ## Bidirectional search -/

/-- Mutable state of `BidirectionalSearch.search`: two frontiers, explored
sets, in-frontier sets and parent maps, plus the shared explored set. -/
structure BiSt where
  grid : Grid
  forward_frontier : List Pos
  backward_frontier : List Pos
  forward_explored : List Pos
  backward_explored : List Pos
  forward_in_frontier : List Pos
  backward_in_frontier : List Pos
  forward_parent : PM
  backward_parent : PM
  explored : List Pos
  history : List (List Pos)
  log : List Pos
  sched : List (Option Pos)
deriving Repr, DecidableEq

/-- The forward neighbor loop: a neighbor already explored by the backward
direction is the meeting point (parent recorded, loop broken); otherwise
undiscovered neighbors are enqueued forward. -/
def biForwardNeighbors (current : Pos) : List Pos → BiSt → BiSt × Option Pos
  | [], s => (s, none)
  | n :: rest, s =>
    if n ∈ s.backward_explored then
      ({ s with forward_parent := (n, some current) :: s.forward_parent }, some n)
    else if n ∉ s.forward_explored ∧ n ∉ s.forward_in_frontier then
      biForwardNeighbors current rest
        { s with forward_parent := (n, some current) :: s.forward_parent,
                 forward_frontier := s.forward_frontier ++ [n],
                 forward_in_frontier := addSet s.forward_in_frontier n }
    else biForwardNeighbors current rest s

/-- The backward neighbor loop, symmetric to the forward one. -/
def biBackwardNeighbors (current : Pos) : List Pos → BiSt → BiSt × Option Pos
  | [], s => (s, none)
  | n :: rest, s =>
    if n ∈ s.forward_explored then
      ({ s with backward_parent := (n, some current) :: s.backward_parent }, some n)
    else if n ∉ s.backward_explored ∧ n ∉ s.backward_in_frontier then
      biBackwardNeighbors current rest
        { s with backward_parent := (n, some current) :: s.backward_parent,
                 backward_frontier := s.backward_frontier ++ [n],
                 backward_in_frontier := addSet s.backward_in_frontier n }
    else biBackwardNeighbors current rest s

/-- Outcome of one outer iteration of the bidirectional loop. -/
inductive BiStepOut where
  | next : BiSt → BiStepOut
  | meet : BiSt → Pos → BiStepOut

/-- The `if forward_frontier:` block of one outer iteration: pop one
forward node (when the frontier is non-empty), skip it when already
explored, otherwise mark it explored and run the forward neighbor loop. -/
def biForwardPhase (s0 : BiSt) : BiSt × Option Pos :=
  match s0.forward_frontier with
  | [] => (s0, none)
  | current :: rest =>
    let s1 := { s0 with forward_frontier := rest,
                        forward_in_frontier := discardSet s0.forward_in_frontier current }
    if current ∈ s1.forward_explored then (s1, none)
    else
      let s2 := { s1 with forward_explored := addSet s1.forward_explored current,
                          explored := addSet s1.explored current }
      biForwardNeighbors current (get_neighbors s2.grid current) s2

/-- The `if backward_frontier and not meeting_point:` block, symmetric. -/
def biBackwardPhase (s3 : BiSt) : BiSt × Option Pos :=
  match s3.backward_frontier with
  | [] => (s3, none)
  | current :: rest =>
    let s4 := { s3 with backward_frontier := rest,
                        backward_in_frontier := discardSet s3.backward_in_frontier current }
    if current ∈ s4.backward_explored then (s4, none)
    else
      let s5 := { s4 with backward_explored := addSet s4.backward_explored current,
                          explored := addSet s4.explored current }
      biBackwardNeighbors current (get_neighbors s5.grid current) s5

/-- One outer iteration of `BidirectionalSearch.search`: reconcile
obstacles in both frontiers (two schedule draws), expand one forward node
(when the forward frontier is non-empty), then — when no meeting point was
found — one backward node, and finally append the combined frontier
snapshot.  A meeting point breaks out before the snapshot is appended. -/
def biStep (s : BiSt) : BiStepOut :=
  let (c1, sched1) := takeChoice s.sched
  let (g1, f1, log1) := check_dynamic_obstacles id s.grid s.forward_frontier s.log c1
  let (c2, sched2) := takeChoice sched1
  let (g2, b1, log2) := check_dynamic_obstacles id g1 s.backward_frontier log1 c2
  let s0 := { s with grid := g2, forward_frontier := f1, backward_frontier := b1,
                     log := log2, sched := sched2 }
  match biForwardPhase s0 with
  | (s3, some m) => BiStepOut.meet s3 m
  | (s3, none) =>
    match biBackwardPhase s3 with
    | (s6, some m) => BiStepOut.meet s6 m
    | (s6, none) =>
      BiStepOut.next
        { s6 with history :=
            s6.history ++ [(s6.forward_frontier ++ s6.backward_frontier).dedup] }

/-- The `while forward_frontier or backward_frontier` loop, fuel-indexed. -/
def biLoop : Nat → BiSt → Option (BiSt × Option Pos)
  | 0, _ => none
  | fuel + 1, s =>
    if s.forward_frontier.isEmpty && s.backward_frontier.isEmpty then some (s, none)
    else
      match biStep s with
      | BiStepOut.next s' => biLoop fuel s'
      | BiStepOut.meet s' m => some (s', some m)

/-- Initial bidirectional state. -/
def biInit (g : Grid) (sched : List (Option Pos)) : BiSt :=
  { grid := g, forward_frontier := [g.start], backward_frontier := [g.target],
    forward_explored := [], backward_explored := [],
    forward_in_frontier := [g.start], backward_in_frontier := [g.target],
    forward_parent := [(g.start, none)], backward_parent := [(g.target, none)],
    explored := [], history := [], log := [], sched := sched }

/-- Path assembly of `BidirectionalSearch.search`: the forward parent
chain from the meeting point (reversed), then the backward parent chain
starting at the meeting point's backward parent.  `none` when one of the
two `while pos is not None` walks would diverge. -/
def biAssemblePath (s : BiSt) (m : Pos) : Option (List Pos) :=
  match reconstructAux s.forward_parent (s.forward_parent.length + 1) m with
  | none => none
  | some fchain =>
    let bwStart := pmGet s.backward_parent m
    let bchain :=
      match bwStart with
      | none => some []
      | some p => reconstructAux s.backward_parent (s.backward_parent.length + 1) p
    match bchain with
    | none => none
    | some path_backward => some (fchain.reverse ++ path_backward)

/-- `BidirectionalSearch.search`. -/
def bidirectional_search (g : Grid) (sched : List (Option Pos)) (fuel : Nat) :
    Option SearchResult :=
  match biLoop fuel (biInit g sched) with
  | none => none
  | some (s, none) => some (mkSearchResult s.explored s.history s.log none)
  | some (s, some m) =>
    match biAssemblePath s m with
    | none => none
    | some path => some (mkSearchResult s.explored s.history s.log (some path))

/-- Concrete grids used by witnesses and counterexamples. -/
def gridW : Grid := ⟨3, 3, (0, 0), (2, 2), [], []⟩

/-- The 3×1 grid on which the frontier is emptied by reconciliation. -/
def grid31 : Grid := ⟨3, 1, (0, 0), (2, 0), [], []⟩

/-- The 2×1 grid on which bidirectional search meets immediately. -/
def grid21 : Grid := ⟨2, 1, (0, 0), (1, 0), [], []⟩

/-- The 1×1 grid whose start and target coincide. -/
def grid11 : Grid := ⟨1, 1, (0, 0), (0, 0), [], []⟩

/-- The result of `depth_limited_search gridW 0 [] 5`, used by a witness. -/
def dlsResW : SearchResult :=
  { path := [], explored := [(0, 0)], frontier_history := [[(0, 0)]],
    total_nodes_explored := 1, found := false,
    dynamic_obstacles_encountered := [] }

/-- The grid, frontier and log produced by the reconciliation call at the
top of a BFS/DFS loop iteration. -/
def plainReconciled (s : PlainSt) : Grid × List Pos × List Pos :=
  check_dynamic_obstacles id s.grid s.frontier s.log (takeChoice s.sched).1

/-- The reconciliation triple of a UCS iteration. -/
def ucsReconciled (s : UcsSt) : Grid × List UItem × List Pos :=
  check_dynamic_obstacles (fun it => it.2.2) s.grid s.frontier s.log (takeChoice s.sched).1

/-- The reconciliation triple of a DLS iteration. -/
def dlsReconciled (s : DlsSt) : Grid × List (Pos × Nat) × List Pos :=
  check_dynamic_obstacles (fun it => it.1) s.grid s.frontier s.log (takeChoice s.sched).1

/-- The state reached by one BFS step from `plainInit gridW []`, used by a
witness. -/
def stepW : PlainSt :=
  { grid := gridW, frontier := [(1, 0), (0, 1), (1, 1)], explored := [(0, 0)],
    pm := [((1, 1), some (0, 0)), ((0, 1), some (0, 0)), ((1, 0), some (0, 0)), ((0, 0), none)],
    in_frontier := [(1, 0), (0, 1), (1, 1)], history := [[(0, 0)]], log := [],
    sched := [] }

/-- The reconciliation triple for the forward frontier at the top of a
bidirectional iteration. -/
def biReconciledF (s : BiSt) : Grid × List Pos × List Pos :=
  check_dynamic_obstacles id s.grid s.forward_frontier s.log (takeChoice s.sched).1

/-- The reconciliation triple for the backward frontier, performed after
the forward one. -/
def biReconciledB (s : BiSt) : Grid × List Pos × List Pos :=
  check_dynamic_obstacles id (biReconciledF s).1 s.backward_frontier
    (biReconciledF s).2.2 (takeChoice (takeChoice s.sched).2).1

/-- A valid `heapq` array of UCS entries over `gridW`, used to exhibit
that purging a blocked position can break the heap invariant. -/
def ucsHeapW : List UItem :=
  [ (1, 1, (0, 1)), (2, 4, (1, 0)), (1, 2, (1, 1)), (2, 5, (2, 0)),
    (2, 6, (0, 2)), (1, 3, (2, 1)), (2, 7, (1, 2)) ]

/-- An n-step walk exists from `p` to `q` along unblocked neighbor moves
of grid `g`; the graph-distance oracle used to state shortest-path
claims. -/
def walkNb (g : Grid) : Nat → Pos → Pos → Bool
  | 0, p, q => decide (p = q)
  | n + 1, p, q => (get_neighbors g p).any (fun r => walkNb g n r q)

/-- `g` is the same grid as `g0` except that dynamic obstacles may have
accumulated — the only way the Environment evolves during a search. -/
def gridExtends (g0 g : Grid) : Prop :=
  g.width = g0.width ∧ g.height = g0.height ∧ g.start = g0.start ∧
  g.target = g0.target ∧ g.walls = g0.walls ∧
  ∀ p, p ∈ g0.dynamic_obstacles → p ∈ g.dynamic_obstacles

/-- A parent map built by consing fresh keys whose parents already exist —
the shape produced by the searches, under which `_reconstruct_path`
terminates. -/
def pmAcyc : PM → Prop
  | [] => True
  | (k, v) :: rest =>
      pmAcyc rest ∧ plookup rest k = none ∧
        ∀ c, v = some c → (plookup rest c).isSome

/-- A stale IDDFS state carrying leftovers from a previous iteration. -/
def c8stA : IddfsSt :=
  { grid := gridW, explored := [(1, 1)], pm := [((1, 1), none)],
    history := [], log := [], sched := [] }

/-- The same IDDFS state with the explored set and parent map cleared. -/
def c8stB : IddfsSt :=
  { grid := gridW, explored := [], pm := [], history := [], log := [],
    sched := [] }

/-- A UCS state whose heap top is a strictly cheaper late entry for a
node that has already been pulled and expanded (it is in `explored`). -/
def c5st : UcsSt :=
  { grid := gridW, frontier := [(1, 5, (1, 1))], explored := [(1, 1)],
    pm := [((1, 1), some (0, 0)), ((0, 0), none)],
    cost_map := [((1, 1), 2), ((0, 0), 0)], counter := 6,
    history := [], log := [], sched := [] }

/-- A UCS state whose heap top is a stale entry: its recorded cost `3`
exceeds the best known cost `1` for its node. -/
def c5stStale : UcsSt :=
  { grid := gridW, frontier := [(3, 7, (1, 0))], explored := [],
    pm := [((0, 0), none)], cost_map := [((1, 0), 1), ((0, 0), 0)],
    counter := 8, history := [], log := [], sched := [] }

/-- A 4-cell corridor on which an obstacle can spawn behind the search. -/
def grid41 : Grid := ⟨4, 1, (0, 0), (3, 0), [], []⟩

/-- A spawn schedule placing an obstacle on `(1,0)` after it was walked. -/
def sched41 : List (Option Pos) := [none, none, some (1, 0), none]

/-- The final BFS state of the `grid41`/`sched41` run. -/
def c1s41 : PlainSt :=
  { grid := { width := 4, height := 1, start := (0, 0), target := (3, 0),
              walls := [], dynamic_obstacles := [(1, 0)] },
    frontier := [], explored := [(0, 0), (1, 0), (2, 0), (3, 0)],
    pm := [((3, 0), some (2, 0)), ((2, 0), some (1, 0)),
           ((1, 0), some (0, 0)), ((0, 0), none)],
    in_frontier := [],
    history := [[(0, 0)], [(1, 0)], [(2, 0)], [(3, 0)]],
    log := [(1, 0)], sched := [] }

/-- The result of the `grid41`/`sched41` BFS run. -/
def c1r41 : SearchResult :=
  { path := [(0, 0), (1, 0), (2, 0), (3, 0)],
    explored := [(0, 0), (1, 0), (2, 0), (3, 0)],
    frontier_history := [[(0, 0)], [(1, 0)], [(2, 0)], [(3, 0)]],
    total_nodes_explored := 4, found := true,
    dynamic_obstacles_encountered := [(1, 0)] }

/-- The result of BFS, DFS, UCS and DLS on `grid21`. -/
def c1r1 : SearchResult :=
  { path := [(0, 0), (1, 0)], explored := [(0, 0), (1, 0)],
    frontier_history := [[(0, 0)], [(1, 0)]],
    total_nodes_explored := 2, found := true,
    dynamic_obstacles_encountered := [] }

/-- The result of IDDFS on `grid21` (snapshots are explored-set copies). -/
def c1r2 : SearchResult :=
  { path := [(0, 0), (1, 0)], explored := [(0, 0), (1, 0)],
    frontier_history := [[(0, 0)], [(0, 0), (1, 0)]],
    total_nodes_explored := 2, found := true,
    dynamic_obstacles_encountered := [] }

/-- The result of bidirectional search on `grid21`. -/
def c1r3 : SearchResult :=
  { path := [(0, 0), (1, 0)], explored := [(0, 0), (1, 0)],
    frontier_history := [], total_nodes_explored := 2, found := true,
    dynamic_obstacles_encountered := [] }

/-- The result of UCS and IDDFS on the 1-cell grid (start = target). -/
def c1r0 : SearchResult :=
  { path := [(0, 0)], explored := [(0, 0)], frontier_history := [[(0, 0)]],
    total_nodes_explored := 1, found := true,
    dynamic_obstacles_encountered := [] }

/-- The parent-map shape maintained by every search: each recorded parent
edge is one of the 8 moves, the only root (stored `None`) is the tree\'s
source `sp`, and every recorded parent is itself a key. -/
def pmGood (sp : Pos) (pm : PM) : Prop :=
  (∀ n c, plookup pm n = some (some c) → n ∈ movements c) ∧
  (∀ n, plookup pm n = some none → n = sp) ∧
  (∀ n c, plookup pm n = some (some c) → (plookup pm c).isSome)

/-- `d` is the minimum number of steps from the grid's start to `y` under
8-directional movement on the static grid `g`. -/
def distMin (g : Grid) (y : Pos) (d : Nat) : Prop :=
  walkNb g d g.start y = true ∧ ∀ m, m < d → walkNb g m g.start y = false

/-- The BFS optimality invariant on static runs: the schedule never
spawns, the parent-map keys are exactly the discovered nodes, the
`in_frontier` set mirrors the queue, the queue is duplicate-free and
disjoint from the explored set, neighbors of explored nodes are
discovered, every discovered node's parent chain realizes its graph
distance from the start, and the queue distances pairwise span at most
two consecutive levels. -/
def c6Inv (g : Grid) (s : PlainSt) : Prop :=
  s.grid = g ∧ (∀ c ∈ s.sched, c = none) ∧
  (∀ x, (plookup s.pm x).isSome ↔ (x ∈ s.explored ∨ x ∈ s.in_frontier)) ∧
  (∀ x, x ∈ s.in_frontier ↔ x ∈ s.frontier) ∧
  s.frontier.Nodup ∧
  (∀ x ∈ s.frontier, x ∉ s.explored) ∧
  (∀ u ∈ s.explored, ∀ v ∈ get_neighbors g u, (plookup s.pm v).isSome) ∧
  (plookup s.pm g.start).isSome ∧
  pmAcyc s.pm ∧
  (∀ x, (plookup s.pm x).isSome → ∃ d l, distMin g x d ∧
    reconstructAux s.pm (s.pm.length + 1) x = some l ∧ l.length = d + 1) ∧
  List.Pairwise (fun a b => ∀ da db, distMin g a da → distMin g b db →
    da ≤ db ∧ db ≤ da + 1) s.frontier

/-- The run invariant of the BFS/DFS loop used for path correctness: the
grid only accumulates obstacles, the parent map is well-shaped and every
frontier position is a parent-map key. -/
def plainInv (g0 : Grid) (s : PlainSt) : Prop :=
  gridExtends g0 s.grid ∧ pmGood g0.start s.pm ∧
    ∀ x ∈ s.frontier, (plookup s.pm x).isSome

/-- The run invariant of the UCS loop used for path correctness. -/
def ucsInv (g0 : Grid) (s : UcsSt) : Prop :=
  gridExtends g0 s.grid ∧ pmGood g0.start s.pm ∧
    ∀ it ∈ s.frontier, (plookup s.pm it.2.2).isSome

/-- The run invariant of the DLS loop used for path correctness. -/
def dlsInv (g0 : Grid) (s : DlsSt) : Prop :=
  gridExtends g0 s.grid ∧ pmGood g0.start s.pm ∧
    ∀ it ∈ s.frontier, (plookup s.pm it.1).isSome

/-- The run invariant of the bidirectional loop used for path correctness:
both parent trees are well-shaped and every frontier or explored position
of each direction is a key of that direction's parent map. -/
def biInv (g0 : Grid) (s : BiSt) : Prop :=
  gridExtends g0 s.grid ∧
  pmGood g0.start s.forward_parent ∧ pmGood g0.target s.backward_parent ∧
  (∀ x ∈ s.forward_frontier, (plookup s.forward_parent x).isSome) ∧
  (∀ x ∈ s.backward_frontier, (plookup s.backward_parent x).isSome) ∧
  (∀ x ∈ s.forward_explored, (plookup s.forward_parent x).isSome) ∧
  (∀ x ∈ s.backward_explored, (plookup s.backward_parent x).isSome)

theorem purgeLoop_eq_filter {α : Type} (keep : α → Bool) (l : List α) :
    purgeLoop keep l = l.filter keep := by
  suffices h : ∀ acc, l.foldl (fun acc it => if keep it then acc ++ [it] else acc) acc
      = acc ++ l.filter keep by
    simpa [purgeLoop] using h []
  induction l with
  | nil => intro acc; simp
  | cons a t ih =>
    intro acc
    by_cases h : keep a = true <;> simp [List.foldl_cons, h, ih, List.filter_cons]

theorem movements_ne_self (p q : Pos) (h : q ∈ movements p) : q ≠ p := by
  simp only [movements, List.mem_cons, List.not_mem_nil, or_false] at h
  rcases h with h | h | h | h | h | h | h | h <;>
    (subst h; intro hc; cases p with
      | mk a b => simp only [Prod.mk.injEq] at hc; omega)

theorem get_neighbors_subset_movements (g : Grid) (p q : Pos)
    (h : q ∈ get_neighbors g p) : q ∈ movements p := by
  simpa [get_neighbors] using (List.mem_filter.mp h).1

theorem get_neighbors_not_blocked (g : Grid) (p q : Pos)
    (h : q ∈ get_neighbors g p) : is_blocked g q = false := by
  have := (List.mem_filter.mp h).2
  simp only [Bool.and_eq_true, Bool.not_eq_true'] at this
  exact this.2

theorem get_neighbors_valid (g : Grid) (p q : Pos)
    (h : q ∈ get_neighbors g p) : is_valid_position g q = true := by
  have := (List.mem_filter.mp h).2
  simp only [Bool.and_eq_true, Bool.not_eq_true'] at this
  exact this.1

/-! ## Claim theorems -/

/-- C10: every position outside the grid bounds is reported blocked by
`Grid.is_blocked` even though it belongs to neither the wall set nor the
dynamic-obstacle set, and consequently `Grid.get_neighbors` never returns
an out-of-bounds coordinate. -/
theorem c10_out_of_bounds_blocked :
    (∀ (g : Grid) (p : Pos), is_valid_position g p = false →
      p ∉ g.walls → p ∉ g.dynamic_obstacles → is_blocked g p = true) ∧
    (∀ (g : Grid) (p q : Pos), q ∈ get_neighbors g p →
      is_valid_position g q = true) := by
  constructor
  · intro g p hv _ _
    simp [is_blocked, hv]
  · intro g p q hq
    exact get_neighbors_valid g p q hq

theorem c10_out_of_bounds_blocked_witness :
    is_blocked gridW (5, 5) = true ∧ is_valid_position gridW (1, 1) = true :=
  ⟨c10_out_of_bounds_blocked.1 gridW (5, 5) (by decide) (by decide) (by decide),
   c10_out_of_bounds_blocked.2 gridW (0, 0) (1, 1) (by decide)⟩

/-- C9: `Grid.__init__` raises `ValueError` exactly when the start or the
target is out of bounds — but traversal-time frontier exhaustion is not
always a normal `found = false` result: when the obstacle reconciliation
step empties the frontier, the subsequent unconditional pop raises
`IndexError` (here: a 3×1 corridor whose only frontier node `(1, 0)` is
removed after an obstacle spawns on it). -/
theorem c9_validation_and_frontier_crash :
    (∀ (w h : Int) (s t : Pos),
      (∃ e, mkGrid w h s t = Res.exc e) ↔
        (is_valid_position ⟨w, h, s, t, [], []⟩ s = false ∨
         is_valid_position ⟨w, h, s, t, [], []⟩ t = false)) ∧
    breadth_first_search grid31 [none, some (1, 0)] 10
      = some (Res.exc PyErr.indexError) := by
  constructor
  · intro w h s t
    constructor
    · rintro ⟨e, he⟩
      by_cases hs : is_valid_position ⟨w, h, s, t, [], []⟩ s = false
      · exact Or.inl hs
      · by_cases ht : is_valid_position ⟨w, h, s, t, [], []⟩ t = false
        · exact Or.inr ht
        · exfalso
          simp only [Bool.not_eq_false] at hs ht
          simp [mkGrid, hs, ht] at he
    · rintro (hs | ht)
      · exact ⟨PyErr.valueErrorStart, by simp [mkGrid, hs]⟩
      · by_cases hs : is_valid_position ⟨w, h, s, t, [], []⟩ s = false
        · exact ⟨PyErr.valueErrorStart, by simp [mkGrid, hs]⟩
        · simp only [Bool.not_eq_false] at hs
          exact ⟨PyErr.valueErrorTarget, by simp [mkGrid, hs, ht]⟩
  · decide

theorem c9_validation_and_frontier_crash_witness :
    ∃ e, mkGrid 3 1 (-1, 0) (2, 0) = Res.exc e :=
  (c9_validation_and_frontier_crash.1 3 1 (-1, 0) (2, 0)).mpr (Or.inl (by decide))

/-- C4 counterexample: on the 2×1 grid the bidirectional search performs
two expansion steps (both endpoints are explored) and returns
`found = true`, yet `frontier_history` is empty — the snapshot is appended
only at the end of an outer iteration and is skipped entirely on the
iteration that finds the meeting point, so there is not exactly one
snapshot per expansion step. -/
theorem c4_counterexample :
    bidirectional_search grid21 [] 10
      = some { path := [(0, 0), (1, 0)], explored := [(0, 0), (1, 0)],
               frontier_history := [], total_nodes_explored := 2,
               found := true, dynamic_obstacles_encountered := [] } := by
  decide

theorem check_dynamic_obstacles_no_blocked {α : Type} (extract : α → Pos)
    (g : Grid) (frontier : List α) (log : List Pos) (choice : Option Pos)
    (g' : Grid) (p : Pos) (hs : spawn_dynamic_obstacle g choice = (g', some p)) :
    ∀ it ∈ (check_dynamic_obstacles extract g frontier log choice).2.1,
      is_blocked g' (extract it) = false := by
  intro it hit
  unfold check_dynamic_obstacles at hit
  rw [hs] at hit
  simp only [purgeLoop_eq_filter, List.mem_filter, Bool.not_eq_true'] at hit
  exact hit.2

theorem spawned_is_blocked (g : Grid) (choice : Option Pos) (g' : Grid) (p : Pos)
    (hs : spawn_dynamic_obstacle g choice = (g', some p)) :
    is_blocked g' p = true := by
  unfold spawn_dynamic_obstacle at hs
  cases choice with
  | none => simp at hs
  | some q =>
    simp only at hs
    by_cases hq : isEmptyCell g q = true
    · rw [if_pos hq] at hs
      injection hs with hg hp
      injection hp with hp
      subst hg
      subst hp
      have hval : is_valid_position g q = true := by
        unfold isEmptyCell at hq
        simp only [Bool.and_eq_true] at hq
        exact hq.1.1.1.1
      have hval' :
          is_valid_position { g with dynamic_obstacles := q :: g.dynamic_obstacles } q
            = true := hval
      simp [is_blocked, hval']
    · rw [if_neg hq] at hs
      simp at hs

theorem plainEnqueue_fields (c : Pos) (ns : List Pos) (s : PlainSt) :
    (plainEnqueue c ns s).explored = s.explored ∧
    (plainEnqueue c ns s).history = s.history ∧
    (plainEnqueue c ns s).grid = s.grid ∧
    (plainEnqueue c ns s).log = s.log ∧
    (plainEnqueue c ns s).sched = s.sched := by
  induction ns generalizing s with
  | nil => exact ⟨rfl, rfl, rfl, rfl, rfl⟩
  | cons n rest ih =>
    unfold plainEnqueue
    simp only [List.foldl_cons]
    by_cases h : n ∉ s.explored ∧ n ∉ s.in_frontier
    · rw [if_pos h]; exact ih _
    · rw [if_neg h]; exact ih s

theorem dlsEnqueue_fields (c : Pos) (d : Nat) (ns : List Pos) (s : DlsSt) :
    (dlsEnqueue c d ns s).explored = s.explored ∧
    (dlsEnqueue c d ns s).history = s.history ∧
    (dlsEnqueue c d ns s).grid = s.grid ∧
    (dlsEnqueue c d ns s).log = s.log ∧
    (dlsEnqueue c d ns s).sched = s.sched := by
  induction ns generalizing s with
  | nil => exact ⟨rfl, rfl, rfl, rfl, rfl⟩
  | cons n rest ih =>
    unfold dlsEnqueue
    simp only [List.foldl_cons]
    by_cases h : n ∉ s.explored ∧ n ∉ s.in_frontier
    · rw [if_pos h]; exact ih _
    · rw [if_neg h]; exact ih s

theorem ucsRelax_fields (c : Pos) (cc : Nat) (ns : List Pos) (s : UcsSt) :
    (ucsRelax c cc ns s).explored = s.explored ∧
    (ucsRelax c cc ns s).history = s.history ∧
    (ucsRelax c cc ns s).grid = s.grid ∧
    (ucsRelax c cc ns s).log = s.log ∧
    (ucsRelax c cc ns s).sched = s.sched := by
  induction ns generalizing s with
  | nil => exact ⟨rfl, rfl, rfl, rfl, rfl⟩
  | cons n rest ih =>
    unfold ucsRelax
    simp only [List.foldl_cons]
    by_cases h : (match clookup s.cost_map n with
      | none => true
      | some c => decide (cc + 1 < c)) = true
    · rw [if_pos h]; exact ih _
    · rw [if_neg h]; exact ih s

theorem biForwardNeighbors_fields (c : Pos) (ns : List Pos) (s : BiSt) :
    ((biForwardNeighbors c ns s).1.explored = s.explored ∧
     (biForwardNeighbors c ns s).1.forward_explored = s.forward_explored ∧
     (biForwardNeighbors c ns s).1.backward_explored = s.backward_explored) ∧
    ((biForwardNeighbors c ns s).1.history = s.history ∧
     (biForwardNeighbors c ns s).1.grid = s.grid ∧
     (biForwardNeighbors c ns s).1.log = s.log ∧
     (biForwardNeighbors c ns s).1.sched = s.sched ∧
     (biForwardNeighbors c ns s).1.backward_frontier = s.backward_frontier) := by
  induction ns generalizing s with
  | nil => exact ⟨⟨rfl, rfl, rfl⟩, rfl, rfl, rfl, rfl, rfl⟩
  | cons n rest ih =>
    unfold biForwardNeighbors
    by_cases h1 : n ∈ s.backward_explored
    · rw [if_pos h1]; exact ⟨⟨rfl, rfl, rfl⟩, rfl, rfl, rfl, rfl, rfl⟩
    · rw [if_neg h1]
      by_cases h2 : n ∉ s.forward_explored ∧ n ∉ s.forward_in_frontier
      · rw [if_pos h2]; exact ih _
      · rw [if_neg h2]; exact ih s

theorem biBackwardNeighbors_fields (c : Pos) (ns : List Pos) (s : BiSt) :
    ((biBackwardNeighbors c ns s).1.explored = s.explored ∧
     (biBackwardNeighbors c ns s).1.forward_explored = s.forward_explored ∧
     (biBackwardNeighbors c ns s).1.backward_explored = s.backward_explored) ∧
    ((biBackwardNeighbors c ns s).1.history = s.history ∧
     (biBackwardNeighbors c ns s).1.grid = s.grid ∧
     (biBackwardNeighbors c ns s).1.log = s.log ∧
     (biBackwardNeighbors c ns s).1.sched = s.sched ∧
     (biBackwardNeighbors c ns s).1.forward_frontier = s.forward_frontier) := by
  induction ns generalizing s with
  | nil => exact ⟨⟨rfl, rfl, rfl⟩, rfl, rfl, rfl, rfl, rfl⟩
  | cons n rest ih =>
    unfold biBackwardNeighbors
    by_cases h1 : n ∈ s.forward_explored
    · rw [if_pos h1]; exact ⟨⟨rfl, rfl, rfl⟩, rfl, rfl, rfl, rfl, rfl⟩
    · rw [if_neg h1]
      by_cases h2 : n ∉ s.backward_explored ∧ n ∉ s.backward_in_frontier
      · rw [if_pos h2]; exact ih _
      · rw [if_neg h2]; exact ih s

theorem bfsStep_history (s : PlainSt) (h : s.frontier.isEmpty = false) :
    (∀ s', bfsStep s = StepOut.next s' →
        s'.history = s.history ++ [(plainReconciled s).2.1.dedup]) ∧
    (∀ s' po, bfsStep s = StepOut.finished s' po →
        s'.history = s.history ++ [(plainReconciled s).2.1.dedup]) := by
  unfold bfsStep plainReconciled
  rcases htc : takeChoice s.sched with ⟨choice, sched'⟩
  rcases hcd : check_dynamic_obstacles id s.grid s.frontier s.log choice with ⟨g', fr', log'⟩
  simp only [h, Bool.false_eq_true, if_false, htc, hcd]
  constructor
  · intro s' heq
    split at heq
    · cases heq
    · split at heq
      · injection heq with heq
        rw [← heq]
      · split at heq
        · split at heq
          · cases heq
          · cases heq
        · injection heq with heq
          rw [← heq]
          exact (plainEnqueue_fields _ _ _).2.1
  · intro s' po heq
    split at heq
    · cases heq
    · split at heq
      · cases heq
      · split at heq
        · split at heq
          · cases heq
          · injection heq with heq1 heq2
            rw [← heq1]
        · cases heq

theorem dfsStep_history (s : PlainSt) (h : s.frontier.isEmpty = false) :
    (∀ s', dfsStep s = StepOut.next s' →
        s'.history = s.history ++ [(plainReconciled s).2.1.dedup]) ∧
    (∀ s' po, dfsStep s = StepOut.finished s' po →
        s'.history = s.history ++ [(plainReconciled s).2.1.dedup]) := by
  unfold dfsStep plainReconciled
  rcases htc : takeChoice s.sched with ⟨choice, sched'⟩
  rcases hcd : check_dynamic_obstacles id s.grid s.frontier s.log choice with ⟨g', fr', log'⟩
  simp only [h, Bool.false_eq_true, if_false, htc, hcd]
  constructor
  · intro s' heq
    split at heq
    · cases heq
    · split at heq
      · injection heq with heq
        rw [← heq]
      · split at heq
        · split at heq
          · cases heq
          · cases heq
        · injection heq with heq
          rw [← heq]
          exact (plainEnqueue_fields _ _ _).2.1
  · intro s' po heq
    split at heq
    · cases heq
    · split at heq
      · cases heq
      · split at heq
        · split at heq
          · cases heq
          · injection heq with heq1 heq2
            rw [← heq1]
        · cases heq

theorem ucsStep_history (s : UcsSt) (h : s.frontier.isEmpty = false) :
    (∀ s', ucsStep s = StepOut.next s' →
        s'.history = s.history ++ [((ucsReconciled s).2.1.map (fun it => it.2.2)).dedup]) ∧
    (∀ s' po, ucsStep s = StepOut.finished s' po →
        s'.history = s.history ++ [((ucsReconciled s).2.1.map (fun it => it.2.2)).dedup]) := by
  unfold ucsStep ucsReconciled
  rcases htc : takeChoice s.sched with ⟨choice, sched'⟩
  rcases hcd : check_dynamic_obstacles (fun it : UItem => it.2.2)
    s.grid s.frontier s.log choice with ⟨g', fr', log'⟩
  simp only [h, Bool.false_eq_true, if_false, htc, hcd]
  constructor
  · intro s' heq
    split at heq
    · cases heq
    · split at heq
      · injection heq with heq
        rw [← heq]
      · split at heq
        · injection heq with heq
          rw [← heq]
        · split at heq
          · split at heq
            · cases heq
            · cases heq
          · injection heq with heq
            rw [← heq]
            exact (ucsRelax_fields _ _ _ _).2.1
  · intro s' po heq
    split at heq
    · cases heq
    · split at heq
      · cases heq
      · split at heq
        · cases heq
        · split at heq
          · split at heq
            · cases heq
            · injection heq with heq1 heq2
              rw [← heq1]
          · cases heq

theorem dlsStep_history (L : Nat) (s : DlsSt) (h : s.frontier.isEmpty = false) :
    (∀ s', dlsStep L s = StepOut.next s' →
        s'.history = s.history ++ [((dlsReconciled s).2.1.map (fun it => it.1)).dedup]) ∧
    (∀ s' po, dlsStep L s = StepOut.finished s' po →
        s'.history = s.history ++ [((dlsReconciled s).2.1.map (fun it => it.1)).dedup]) := by
  unfold dlsStep dlsReconciled
  rcases htc : takeChoice s.sched with ⟨choice, sched'⟩
  rcases hcd : check_dynamic_obstacles (fun it : Pos × Nat => it.1)
    s.grid s.frontier s.log choice with ⟨g', fr', log'⟩
  simp only [h, Bool.false_eq_true, if_false, htc, hcd]
  constructor
  · intro s' heq
    split at heq
    · cases heq
    · split at heq
      · injection heq with heq
        rw [← heq]
      · split at heq
        · split at heq
          · cases heq
          · cases heq
        · split at heq
          · injection heq with heq
            rw [← heq]
            exact (dlsEnqueue_fields _ _ _ _).2.1
          · injection heq with heq
            rw [← heq]
  · intro s' po heq
    split at heq
    · cases heq
    · split at heq
      · cases heq
      · split at heq
        · split at heq
          · cases heq
          · injection heq with heq1 heq2
            rw [← heq1]
        · split at heq
          · cases heq
          · cases heq

theorem biFN_history (c : Pos) (ns : List Pos) (s : BiSt) (r : BiSt × Option Pos)
    (h : biForwardNeighbors c ns s = r) : r.1.history = s.history := by
  rw [← h]
  exact (biForwardNeighbors_fields c ns s).2.1

theorem biBN_history (c : Pos) (ns : List Pos) (s : BiSt) (r : BiSt × Option Pos)
    (h : biBackwardNeighbors c ns s = r) : r.1.history = s.history := by
  rw [← h]
  exact (biBackwardNeighbors_fields c ns s).2.1

theorem mem_addSet {s : List Pos} {x y : Pos} (h : x ∈ addSet s y) :
    x ∈ s ∨ x = y := by
  unfold addSet at h
  split at h
  · exact Or.inl h
  · simp only [List.mem_append, List.mem_singleton] at h
    exact h

theorem biFN_all (c : Pos) (ns : List Pos) (s : BiSt) (r : BiSt × Option Pos)
    (h : biForwardNeighbors c ns s = r) :
    r.1.history = s.history ∧ r.1.backward_frontier = s.backward_frontier ∧
    r.1.explored = s.explored ∧ r.1.forward_explored = s.forward_explored ∧
    r.1.backward_explored = s.backward_explored := by
  rw [← h]
  obtain ⟨⟨a, b, c'⟩, d, _, _, _, e⟩ := biForwardNeighbors_fields c ns s
  exact ⟨d, e, a, b, c'⟩

theorem biBN_all (c : Pos) (ns : List Pos) (s : BiSt) (r : BiSt × Option Pos)
    (h : biBackwardNeighbors c ns s = r) :
    r.1.history = s.history ∧ r.1.forward_frontier = s.forward_frontier ∧
    r.1.explored = s.explored ∧ r.1.forward_explored = s.forward_explored ∧
    r.1.backward_explored = s.backward_explored := by
  rw [← h]
  obtain ⟨⟨a, b, c'⟩, d, _, _, _, e⟩ := biBackwardNeighbors_fields c ns s
  exact ⟨d, e, a, b, c'⟩

theorem biForwardPhase_fields (s0 : BiSt) (r : BiSt × Option Pos)
    (hp : biForwardPhase s0 = r) :
    r.1.history = s0.history ∧
    r.1.backward_frontier = s0.backward_frontier ∧
    r.1.backward_explored = s0.backward_explored ∧
    (∀ x ∈ r.1.forward_explored,
      x ∈ s0.forward_explored ∨ s0.forward_frontier.head? = some x) ∧
    (∀ x ∈ r.1.explored, x ∈ s0.explored ∨ s0.forward_frontier.head? = some x) := by
  unfold biForwardPhase at hp
  split at hp
  · rw [← hp]
    exact ⟨rfl, rfl, rfl, fun x hx => Or.inl hx, fun x hx => Or.inl hx⟩
  · rename_i current rest hfr
    dsimp only at hp
    split at hp
    · rw [← hp]
      exact ⟨rfl, rfl, rfl, fun x hx => Or.inl hx, fun x hx => Or.inl hx⟩
    · obtain ⟨a, b, c', d, e⟩ := biFN_all _ _ _ _ hp
      refine ⟨a, b, e, ?_, ?_⟩
      · intro x hx
        rw [d] at hx
        rcases mem_addSet hx with h1 | h1
        · exact Or.inl h1
        · right
          rw [h1, hfr]
          rfl
      · intro x hx
        rw [c'] at hx
        rcases mem_addSet hx with h1 | h1
        · exact Or.inl h1
        · right
          rw [h1, hfr]
          rfl

theorem biBackwardPhase_fields (s3 : BiSt) (r : BiSt × Option Pos)
    (hp : biBackwardPhase s3 = r) :
    r.1.history = s3.history ∧
    r.1.forward_frontier = s3.forward_frontier ∧
    r.1.forward_explored = s3.forward_explored ∧
    (∀ x ∈ r.1.backward_explored,
      x ∈ s3.backward_explored ∨ s3.backward_frontier.head? = some x) ∧
    (∀ x ∈ r.1.explored, x ∈ s3.explored ∨ s3.backward_frontier.head? = some x) := by
  unfold biBackwardPhase at hp
  split at hp
  · rw [← hp]
    exact ⟨rfl, rfl, rfl, fun x hx => Or.inl hx, fun x hx => Or.inl hx⟩
  · rename_i current rest hfr
    dsimp only at hp
    split at hp
    · rw [← hp]
      exact ⟨rfl, rfl, rfl, fun x hx => Or.inl hx, fun x hx => Or.inl hx⟩
    · obtain ⟨a, b, c', d, e⟩ := biBN_all _ _ _ _ hp
      refine ⟨a, b, d, ?_, ?_⟩
      · intro x hx
        rw [e] at hx
        rcases mem_addSet hx with h1 | h1
        · exact Or.inl h1
        · right
          rw [h1, hfr]
          rfl
      · intro x hx
        rw [c'] at hx
        rcases mem_addSet hx with h1 | h1
        · exact Or.inl h1
        · right
          rw [h1, hfr]
          rfl

theorem biStep_history (s : BiSt) :
    (∀ s', biStep s = BiStepOut.next s' →
      s'.history = s.history ++ [(s'.forward_frontier ++ s'.backward_frontier).dedup]) ∧
    (∀ s' m, biStep s = BiStepOut.meet s' m → s'.history = s.history) := by
  unfold biStep
  rcases h1 : takeChoice s.sched with ⟨c1, sched1⟩
  rcases h2 : check_dynamic_obstacles id s.grid s.forward_frontier s.log c1 with ⟨g1, f1, log1⟩
  rcases h3 : takeChoice sched1 with ⟨c2, sched2⟩
  rcases h4 : check_dynamic_obstacles id g1 s.backward_frontier log1 c2 with ⟨g2, b1, log2⟩
  simp only [h1, h2, h3, h4]
  constructor
  · intro s' heq
    split at heq
    · cases heq
    · rename_i s3 hp
      split at heq
      · cases heq
      · rename_i s6 hp2
        injection heq with heq
        have ha : s3.history = s.history := (biForwardPhase_fields _ _ hp).1
        have hb : s6.history = s3.history := (biBackwardPhase_fields _ _ hp2).1
        rw [← heq]
        show s6.history ++ [(s6.forward_frontier ++ s6.backward_frontier).dedup]
          = s.history ++ [(s6.forward_frontier ++ s6.backward_frontier).dedup]
        rw [hb, ha]
  · intro s' m heq
    split at heq
    · rename_i s3 m' hp
      injection heq with heq hm
      rw [← heq]
      exact (biForwardPhase_fields _ _ hp).1
    · rename_i s3 hp
      split at heq
      · rename_i s6 m' hp2
        injection heq with heq hm
        rw [← heq]
        have ha : s3.history = s.history := (biForwardPhase_fields _ _ hp).1
        have hb : s6.history = s3.history := (biBackwardPhase_fields _ _ hp2).1
        rw [hb, ha]
      · cases heq

theorem biStep_explored (s : BiSt) :
    ∀ s', (biStep s = BiStepOut.next s' ∨ ∃ m, biStep s = BiStepOut.meet s' m) →
      (∀ x ∈ s'.forward_explored,
        x ∈ s.forward_explored ∨ (biReconciledF s).2.1.head? = some x) ∧
      (∀ x ∈ s'.backward_explored,
        x ∈ s.backward_explored ∨ (biReconciledB s).2.1.head? = some x) ∧
      (∀ x ∈ s'.explored, x ∈ s.explored ∨ (biReconciledF s).2.1.head? = some x
        ∨ (biReconciledB s).2.1.head? = some x) := by
  unfold biStep biReconciledB biReconciledF
  rcases h1 : takeChoice s.sched with ⟨c1, sched1⟩
  rcases h2 : check_dynamic_obstacles id s.grid s.forward_frontier s.log c1 with ⟨g1, f1, log1⟩
  rcases h3 : takeChoice sched1 with ⟨c2, sched2⟩
  rcases h4 : check_dynamic_obstacles id g1 s.backward_frontier log1 c2 with ⟨g2, b1, log2⟩
  simp only [h1, h2, h3, h4]
  intro s' hout
  rcases hout with heq | ⟨m, heq⟩
  · split at heq
    · cases heq
    · rename_i s3 hp
      split at heq
      · cases heq
      · rename_i s6 hp2
        injection heq with heq
        obtain ⟨_, hbf, hbe, hfe, hex⟩ := biForwardPhase_fields _ _ hp
        obtain ⟨_, _, hfe2, hbe2, hex2⟩ := biBackwardPhase_fields _ _ hp2
        have hbf' : s3.backward_frontier = b1 := hbf
        have hbe' : s3.backward_explored = s.backward_explored := hbe
        have hfe' : ∀ x ∈ s3.forward_explored,
            x ∈ s.forward_explored ∨ f1.head? = some x := hfe
        have hex' : ∀ x ∈ s3.explored, x ∈ s.explored ∨ f1.head? = some x := hex
        have hfe2' : s6.forward_explored = s3.forward_explored := hfe2
        have hbe2' : ∀ x ∈ s6.backward_explored,
            x ∈ s3.backward_explored ∨ s3.backward_frontier.head? = some x := hbe2
        have hex2' : ∀ x ∈ s6.explored,
            x ∈ s3.explored ∨ s3.backward_frontier.head? = some x := hex2
        rw [← heq]
        refine ⟨fun x hx => ?_, fun x hx => ?_, fun x hx => ?_⟩
        · have hx' : x ∈ s6.forward_explored := hx
          rw [hfe2'] at hx'
          exact hfe' x hx'
        · have hx' : x ∈ s6.backward_explored := hx
          rcases hbe2' x hx' with h' | h'
          · rw [hbe'] at h'
            exact Or.inl h'
          · rw [hbf'] at h'
            exact Or.inr h'
        · have hx' : x ∈ s6.explored := hx
          rcases hex2' x hx' with h' | h'
          · rcases hex' x h' with h'' | h''
            · exact Or.inl h''
            · exact Or.inr (Or.inl h'')
          · rw [hbf'] at h'
            exact Or.inr (Or.inr h')
  · split at heq
    · rename_i s3 m' hp
      injection heq with heq hm
      obtain ⟨_, hbf, hbe, hfe, hex⟩ := biForwardPhase_fields _ _ hp
      have hbe' : s3.backward_explored = s.backward_explored := hbe
      have hfe' : ∀ x ∈ s3.forward_explored,
          x ∈ s.forward_explored ∨ f1.head? = some x := hfe
      have hex' : ∀ x ∈ s3.explored, x ∈ s.explored ∨ f1.head? = some x := hex
      rw [← heq]
      refine ⟨fun x hx => hfe' x hx, fun x hx => ?_, fun x hx => ?_⟩
      · rw [hbe'] at hx
        exact Or.inl hx
      · rcases hex' x hx with h' | h'
        · exact Or.inl h'
        · exact Or.inr (Or.inl h')
    · rename_i s3 hp
      split at heq
      · rename_i s6 m' hp2
        injection heq with heq hm
        obtain ⟨_, hbf, hbe, hfe, hex⟩ := biForwardPhase_fields _ _ hp
        obtain ⟨_, _, hfe2, hbe2, hex2⟩ := biBackwardPhase_fields _ _ hp2
        have hbf' : s3.backward_frontier = b1 := hbf
        have hbe' : s3.backward_explored = s.backward_explored := hbe
        have hfe' : ∀ x ∈ s3.forward_explored,
            x ∈ s.forward_explored ∨ f1.head? = some x := hfe
        have hex' : ∀ x ∈ s3.explored, x ∈ s.explored ∨ f1.head? = some x := hex
        have hfe2' : s6.forward_explored = s3.forward_explored := hfe2
        have hbe2' : ∀ x ∈ s6.backward_explored,
            x ∈ s3.backward_explored ∨ s3.backward_frontier.head? = some x := hbe2
        have hex2' : ∀ x ∈ s6.explored,
            x ∈ s3.explored ∨ s3.backward_frontier.head? = some x := hex2
        rw [← heq]
        refine ⟨fun x hx => ?_, fun x hx => ?_, fun x hx => ?_⟩
        · have hx' : x ∈ s6.forward_explored := hx
          rw [hfe2'] at hx'
          exact hfe' x hx'
        · have hx' : x ∈ s6.backward_explored := hx
          rcases hbe2' x hx' with h' | h'
          · rw [hbe'] at h'
            exact Or.inl h'
          · rw [hbf'] at h'
            exact Or.inr h'
        · have hx' : x ∈ s6.explored := hx
          rcases hex2' x hx' with h' | h'
          · rcases hex' x h' with h'' | h''
            · exact Or.inl h''
            · exact Or.inr (Or.inl h'')
          · rw [hbf'] at h'
            exact Or.inr (Or.inr h')
      · cases heq

theorem iddfsCheck_fields (st : IddfsSt) :
    (iddfsCheck st).explored = st.explored ∧ (iddfsCheck st).history = st.history ∧
      (iddfsCheck st).pm = st.pm := by
  unfold iddfsCheck
  split
  · rcases htc : takeChoice st.sched with ⟨choice, sched'⟩
    rcases hcd : check_dynamic_obstacles id st.grid ([] : List Pos) st.log choice
      with ⟨g', fr', log'⟩
    simp only [htc, hcd]
    exact ⟨trivial, trivial, trivial⟩
  · exact ⟨rfl, rfl, rfl⟩

theorem iddfs_go_hist_of_rec (tgt : Pos) (l : Nat)
    (hrec : ∀ cur st r, iddfs_dls_rec tgt l cur st = some r →
      ∃ ext, r.1.history = st.history ++ ext) :
    ∀ cur ns st r, iddfs_dls_go tgt l cur ns st = some r →
      ∃ ext, r.1.history = st.history ++ ext := by
  intro cur ns
  induction ns with
  | nil =>
    intro st r h
    rw [iddfs_dls_go] at h
    injection h with h
    exact ⟨[], by rw [← h]; simp⟩
  | cons n rest ih =>
    intro st r h
    rw [iddfs_dls_go] at h
    split at h
    · exact ih st r h
    · dsimp only at h
      split at h
      · cases h
      · rename_i st2 path h2
        injection h with h
        obtain ⟨e1, he1⟩ := hrec n _ _ h2
        exact ⟨e1, by rw [← h]; exact he1⟩
      · rename_i st2 h2
        obtain ⟨e1, he1⟩ := hrec n _ _ h2
        obtain ⟨e2, he2⟩ := ih st2 r h
        refine ⟨e1 ++ e2, ?_⟩
        rw [he2, he1, List.append_assoc]

theorem iddfs_rec_hist (tgt : Pos) (limit : Nat) :
    ∀ cur st r, iddfs_dls_rec tgt limit cur st = some r →
      ∃ ext, r.1.history
        = st.history ++ [addSet (iddfsCheck st).explored cur] ++ ext := by
  induction limit with
  | zero =>
    intro cur st r h
    rw [iddfs_dls_rec] at h
    split at h
    · split at h
      · cases h
      · injection h with h
        refine ⟨[], ?_⟩
        rw [← h]
        simp [(iddfsCheck_fields st).2.1]
    · injection h with h
      refine ⟨[], ?_⟩
      rw [← h]
      simp [(iddfsCheck_fields st).2.1]
  | succ l ih =>
    have hgo := iddfs_go_hist_of_rec tgt l (fun cur st r h => by
      obtain ⟨ext, he⟩ := ih cur st r h
      exact ⟨[addSet (iddfsCheck st).explored cur] ++ ext, by
        rw [he, List.append_assoc]⟩)
    intro cur st r h
    rw [iddfs_dls_rec] at h
    split at h
    · split at h
      · cases h
      · injection h with h
        refine ⟨[], ?_⟩
        rw [← h]
        simp [(iddfsCheck_fields st).2.1]
    · obtain ⟨ext, he⟩ := hgo cur _ _ r h
      refine ⟨ext, ?_⟩
      rw [he]
      simp [(iddfsCheck_fields st).2.1, List.append_assoc]


/-- C4 (amended): for BFS, DFS, UCS and DLS every loop iteration that pops
appends exactly one frontier snapshot, taken after that step's obstacle
reconciliation and before the pop, and a position on which an obstacle
spawns is absent from the reconciled frontier (hence from that snapshot);
the bidirectional search instead appends its combined snapshot at the end
of a full outer iteration — after the step's pops and expansions — and
appends none on the iteration that finds the meeting point; IDDFS appends
copies of the explored set, one per visited node, not frontier contents. -/
theorem c4_snapshot_placement :
    (∀ s : PlainSt, s.frontier.isEmpty = false →
      (∀ s', bfsStep s = StepOut.next s' →
        s'.history = s.history ++ [(plainReconciled s).2.1.dedup]) ∧
      (∀ s' po, bfsStep s = StepOut.finished s' po →
        s'.history = s.history ++ [(plainReconciled s).2.1.dedup])) ∧
    (∀ s : PlainSt, s.frontier.isEmpty = false →
      (∀ s', dfsStep s = StepOut.next s' →
        s'.history = s.history ++ [(plainReconciled s).2.1.dedup]) ∧
      (∀ s' po, dfsStep s = StepOut.finished s' po →
        s'.history = s.history ++ [(plainReconciled s).2.1.dedup])) ∧
    (∀ s : UcsSt, s.frontier.isEmpty = false →
      (∀ s', ucsStep s = StepOut.next s' →
        s'.history = s.history ++ [((ucsReconciled s).2.1.map (fun it => it.2.2)).dedup]) ∧
      (∀ s' po, ucsStep s = StepOut.finished s' po →
        s'.history = s.history ++ [((ucsReconciled s).2.1.map (fun it => it.2.2)).dedup])) ∧
    (∀ (L : Nat) (s : DlsSt), s.frontier.isEmpty = false →
      (∀ s', dlsStep L s = StepOut.next s' →
        s'.history = s.history ++ [((dlsReconciled s).2.1.map (fun it => it.1)).dedup]) ∧
      (∀ s' po, dlsStep L s = StepOut.finished s' po →
        s'.history = s.history ++ [((dlsReconciled s).2.1.map (fun it => it.1)).dedup])) ∧
    (∀ (α : Type) (extract : α → Pos) (g : Grid) (frontier : List α)
       (log : List Pos) (choice : Option Pos) (g' : Grid) (p : Pos),
      spawn_dynamic_obstacle g choice = (g', some p) →
      ∀ it ∈ (check_dynamic_obstacles extract g frontier log choice).2.1,
        extract it ≠ p) ∧
    (∀ s : BiSt,
      (∀ s', biStep s = BiStepOut.next s' →
        s'.history = s.history ++ [(s'.forward_frontier ++ s'.backward_frontier).dedup]) ∧
      (∀ s' m, biStep s = BiStepOut.meet s' m → s'.history = s.history)) ∧
    (∀ (tgt : Pos) (limit : Nat) (cur : Pos) (st : IddfsSt) r,
      iddfs_dls_rec tgt limit cur st = some r →
      ∃ ext, r.1.history
        = st.history ++ [addSet (iddfsCheck st).explored cur] ++ ext) := by
  refine ⟨bfsStep_history, dfsStep_history, ucsStep_history,
    dlsStep_history, ?_, biStep_history, fun tgt limit => iddfs_rec_hist tgt limit⟩
  intro α extract g frontier log choice g' p hs it hit heq
  have hb := check_dynamic_obstacles_no_blocked extract g frontier log choice g' p hs it hit
  rw [heq, spawned_is_blocked g choice g' p hs] at hb
  simp at hb

theorem c4_snapshot_placement_witness :
    (bfsStep (plainInit gridW []) = StepOut.next stepW ∧
      stepW.history = (plainInit gridW []).history
        ++ [(plainReconciled (plainInit gridW [])).2.1.dedup]) ∧
    ((1, 1) ∈ (check_dynamic_obstacles id gridW [(1, 1), (2, 1)] [] (some (1, 1))).2.1
      → False) :=
  ⟨⟨rfl, (c4_snapshot_placement.1 (plainInit gridW []) (by decide)).1 stepW rfl⟩,
   fun hmem =>
     c4_snapshot_placement.2.2.2.2.1 Pos id gridW [(1, 1), (2, 1)] [] (some (1, 1))
       { gridW with dynamic_obstacles := [(1, 1)] } (1, 1) rfl (1, 1) hmem rfl⟩


theorem bfsStep_explored (s : PlainSt) (h : s.frontier.isEmpty = false) :
    (∀ s', bfsStep s = StepOut.next s' → ∀ x ∈ s'.explored,
        x ∈ s.explored ∨ (plainReconciled s).2.1.head? = some x) ∧
    (∀ s' po, bfsStep s = StepOut.finished s' po → ∀ x ∈ s'.explored,
        x ∈ s.explored ∨ (plainReconciled s).2.1.head? = some x) := by
  unfold bfsStep plainReconciled
  rcases htc : takeChoice s.sched with ⟨choice, sched'⟩
  rcases hcd : check_dynamic_obstacles id s.grid s.frontier s.log choice with ⟨g', fr', log'⟩
  simp only [h, Bool.false_eq_true, if_false, htc, hcd]
  constructor
  · intro s' heq x hx
    split at heq
    · cases heq
    · split at heq
      · injection heq with heq
        rw [← heq] at hx
        exact Or.inl hx
      · split at heq
        · split at heq <;> cases heq
        · injection heq with heq
          rw [← heq] at hx
          rw [(plainEnqueue_fields _ _ _).1] at hx
          rcases mem_addSet hx with h1 | h1
          · exact Or.inl h1
          · right
            rw [h1]
            rfl
  · intro s' po heq x hx
    split at heq
    · cases heq
    · split at heq
      · cases heq
      · split at heq
        · split at heq
          · cases heq
          · injection heq with heq1 heq2
            rw [← heq1] at hx
            rcases mem_addSet hx with h1 | h1
            · exact Or.inl h1
            · right
              rw [h1]
              rfl
        · cases heq

theorem dfsStep_explored (s : PlainSt) (h : s.frontier.isEmpty = false) :
    (∀ s', dfsStep s = StepOut.next s' → ∀ x ∈ s'.explored,
        x ∈ s.explored ∨ (plainReconciled s).2.1.getLast? = some x) ∧
    (∀ s' po, dfsStep s = StepOut.finished s' po → ∀ x ∈ s'.explored,
        x ∈ s.explored ∨ (plainReconciled s).2.1.getLast? = some x) := by
  unfold dfsStep plainReconciled
  rcases htc : takeChoice s.sched with ⟨choice, sched'⟩
  rcases hcd : check_dynamic_obstacles id s.grid s.frontier s.log choice with ⟨g', fr', log'⟩
  simp only [h, Bool.false_eq_true, if_false, htc, hcd]
  constructor
  · intro s' heq x hx
    split at heq
    · cases heq
    · rename_i current hlast
      split at heq
      · injection heq with heq
        rw [← heq] at hx
        exact Or.inl hx
      · split at heq
        · split at heq <;> cases heq
        · injection heq with heq
          rw [← heq] at hx
          rw [(plainEnqueue_fields _ _ _).1] at hx
          rcases mem_addSet hx with h1 | h1
          · exact Or.inl h1
          · right
            rw [h1]
            exact hlast
  · intro s' po heq x hx
    split at heq
    · cases heq
    · rename_i current hlast
      split at heq
      · cases heq
      · split at heq
        · split at heq
          · cases heq
          · injection heq with heq1 heq2
            rw [← heq1] at hx
            rcases mem_addSet hx with h1 | h1
            · exact Or.inl h1
            · right
              rw [h1]
              exact hlast
        · cases heq

theorem ucsStep_explored (s : UcsSt) (h : s.frontier.isEmpty = false) :
    (∀ s', ucsStep s = StepOut.next s' → ∀ x ∈ s'.explored,
        x ∈ s.explored ∨ ∃ cc cnt rest,
          heappop (ucsReconciled s).2.1 = Res.ok ((cc, cnt, x), rest)) ∧
    (∀ s' po, ucsStep s = StepOut.finished s' po → ∀ x ∈ s'.explored,
        x ∈ s.explored ∨ ∃ cc cnt rest,
          heappop (ucsReconciled s).2.1 = Res.ok ((cc, cnt, x), rest)) := by
  unfold ucsStep ucsReconciled
  rcases htc : takeChoice s.sched with ⟨choice, sched'⟩
  rcases hcd : check_dynamic_obstacles (fun it : UItem => it.2.2)
    s.grid s.frontier s.log choice with ⟨g', fr', log'⟩
  simp only [h, Bool.false_eq_true, if_false, htc, hcd]
  constructor
  · intro s' heq x hx
    split at heq
    · cases heq
    · rename_i cc cnt current rest hpop
      split at heq
      · injection heq with heq
        rw [← heq] at hx
        exact Or.inl hx
      · split at heq
        · injection heq with heq
          rw [← heq] at hx
          exact Or.inl hx
        · split at heq
          · split at heq <;> cases heq
          · injection heq with heq
            rw [← heq] at hx
            rw [(ucsRelax_fields _ _ _ _).1] at hx
            rcases mem_addSet hx with h1 | h1
            · exact Or.inl h1
            · right
              rw [h1]
              exact ⟨cc, cnt, rest, hpop⟩
  · intro s' po heq x hx
    split at heq
    · cases heq
    · rename_i cc cnt current rest hpop
      split at heq
      · cases heq
      · split at heq
        · cases heq
        · split at heq
          · split at heq
            · cases heq
            · injection heq with heq1 heq2
              rw [← heq1] at hx
              rcases mem_addSet hx with h1 | h1
              · exact Or.inl h1
              · right
                rw [h1]
                exact ⟨cc, cnt, rest, hpop⟩
          · cases heq

theorem dlsStep_explored (L : Nat) (s : DlsSt) (h : s.frontier.isEmpty = false) :
    (∀ s', dlsStep L s = StepOut.next s' → ∀ x ∈ s'.explored,
        x ∈ s.explored ∨ ∃ d, (dlsReconciled s).2.1.getLast? = some (x, d)) ∧
    (∀ s' po, dlsStep L s = StepOut.finished s' po → ∀ x ∈ s'.explored,
        x ∈ s.explored ∨ ∃ d, (dlsReconciled s).2.1.getLast? = some (x, d)) := by
  unfold dlsStep dlsReconciled
  rcases htc : takeChoice s.sched with ⟨choice, sched'⟩
  rcases hcd : check_dynamic_obstacles (fun it : Pos × Nat => it.1)
    s.grid s.frontier s.log choice with ⟨g', fr', log'⟩
  simp only [h, Bool.false_eq_true, if_false, htc, hcd]
  constructor
  · intro s' heq x hx
    split at heq
    · cases heq
    · rename_i current depth hlast
      split at heq
      · injection heq with heq
        rw [← heq] at hx
        exact Or.inl hx
      · split at heq
        · split at heq <;> cases heq
        · split at heq
          · injection heq with heq
            rw [← heq] at hx
            rw [(dlsEnqueue_fields _ _ _ _).1] at hx
            rcases mem_addSet hx with h1 | h1
            · exact Or.inl h1
            · right
              rw [h1]
              exact ⟨depth, hlast⟩
          · injection heq with heq
            rw [← heq] at hx
            rcases mem_addSet hx with h1 | h1
            · exact Or.inl h1
            · right
              rw [h1]
              exact ⟨depth, hlast⟩
  · intro s' po heq x hx
    split at heq
    · cases heq
    · rename_i current depth hlast
      split at heq
      · cases heq
      · split at heq
        · split at heq
          · cases heq
          · injection heq with heq1 heq2
            rw [← heq1] at hx
            rcases mem_addSet hx with h1 | h1
            · exact Or.inl h1
            · right
              rw [h1]
              exact ⟨depth, hlast⟩
        · split at heq <;> cases heq


/-- C2: in BFS, DFS, UCS, DLS and both directions of bidirectional search,
a position is added to the explored set only at the moment it is popped
from the frontier for expansion, never at enqueue time: every
neighbor-enqueue loop leaves the explored set(s) unchanged, and across one
loop iteration the explored set grows at most by the popped position(s). -/
theorem c2_explored_on_pop :
    (∀ c ns s, (plainEnqueue c ns s).explored = s.explored) ∧
    (∀ c cc ns s, (ucsRelax c cc ns s).explored = s.explored) ∧
    (∀ c d ns s, (dlsEnqueue c d ns s).explored = s.explored) ∧
    (∀ c ns s, (biForwardNeighbors c ns s).1.forward_explored = s.forward_explored ∧
      (biForwardNeighbors c ns s).1.backward_explored = s.backward_explored ∧
      (biForwardNeighbors c ns s).1.explored = s.explored) ∧
    (∀ c ns s, (biBackwardNeighbors c ns s).1.forward_explored = s.forward_explored ∧
      (biBackwardNeighbors c ns s).1.backward_explored = s.backward_explored ∧
      (biBackwardNeighbors c ns s).1.explored = s.explored) ∧
    (∀ s, s.frontier.isEmpty = false →
      (∀ s', bfsStep s = StepOut.next s' → ∀ x ∈ s'.explored,
          x ∈ s.explored ∨ (plainReconciled s).2.1.head? = some x) ∧
      (∀ s' po, bfsStep s = StepOut.finished s' po → ∀ x ∈ s'.explored,
          x ∈ s.explored ∨ (plainReconciled s).2.1.head? = some x)) ∧
    (∀ s, s.frontier.isEmpty = false →
      (∀ s', dfsStep s = StepOut.next s' → ∀ x ∈ s'.explored,
          x ∈ s.explored ∨ (plainReconciled s).2.1.getLast? = some x) ∧
      (∀ s' po, dfsStep s = StepOut.finished s' po → ∀ x ∈ s'.explored,
          x ∈ s.explored ∨ (plainReconciled s).2.1.getLast? = some x)) ∧
    (∀ s, s.frontier.isEmpty = false →
      (∀ s', ucsStep s = StepOut.next s' → ∀ x ∈ s'.explored,
          x ∈ s.explored ∨ ∃ cc cnt rest,
            heappop (ucsReconciled s).2.1 = Res.ok ((cc, cnt, x), rest)) ∧
      (∀ s' po, ucsStep s = StepOut.finished s' po → ∀ x ∈ s'.explored,
          x ∈ s.explored ∨ ∃ cc cnt rest,
            heappop (ucsReconciled s).2.1 = Res.ok ((cc, cnt, x), rest))) ∧
    (∀ L s, s.frontier.isEmpty = false →
      (∀ s', dlsStep L s = StepOut.next s' → ∀ x ∈ s'.explored,
          x ∈ s.explored ∨ ∃ d, (dlsReconciled s).2.1.getLast? = some (x, d)) ∧
      (∀ s' po, dlsStep L s = StepOut.finished s' po → ∀ x ∈ s'.explored,
          x ∈ s.explored ∨ ∃ d, (dlsReconciled s).2.1.getLast? = some (x, d))) ∧
    (∀ s s', (biStep s = BiStepOut.next s' ∨ ∃ m, biStep s = BiStepOut.meet s' m) →
      (∀ x ∈ s'.forward_explored,
        x ∈ s.forward_explored ∨ (biReconciledF s).2.1.head? = some x) ∧
      (∀ x ∈ s'.backward_explored,
        x ∈ s.backward_explored ∨ (biReconciledB s).2.1.head? = some x) ∧
      (∀ x ∈ s'.explored, x ∈ s.explored ∨ (biReconciledF s).2.1.head? = some x
        ∨ (biReconciledB s).2.1.head? = some x)) :=
  ⟨fun c ns s => (plainEnqueue_fields c ns s).1,
   fun c cc ns s => (ucsRelax_fields c cc ns s).1,
   fun c d ns s => (dlsEnqueue_fields c d ns s).1,
   fun c ns s => ⟨(biForwardNeighbors_fields c ns s).1.2.1,
     (biForwardNeighbors_fields c ns s).1.2.2, (biForwardNeighbors_fields c ns s).1.1⟩,
   fun c ns s => ⟨(biBackwardNeighbors_fields c ns s).1.2.1,
     (biBackwardNeighbors_fields c ns s).1.2.2, (biBackwardNeighbors_fields c ns s).1.1⟩,
   bfsStep_explored, dfsStep_explored, ucsStep_explored, dlsStep_explored,
   biStep_explored⟩

theorem c2_explored_on_pop_witness :
    (0, 0) ∈ (plainInit gridW []).explored
      ∨ (plainReconciled (plainInit gridW [])).2.1.head? = some (0, 0) :=
  (c2_explored_on_pop.2.2.2.2.2.1 (plainInit gridW []) (by decide)).1
    stepW rfl (0, 0) (by decide)


/-- C3 counterexample: a reconciliation invocation on the priority
discipline that starts from a valid `heapq` array and removes the entries
of the newly blocked position `(1, 1)` leaves an array that violates the
heap-ordering invariant — the code filters the heap list in place and
never re-heapifies. -/
theorem c3_counterexample :
    isHeap ucsHeapW ∧
    spawn_dynamic_obstacle gridW (some (1, 1))
      = ({ gridW with dynamic_obstacles := [(1, 1)] }, some (1, 1)) ∧
    (check_dynamic_obstacles (fun it : UItem => it.2.2) gridW ucsHeapW []
        (some (1, 1))).2.1
      = [ (1, 1, (0, 1)), (2, 4, (1, 0)), (2, 5, (2, 0)), (2, 6, (0, 2)),
          (1, 3, (2, 1)), (2, 7, (1, 2)) ] ∧
    ¬ isHeap [ (1, 1, ((0 : Int), (1 : Int))), (2, 4, (1, 0)), (2, 5, (2, 0)),
               (2, 6, (0, 2)), (1, 3, (2, 1)), (2, 7, (1, 2)) ] := by
  refine ⟨by decide, by decide, by decide, by decide⟩

/-- C3 (amended): on every frontier discipline the reconciliation step,
when an obstacle spawns, removes exactly those frontier entries whose
underlying position is now blocked, preserves the relative order of the
surviving entries (the result is a sublist of the input, which is heap
validity's only surviving remnant for the priority discipline — the heap
invariant itself may be violated since the array is filtered without
re-heapifying), appends the one spawned position to the obstacle log, and
leaves everything else untouched (when no obstacle spawns the grid,
frontier and log are returned unchanged; the explored set and parent map
are never passed to, returned by, or modified through the reconciliation
step). -/
theorem c3_reconciliation :
    (∀ (α : Type) (extract : α → Pos) (g : Grid) (frontier : List α)
       (log : List Pos) (choice : Option Pos) (g' : Grid) (p : Pos),
      spawn_dynamic_obstacle g choice = (g', some p) →
        check_dynamic_obstacles extract g frontier log choice
          = (g', frontier.filter (fun it => !is_blocked g' (extract it)), log ++ [p])) ∧
    (∀ (α : Type) (extract : α → Pos) (g : Grid) (frontier : List α)
       (log : List Pos) (choice : Option Pos) (g' : Grid),
      spawn_dynamic_obstacle g choice = (g', none) →
        check_dynamic_obstacles extract g frontier log choice = (g', frontier, log)) ∧
    (∀ (α : Type) (extract : α → Pos) (g : Grid) (frontier : List α)
       (log : List Pos) (choice : Option Pos),
      List.Sublist ((check_dynamic_obstacles extract g frontier log choice).2.1)
        frontier) ∧
    (∀ (α : Type) (extract : α → Pos) (g : Grid) (frontier : List α)
       (log : List Pos) (choice : Option Pos) (g' : Grid) (p : Pos) (it : α),
      spawn_dynamic_obstacle g choice = (g', some p) →
      (it ∈ (check_dynamic_obstacles extract g frontier log choice).2.1 ↔
        it ∈ frontier ∧ is_blocked g' (extract it) = false)) := by
  refine ⟨?_, ?_, ?_, ?_⟩
  · intro α extract g frontier log choice g' p hs
    unfold check_dynamic_obstacles
    simp only [hs, purgeLoop_eq_filter]
  · intro α extract g frontier log choice g' hs
    unfold check_dynamic_obstacles
    simp only [hs]
  · intro α extract g frontier log choice
    unfold check_dynamic_obstacles
    rcases hs : spawn_dynamic_obstacle g choice with ⟨g', ob⟩
    cases ob
    · exact List.Sublist.refl frontier
    · simp only [purgeLoop_eq_filter]
      exact List.filter_sublist frontier
  · intro α extract g frontier log choice g' p it hs
    unfold check_dynamic_obstacles
    simp only [hs, purgeLoop_eq_filter, List.mem_filter, Bool.not_eq_true']

theorem c3_reconciliation_witness :
    check_dynamic_obstacles id gridW [(0, 1), (1, 1)] [] (some (1, 1))
      = ({ gridW with dynamic_obstacles := [(1, 1)] }, [(0, 1)], [(1, 1)]) := by
  have h := c3_reconciliation.1 Pos id gridW [(0, 1), (1, 1)] [] (some (1, 1))
    { gridW with dynamic_obstacles := [(1, 1)] } (1, 1) (by decide)
  rw [h]
  decide


theorem spawn_fields (g : Grid) (choice : Option Pos) (g' : Grid) (ob : Option Pos)
    (h : spawn_dynamic_obstacle g choice = (g', ob)) :
    g'.width = g.width ∧ g'.height = g.height ∧ g'.start = g.start ∧
    g'.target = g.target ∧ g'.walls = g.walls ∧
    (g'.dynamic_obstacles = g.dynamic_obstacles ∨
      ∃ p, ob = some p ∧ isEmptyCell g p = true ∧
        g'.dynamic_obstacles = p :: g.dynamic_obstacles) := by
  unfold spawn_dynamic_obstacle at h
  cases choice with
  | none =>
    injection h with h1 h2
    rw [← h1]
    exact ⟨rfl, rfl, rfl, rfl, rfl, Or.inl rfl⟩
  | some q =>
    simp only at h
    split at h
    · rename_i hq
      injection h with h1 h2
      rw [← h1, ← h2]
      exact ⟨rfl, rfl, rfl, rfl, rfl, Or.inr ⟨q, rfl, hq, rfl⟩⟩
    · injection h with h1 h2
      rw [← h1]
      exact ⟨rfl, rfl, rfl, rfl, rfl, Or.inl rfl⟩

theorem gridExtends_refl (g : Grid) : gridExtends g g :=
  ⟨rfl, rfl, rfl, rfl, rfl, fun _ h => h⟩

theorem spawn_extends (g0 g : Grid) (choice : Option Pos) (g' : Grid)
    (ob : Option Pos) (h : spawn_dynamic_obstacle g choice = (g', ob))
    (he : gridExtends g0 g) : gridExtends g0 g' := by
  obtain ⟨hw, hh, hs, ht, hwl, hd⟩ := spawn_fields g choice g' ob h
  obtain ⟨ew, eh, es, et, ewl, ed⟩ := he
  refine ⟨hw.trans ew, hh.trans eh, hs.trans es, ht.trans et, hwl.trans ewl, ?_⟩
  intro p hp
  rcases hd with hd | ⟨q, _, _, hd⟩
  · rw [hd]
    exact ed p hp
  · rw [hd]
    exact List.mem_cons_of_mem q (ed p hp)

theorem check_extends (g0 : Grid) {α : Type} (extract : α → Pos) (g : Grid)
    (frontier : List α) (log : List Pos) (choice : Option Pos)
    (he : gridExtends g0 g) :
    gridExtends g0 (check_dynamic_obstacles extract g frontier log choice).1 := by
  unfold check_dynamic_obstacles
  rcases hs : spawn_dynamic_obstacle g choice with ⟨g', ob⟩
  cases ob
  · exact spawn_extends g0 g choice g' none hs he
  · exact spawn_extends g0 g choice g' _ hs he

theorem is_valid_position_extends (g0 g : Grid) (hw : g.width = g0.width)
    (hh : g.height = g0.height) (p : Pos) :
    is_valid_position g p = is_valid_position g0 p := by
  unfold is_valid_position
  rw [hw, hh]

theorem get_neighbors_mono (g0 g : Grid) (he : gridExtends g0 g) (p q : Pos)
    (h : q ∈ get_neighbors g p) : q ∈ get_neighbors g0 p := by
  obtain ⟨hw, hh, _, _, hwl, hd⟩ := he
  rw [get_neighbors, List.mem_filter] at h ⊢
  obtain ⟨hm, hcond⟩ := h
  simp only [Bool.and_eq_true, Bool.not_eq_true'] at hcond
  obtain ⟨hv, hb⟩ := hcond
  have hv0 : is_valid_position g0 q = true := by
    rw [← is_valid_position_extends g0 g hw hh q]
    exact hv
  refine ⟨hm, ?_⟩
  simp only [Bool.and_eq_true, Bool.not_eq_true']
  refine ⟨hv0, ?_⟩
  unfold is_blocked at hb ⊢
  rw [hv0]
  rw [is_valid_position_extends g0 g hw hh q, hv0] at hb
  simp only [Bool.not_true, Bool.false_eq_true, if_false] at hb ⊢
  simp only [Bool.or_eq_false_iff] at hb ⊢
  obtain ⟨hb1, hb2⟩ := hb
  constructor
  · rw [hwl] at hb1
    exact hb1
  · by_cases hq : q ∈ g0.dynamic_obstacles
    · exfalso
      have := hd q hq
      simp only [decide_eq_false_iff_not] at hb2
      exact hb2 this
    · simp only [decide_eq_false_iff_not]
      exact hq

theorem walk_snoc (g : Grid) (n : Nat) (s p q : Pos)
    (hw : walkNb g n s p = true) (hq : q ∈ get_neighbors g p) :
    walkNb g (n + 1) s q = true := by
  induction n generalizing s with
  | zero =>
    unfold walkNb at hw
    have : s = p := of_decide_eq_true hw
    subst this
    unfold walkNb
    rw [List.any_eq_true]
    exact ⟨q, hq, by unfold walkNb; simp⟩
  | succ m ih =>
    unfold walkNb at hw
    rw [List.any_eq_true] at hw
    obtain ⟨r, hr, hwr⟩ := hw
    have := ih r hwr
    show walkNb g (m + 1 + 1) s q = true
    unfold walkNb
    rw [List.any_eq_true]
    exact ⟨r, hr, this⟩

theorem check_dynamic_sublist {α : Type} (extract : α → Pos) (g : Grid)
    (frontier : List α) (log : List Pos) (choice : Option Pos) :
    List.Sublist ((check_dynamic_obstacles extract g frontier log choice).2.1)
      frontier := by
  unfold check_dynamic_obstacles
  rcases hs : spawn_dynamic_obstacle g choice with ⟨g', ob⟩
  cases ob
  · exact List.Sublist.refl frontier
  · simp only [purgeLoop_eq_filter]
    exact List.filter_sublist frontier


theorem mem_of_getLast_opt {α : Type} {l : List α} {a : α}
    (h : l.getLast? = some a) : a ∈ l := by
  have hx : a ∈ l.getLast? := Option.mem_def.mpr h
  obtain ⟨hne, heq⟩ := List.mem_getLast?_eq_getLast hx
  rw [heq]
  exact List.getLast_mem hne

theorem dlsEnqueue_frontier (c : Pos) (d : Nat) (ns : List Pos) (s : DlsSt) :
    ∀ it ∈ (dlsEnqueue c d ns s).frontier,
      it ∈ s.frontier ∨ ∃ n ∈ ns, it = (n, d + 1) := by
  induction ns generalizing s with
  | nil => intro it hit; exact Or.inl hit
  | cons n rest ih =>
    intro it hit
    unfold dlsEnqueue at hit
    rw [List.foldl_cons] at hit
    by_cases h : n ∉ s.explored ∧ n ∉ s.in_frontier
    · rw [if_pos h] at hit
      rcases ih _ it hit with hin | ⟨m, hm, hev⟩
      · simp only [List.mem_append, List.mem_singleton] at hin
        rcases hin with hin | hin
        · exact Or.inl hin
        · exact Or.inr ⟨n, List.mem_cons_self n rest, hin⟩
      · exact Or.inr ⟨m, List.mem_cons_of_mem n hm, hev⟩
    · rw [if_neg h] at hit
      rcases ih s it hit with hin | ⟨m, hm, hev⟩
      · exact Or.inl hin
      · exact Or.inr ⟨m, List.mem_cons_of_mem n hm, hev⟩

theorem dlsEnqueue_eq_fields (c : Pos) (d : Nat) (ns : List Pos) (s s' : DlsSt)
    (h : dlsEnqueue c d ns s = s') :
    s'.explored = s.explored ∧ s'.grid = s.grid ∧
      ∀ it ∈ s'.frontier, it ∈ s.frontier ∨ ∃ n ∈ ns, it = (n, d + 1) := by
  rw [← h]
  exact ⟨(dlsEnqueue_fields c d ns s).1, (dlsEnqueue_fields c d ns s).2.2.1,
    dlsEnqueue_frontier c d ns s⟩

theorem dlsStep_sound (g0 : Grid) (L : Nat) (s : DlsSt)
    (hext : gridExtends g0 s.grid)
    (hinv : ∀ it ∈ s.frontier, walkNb g0 it.2 g0.start it.1 = true ∧ it.2 ≤ L) :
    (∀ s', dlsStep L s = StepOut.next s' → gridExtends g0 s'.grid ∧
      ∀ it ∈ s'.frontier, walkNb g0 it.2 g0.start it.1 = true ∧ it.2 ≤ L) ∧
    (∀ s' path, dlsStep L s = StepOut.finished s' (some path) →
      ∃ n, n ≤ L ∧ walkNb g0 n g0.start g0.target = true) := by
  unfold dlsStep
  by_cases hemp : s.frontier.isEmpty
  · simp only [hemp, if_true]
    constructor
    · intro s' heq; cases heq
    · intro s' path heq; cases heq
  · simp only [Bool.not_eq_true] at hemp
    simp only [hemp, Bool.false_eq_true, if_false]
    rcases htc : takeChoice s.sched with ⟨choice, sched'⟩
    rcases hcd : check_dynamic_obstacles (fun it : Pos × Nat => it.1)
      s.grid s.frontier s.log choice with ⟨g', fr', log'⟩
    simp only [htc, hcd]
    have hext' : gridExtends g0 g' := by
      have := check_extends g0 (fun it : Pos × Nat => it.1) s.grid s.frontier s.log choice hext
      rw [hcd] at this
      exact this
    have hsub : ∀ it ∈ fr', walkNb g0 it.2 g0.start it.1 = true ∧ it.2 ≤ L := by
      intro it hit
      have hs := check_dynamic_sublist (fun it : Pos × Nat => it.1) s.grid s.frontier s.log choice
      rw [hcd] at hs
      exact hinv it (hs.subset hit)
    constructor
    · intro s' heq
      split at heq
      · cases heq
      · rename_i current depth hlast
        have hcd2 : ((current, depth) : Pos × Nat) ∈ fr' := mem_of_getLast_opt hlast
        obtain ⟨hwalk, hdep⟩ := hsub _ hcd2
        split at heq
        · injection heq with heq
          rw [← heq]
          refine ⟨hext', ?_⟩
          intro it hit
          exact hsub it ((List.dropLast_sublist fr').subset hit)
        · split at heq
          · split at heq <;> cases heq
          · split at heq
            · rename_i hdlt
              injection heq with heq
              obtain ⟨_, hg, hfr⟩ := dlsEnqueue_eq_fields _ _ _ _ _ heq
              constructor
              · rw [hg]
                exact hext'
              · intro it hit
                rcases hfr it hit with hin | ⟨n, hn, hev⟩
                · have hin' : it ∈ fr'.dropLast := hin
                  exact hsub it ((List.dropLast_sublist fr').subset hin')
                · rw [hev]
                  rw [List.mem_reverse] at hn
                  have hn0 := get_neighbors_mono g0 g' hext' current n hn
                  constructor
                  · exact walk_snoc g0 depth g0.start current n hwalk hn0
                  · omega
            · injection heq with heq
              rw [← heq]
              refine ⟨hext', ?_⟩
              intro it hit
              exact hsub it ((List.dropLast_sublist fr').subset hit)
    · intro s' path heq
      split at heq
      · cases heq
      · rename_i current depth hlast
        have hcd2 : ((current, depth) : Pos × Nat) ∈ fr' := mem_of_getLast_opt hlast
        obtain ⟨hwalk, hdep⟩ := hsub _ hcd2
        split at heq
        · cases heq
        · split at heq
          · rename_i htg
            split at heq
            · cases heq
            · injection heq with heq1 heq2
              refine ⟨depth, hdep, ?_⟩
              have : current = g0.target := by
                rw [htg]
                exact hext'.2.2.2.1
              rw [← this]
              exact hwalk
          · split at heq <;> cases heq

theorem dls_run_sound (g0 : Grid) (L : Nat) :
    ∀ (fuel : Nat) (s : DlsSt), gridExtends g0 s.grid →
      (∀ it ∈ s.frontier, walkNb g0 it.2 g0.start it.1 = true ∧ it.2 ≤ L) →
      ∀ s' path, runLoop (dlsStep L) fuel s = some (Res.ok (s', some path)) →
        ∃ n, n ≤ L ∧ walkNb g0 n g0.start g0.target = true := by
  intro fuel
  induction fuel with
  | zero =>
    intro s _ _ s' path h
    cases h
  | succ f ih =>
    intro s hext hinv s' path h
    rw [runLoop] at h
    rcases hstep : dlsStep L s with s2 | ⟨s2, po⟩ | e | _ <;> rw [hstep] at h
    · obtain ⟨hext2, hinv2⟩ := (dlsStep_sound g0 L s hext hinv).1 s2 hstep
      exact ih s2 hext2 hinv2 s' path h
    · injection h with h
      injection h with h
      injection h with h1 h2
      rw [h2] at hstep
      exact (dlsStep_sound g0 L s hext hinv).2 s2 path hstep
    · injection h with h
      cases h
    · cases h


theorem spawn_endpoint_unblocked (g : Grid) (choice : Option Pos) (g' : Grid)
    (ob : Option Pos) (h : spawn_dynamic_obstacle g choice = (g', ob)) (p : Pos)
    (hp : p = g.start ∨ p = g.target) (hb : is_blocked g p = false) :
    is_blocked g' p = false := by
  obtain ⟨hw, hh, _, _, hwl, hd⟩ := spawn_fields g choice g' ob h
  unfold is_blocked at hb ⊢
  rw [is_valid_position_extends g g' hw hh p]
  split at hb
  · cases hb
  · rename_i hval
    rw [if_neg hval]
    simp only [Bool.or_eq_false_iff] at hb ⊢
    obtain ⟨hb1, hb2⟩ := hb
    constructor
    · rw [hwl]
      exact hb1
    · rcases hd with hd | ⟨q, _, hqe, hd⟩
      · rw [hd]
        exact hb2
      · rw [hd]
        simp only [List.mem_cons, decide_eq_false_iff_not] at hb2 ⊢
        intro hc
        rcases hc with hc | hc
        · unfold isEmptyCell at hqe
          simp only [Bool.and_eq_true, Bool.not_eq_true', decide_eq_false_iff_not] at hqe
          rcases hp with hp | hp
          · exact hqe.1.2 (by rw [← hc, hp])
          · exact hqe.2 (by rw [← hc, hp])
        · exact hb2 hc

theorem dlsStep_zero_init (g : Grid) (sched : List (Option Pos))
    (hb : is_blocked g g.start = false) :
    (g.start = g.target ∧
      ∃ s'', dlsStep 0 (dlsInit g sched) = StepOut.finished s'' (some [g.start])) ∨
    (g.start ≠ g.target ∧
      ∃ s'', dlsStep 0 (dlsInit g sched) = StepOut.next s'' ∧ s''.frontier = []) := by
  unfold dlsStep dlsInit
  rcases htc : takeChoice sched with ⟨choice, sched'⟩
  rcases hsp : spawn_dynamic_obstacle g choice with ⟨g', ob⟩
  have hb' : is_blocked g' g.start = false :=
    spawn_endpoint_unblocked g choice g' ob hsp g.start (Or.inl rfl) hb
  rcases hcd : check_dynamic_obstacles (fun it : Pos × Nat => it.1) g
    [(g.start, 0)] [] choice with ⟨g2, fr2, log2⟩
  have hg2 : g2 = g' ∧ fr2 = [(g.start, 0)] := by
    have h' := hcd
    unfold check_dynamic_obstacles at h'
    rw [hsp] at h'
    cases ob with
    | none =>
      injection h' with h1 h2
      injection h2 with h2 h3
      exact ⟨h1.symm, h2.symm⟩
    | some p =>
      simp only at h'
      injection h' with h1 h2
      injection h2 with h2 h3
      refine ⟨h1.symm, ?_⟩
      rw [← h2, purgeLoop_eq_filter]
      simp [List.filter_cons, hb']
  obtain ⟨hg2e, hfr2⟩ := hg2
  have htg2 : g2.target = g.target := by
    rw [hg2e]
    exact (spawn_fields g choice g' ob hsp).2.2.2.1
  subst hfr2
  simp only [htc, hcd, List.isEmpty_cons, Bool.false_eq_true, if_false,
    List.getLast?_singleton, List.not_mem_nil, Nat.lt_irrefl]
  by_cases heq : g.start = g.target
  · left
    refine ⟨heq, ?_⟩
    rw [if_pos (by rw [htg2]; exact heq)]
    have hrp : reconstruct_path [(g.start, none)] g.start = some [g.start] := by
      unfold reconstruct_path reconstructAux pmGet plookup
      simp
    rw [hrp]
    exact ⟨_, rfl⟩
  · right
    refine ⟨heq, ?_⟩
    rw [if_neg (by rw [htg2]; exact heq)]
    exact ⟨_, rfl, rfl⟩


theorem dls_limit_zero (g : Grid) (sched : List (Option Pos)) (fuel : Nat)
    (r : SearchResult) (hb : is_blocked g g.start = false)
    (h : depth_limited_search g 0 sched fuel = some (Res.ok r)) :
    (r.found = true ↔ g.start = g.target) := by
  unfold depth_limited_search at h
  cases fuel with
  | zero => cases h
  | succ f =>
    rcases dlsStep_zero_init g sched hb with ⟨heq, s'', hstep⟩ | ⟨hne, s'', hstep, hfr⟩
    · rw [runLoop.eq_def] at h
      simp only [hstep] at h
      simp only [Option.map_some'] at h
      injection h with h
      injection h with h
      rw [← h]
      exact ⟨fun _ => heq, fun _ => rfl⟩
    · rw [runLoop.eq_def] at h
      simp only [hstep] at h
      cases f with
      | zero => cases h
      | succ f2 =>
        have hstep2 : dlsStep 0 s'' = StepOut.finished s'' none := by
          unfold dlsStep
          rw [hfr]
          rfl
        rw [runLoop.eq_def] at h
        simp only [hstep2] at h
        simp only [Option.map_some'] at h
        injection h with h
        injection h with h
        rw [← h]
        constructor
        · intro hfa
          cases hfa
        · intro hst
          exact absurd hst hne

theorem depth_limited_sound (g : Grid) (L : Nat) (sched : List (Option Pos))
    (fuel : Nat) (r : SearchResult)
    (h : depth_limited_search g L sched fuel = some (Res.ok r))
    (hf : r.found = true) :
    ∃ n, n ≤ L ∧ walkNb g n g.start g.target = true := by
  unfold depth_limited_search at h
  rcases hrun : runLoop (dlsStep L) fuel (dlsInit g sched) with _ | res
  · rw [hrun] at h
    cases h
  · rw [hrun] at h
    cases res with
    | exc e =>
      simp only [Option.map_some'] at h
      injection h with h
      cases h
    | ok pr =>
      rcases pr with ⟨s', po⟩
      simp only [Option.map_some'] at h
      injection h with h
      injection h with h
      rw [← h] at hf
      have hpo : po.isSome = true := hf
      cases po with
      | none => cases hpo
      | some path =>
        refine dls_run_sound g L fuel (dlsInit g sched) (gridExtends_refl g)
          ?_ s' path hrun
        intro it hit
        have hit' : it = (g.start, 0) := by
          unfold dlsInit at hit
          simpa using hit
        rw [hit']
        refine ⟨?_, by omega⟩
        unfold walkNb
        simp

theorem dlsStep_target_before_limit (L : Nat) (s : DlsSt) (c : Pos)
    (hne : s.frontier.isEmpty = false)
    (hlast : (dlsReconciled s).2.1.getLast? = some (c, L))
    (hexp : c ∉ s.explored) (htar : c = (dlsReconciled s).1.target) :
    (∃ s' path, dlsStep L s = StepOut.finished s' (some path)) ∨
      dlsStep L s = StepOut.stuck := by
  unfold dlsStep
  unfold dlsReconciled at hlast htar
  rcases htc : takeChoice s.sched with ⟨choice, sched'⟩
  rcases hcd : check_dynamic_obstacles (fun it : Pos × Nat => it.1)
    s.grid s.frontier s.log choice with ⟨g', fr', log'⟩
  simp only [htc, hcd] at hlast htar ⊢
  simp only [hne, Bool.false_eq_true, if_false]
  split
  case h_1 heq' =>
    rw [hlast] at heq'
    cases heq'
  case h_2 c' d' heq' =>
    rw [hlast] at heq'
    injection heq' with heq'
    injection heq' with hc hd
    subst hc
    subst hd
    rw [if_neg hexp, if_pos htar]
    split
    · exact Or.inr rfl
    · exact Or.inl ⟨_, _, rfl⟩


/-- C7: in DLS the popped node is tested against the target before its
depth is compared with the limit — popping the target at depth equal to
the limit still finishes with a path; with `depth_limit = 0` the search
finds the target exactly when start equals target; and whenever no walk of
length at most the limit connects start to target (in particular whenever
the limit is strictly smaller than the shortest path length), `found` is
false. -/
theorem c7_dls_target_and_limit :
    (∀ (L : Nat) (s : DlsSt) (c : Pos), s.frontier.isEmpty = false →
      (dlsReconciled s).2.1.getLast? = some (c, L) → c ∉ s.explored →
      c = (dlsReconciled s).1.target →
      (∃ s' path, dlsStep L s = StepOut.finished s' (some path)) ∨
        dlsStep L s = StepOut.stuck) ∧
    (∀ (g : Grid) (sched : List (Option Pos)) (fuel : Nat) (r : SearchResult),
      is_blocked g g.start = false →
      depth_limited_search g 0 sched fuel = some (Res.ok r) →
      (r.found = true ↔ g.start = g.target)) ∧
    (∀ (g : Grid) (L : Nat) (sched : List (Option Pos)) (fuel : Nat)
       (r : SearchResult),
      depth_limited_search g L sched fuel = some (Res.ok r) →
      (∀ n, n ≤ L → walkNb g n g.start g.target = false) →
      r.found = false) :=
  ⟨fun L s c h1 h2 h3 h4 => dlsStep_target_before_limit L s c h1 h2 h3 h4,
   fun g sched fuel r hb h => dls_limit_zero g sched fuel r hb h,
   fun g L sched fuel r h hno => by
     by_contra hf
     simp only [Bool.not_eq_false] at hf
     obtain ⟨n, hn, hw⟩ := depth_limited_sound g L sched fuel r h hf
     rw [hno n hn] at hw
     cases hw⟩

theorem c7_dls_target_and_limit_witness :
    ((∃ s' path, dlsStep 0 (dlsInit grid11 []) = StepOut.finished s' (some path)) ∨
      dlsStep 0 (dlsInit grid11 []) = StepOut.stuck) ∧
    (dlsResW.found = true ↔ gridW.start = gridW.target) ∧
    dlsResW.found = false :=
  ⟨c7_dls_target_and_limit.1 0 (dlsInit grid11 []) (0, 0) (by decide) (by decide)
      (by decide) (by decide),
   c7_dls_target_and_limit.2.1 gridW [] 5 dlsResW (by decide) (by decide),
   c7_dls_target_and_limit.2.2 gridW 0 [] 5 dlsResW (by decide)
      (by
        intro n hn
        have h0 : n = 0 := Nat.le_zero.mp hn
        rw [h0]
        decide)⟩


theorem plookup_cons (k : Pos) (v : Option Pos) (pm : PM) (x : Pos) :
    plookup ((k, v) :: pm) x = if k = x then some v else plookup pm x := rfl

theorem plookup_isSome_cons (k : Pos) (v : Option Pos) (pm : PM) (x : Pos)
    (h : (plookup pm x).isSome) : (plookup ((k, v) :: pm) x).isSome := by
  rw [plookup_cons]
  split
  · rfl
  · exact h

theorem pmAcyc_closed (pm : PM) (ha : pmAcyc pm) :
    ∀ k c, plookup pm k = some (some c) → (plookup pm c).isSome := by
  induction pm with
  | nil => intro k c h; cases h
  | cons e rest ih =>
    rcases e with ⟨k0, v0⟩
    obtain ⟨ha', hfresh, hpt⟩ := ha
    intro k c h
    rw [plookup_cons] at h
    split at h
    · injection h with h
      exact plookup_isSome_cons k0 v0 rest c (hpt c h)
    · exact plookup_isSome_cons k0 v0 rest c (ih ha' k c h)

theorem reconstructAux_mono (pm : PM) :
    ∀ (f f' : Nat) (x : Pos) (l : List Pos), f ≤ f' →
      reconstructAux pm f x = some l → reconstructAux pm f' x = some l := by
  intro f
  induction f with
  | zero => intro f' x l _ h; cases h
  | succ n ih =>
    intro f' x l hle h
    rcases f' with _ | f'
    · omega
    · rw [reconstructAux] at h ⊢
      rcases hg : pmGet pm x with _ | p
      · simp only [hg] at h ⊢
        exact h
      · simp only [hg] at h ⊢
        rcases hr : reconstructAux pm n p with _ | l0
        · rw [hr] at h
          cases h
        · rw [hr] at h
          rw [ih f' p l0 (by omega) hr]
          exact h

theorem reconstructAux_cons_fresh (pm : PM) (n : Pos) (v : Option Pos)
    (hfresh : plookup pm n = none)
    (hclosed : ∀ k c, plookup pm k = some (some c) → (plookup pm c).isSome) :
    ∀ (f : Nat) (x : Pos) (l : List Pos), (plookup pm x).isSome →
      reconstructAux pm f x = some l →
      reconstructAux ((n, v) :: pm) f x = some l := by
  intro f
  induction f with
  | zero => intro x l _ h; cases h
  | succ m ih =>
    intro x l hx h
    have hxn : ¬ n = x := by
      intro he
      rw [he] at hfresh
      rw [hfresh] at hx
      cases hx
    rw [reconstructAux] at h ⊢
    have hpg : pmGet ((n, v) :: pm) x = pmGet pm x := by
      unfold pmGet
      rw [plookup_cons, if_neg hxn]
    rw [hpg]
    rcases hg : pmGet pm x with _ | p
    · simp only [hg] at h ⊢
      exact h
    · simp only [hg] at h ⊢
      rcases hl : plookup pm x with _ | w
      · rw [hl] at hx
        cases hx
      · have hw : w = some p := by
          unfold pmGet at hg
          rw [hl] at hg
          exact hg
        have hp : (plookup pm p).isSome := hclosed x p (by rw [hl, hw])
        rcases hr : reconstructAux pm m p with _ | l0
        · rw [hr] at h
          cases h
        · rw [hr] at h
          rw [ih p l0 hp hr]
          exact h

theorem pmAcyc_total (pm : PM) (ha : pmAcyc pm) :
    ∀ x, (plookup pm x).isSome →
      ∃ l, reconstructAux pm (pm.length + 1) x = some l := by
  induction pm with
  | nil => intro x hx; cases hx
  | cons e rest ih =>
    rcases e with ⟨k0, v0⟩
    obtain ⟨ha', hfresh, hpt⟩ := ha
    intro x hx
    by_cases hk : k0 = x
    · subst hk
      rcases v0 with _ | c
      · refine ⟨[k0], ?_⟩
        rw [reconstructAux]
        have hpg0 : pmGet ((k0, none) :: rest) k0 = none := by
          unfold pmGet
          rw [plookup_cons, if_pos rfl]
        simp only [hpg0]
      · have hc : (plookup rest c).isSome := hpt c rfl
        obtain ⟨l0, hl0⟩ := ih ha' c hc
        have hl1 := reconstructAux_cons_fresh rest k0 (some c) hfresh
          (pmAcyc_closed rest ha') (rest.length + 1) c l0 hc hl0
        refine ⟨k0 :: l0, ?_⟩
        rw [reconstructAux]
        have hpg : pmGet ((k0, some c) :: rest) k0 = some c := by
          unfold pmGet
          rw [plookup_cons, if_pos rfl]
        simp only [hpg]
        have hrec : reconstructAux ((k0, some c) :: rest) (((k0, some c) :: rest).length) c
            = some l0 :=
          reconstructAux_mono _ (rest.length + 1) _ c l0 (by simp) hl1
        rw [hrec]
        rfl
    · have hx' : (plookup rest x).isSome := by
        rw [plookup_cons, if_neg hk] at hx
        exact hx
      obtain ⟨l0, hl0⟩ := ih ha' x hx'
      have hl1 := reconstructAux_cons_fresh rest k0 v0 hfresh
        (pmAcyc_closed rest ha') (rest.length + 1) x l0 hx' hl0
      refine ⟨l0, ?_⟩
      exact reconstructAux_mono _ (rest.length + 1) _ x l0 (by simp) hl1


theorem mem_addSet_of_mem {s : List Pos} {x : Pos} (y : Pos) (h : x ∈ s) :
    x ∈ addSet s y := by
  unfold addSet
  split
  · exact h
  · exact List.mem_append_left _ h

theorem mem_addSet_self (s : List Pos) (y : Pos) : y ∈ addSet s y := by
  unfold addSet
  split
  · assumption
  · exact List.mem_append_right _ (List.mem_singleton.mpr rfl)

theorem iddfs_rec_unfold (tgt : Pos) (limit : Nat) (cur : Pos) (st : IddfsSt) :
    iddfs_dls_rec tgt limit cur st =
      (if cur = tgt then
        match reconstruct_path (iddfsCheck st).pm cur with
        | none => none
        | some path =>
          some ({ iddfsCheck st with
                    explored := addSet (iddfsCheck st).explored cur,
                    history := (iddfsCheck st).history
                      ++ [addSet (iddfsCheck st).explored cur] }, some path)
      else
        match limit with
        | 0 => some ({ iddfsCheck st with
                    explored := addSet (iddfsCheck st).explored cur,
                    history := (iddfsCheck st).history
                      ++ [addSet (iddfsCheck st).explored cur] }, none)
        | l + 1 =>
          iddfs_dls_go tgt l cur
            (get_neighbors (iddfsCheck st).grid cur)
            { iddfsCheck st with
                explored := addSet (iddfsCheck st).explored cur,
                history := (iddfsCheck st).history
                  ++ [addSet (iddfsCheck st).explored cur] }) := by
  rw [iddfs_dls_rec.eq_def]


theorem iddfs_go_total_of_rec (tgt : Pos) (l : Nat)
    (hrec : ∀ (cur : Pos) (st : IddfsSt), pmAcyc st.pm →
      (plookup st.pm cur).isSome →
      (∀ k, (plookup st.pm k).isSome → k ∈ st.explored ∨ k = cur) →
      ∃ st' po, iddfs_dls_rec tgt l cur st = some (st', po) ∧ pmAcyc st'.pm ∧
        (∀ k, (plookup st'.pm k).isSome → k ∈ st'.explored) ∧
        (∀ k, (plookup st.pm k).isSome → (plookup st'.pm k).isSome) ∧
        (∀ x, x ∈ st.explored → x ∈ st'.explored)) :
    ∀ (cur : Pos) (ns : List Pos) (st : IddfsSt), pmAcyc st.pm →
      (plookup st.pm cur).isSome →
      (∀ k, (plookup st.pm k).isSome → k ∈ st.explored) →
      ∃ st' po, iddfs_dls_go tgt l cur ns st = some (st', po) ∧ pmAcyc st'.pm ∧
        (∀ k, (plookup st'.pm k).isSome → k ∈ st'.explored) ∧
        (∀ k, (plookup st.pm k).isSome → (plookup st'.pm k).isSome) ∧
        (∀ x, x ∈ st.explored → x ∈ st'.explored) := by
  intro cur ns
  induction ns with
  | nil =>
    intro st h1 h2 h3
    exact ⟨st, none, by rw [iddfs_dls_go], h1, h3, fun k hk => hk, fun x hx => hx⟩
  | cons n rest ih =>
    intro st h1 h2 h3
    rw [iddfs_dls_go]
    by_cases hn : n ∈ st.explored
    · rw [if_pos hn]
      exact ih st h1 h2 h3
    · rw [if_neg hn]
      dsimp only
      have hfresh : plookup st.pm n = none := by
        rcases hq : plookup st.pm n with _ | v
        · rfl
        · exact absurd (h3 n (by rw [hq]; rfl)) hn
      have hAc : pmAcyc ((n, some cur) :: st.pm) :=
        ⟨h1, hfresh, fun c hc => by injection hc with hc; rw [← hc]; exact h2⟩
      have h2' : (plookup ((n, some cur) :: st.pm) n).isSome := by
        rw [plookup_cons, if_pos rfl]
        rfl
      have h3' : ∀ k, (plookup ((n, some cur) :: st.pm) k).isSome →
          k ∈ st.explored ∨ k = n := by
        intro k hk
        rw [plookup_cons] at hk
        by_cases he : n = k
        · exact Or.inr he.symm
        · rw [if_neg he] at hk
          exact Or.inl (h3 k hk)
      obtain ⟨st2, po, hrun, hA2, hd2, hm2, he2⟩ :=
        hrec n { st with pm := (n, some cur) :: st.pm } hAc h2' h3'
      rw [hrun]
      cases po with
      | some path =>
        exact ⟨st2, some path, rfl, hA2, hd2,
          fun k hk => hm2 k (plookup_isSome_cons n (some cur) st.pm k hk),
          fun x hx => he2 x hx⟩
      | none =>
        obtain ⟨st3, po3, hrun3, hA3, hd3, hm3, he3⟩ :=
          ih st2 hA2 (hm2 cur (plookup_isSome_cons n (some cur) st.pm cur h2)) hd2
        exact ⟨st3, po3, hrun3, hA3, hd3,
          fun k hk => hm3 k (hm2 k (plookup_isSome_cons n (some cur) st.pm k hk)),
          fun x hx => he3 x (he2 x hx)⟩

theorem iddfs_rec_total (tgt : Pos) : ∀ (limit : Nat) (cur : Pos) (st : IddfsSt),
    pmAcyc st.pm → (plookup st.pm cur).isSome →
    (∀ k, (plookup st.pm k).isSome → k ∈ st.explored ∨ k = cur) →
    ∃ st' po, iddfs_dls_rec tgt limit cur st = some (st', po) ∧ pmAcyc st'.pm ∧
      (∀ k, (plookup st'.pm k).isSome → k ∈ st'.explored) ∧
      (∀ k, (plookup st.pm k).isSome → (plookup st'.pm k).isSome) ∧
      (∀ x, x ∈ st.explored → x ∈ st'.explored) := by
  intro limit
  induction limit with
  | zero =>
    intro cur st h1 h2 h3
    rw [iddfs_rec_unfold]
    have hpmE : (iddfsCheck st).pm = st.pm := (iddfsCheck_fields st).2.2
    have hexE : (iddfsCheck st).explored = st.explored := (iddfsCheck_fields st).1
    by_cases htgt : cur = tgt
    · rw [if_pos htgt]
      obtain ⟨lch, hlch⟩ := pmAcyc_total st.pm h1 cur h2
      have hrp : reconstruct_path (iddfsCheck st).pm cur = some lch.reverse := by
        unfold reconstruct_path
        rw [hpmE, hlch]
        rfl
      rw [hrp]
      refine ⟨_, some lch.reverse, rfl, ?_, ?_, ?_, ?_⟩
      · show pmAcyc (iddfsCheck st).pm
        rw [hpmE]
        exact h1
      · intro k hk
        have hk' : (plookup st.pm k).isSome := by
          rw [← hpmE]
          exact hk
        show k ∈ addSet (iddfsCheck st).explored cur
        rw [hexE]
        rcases h3 k hk' with h | h
        · exact mem_addSet_of_mem cur h
        · rw [h]
          exact mem_addSet_self st.explored cur
      · intro k hk
        show (plookup (iddfsCheck st).pm k).isSome
        rw [hpmE]
        exact hk
      · intro x hx
        show x ∈ addSet (iddfsCheck st).explored cur
        rw [hexE]
        exact mem_addSet_of_mem cur hx
    · rw [if_neg htgt]
      refine ⟨_, none, rfl, ?_, ?_, ?_, ?_⟩
      · show pmAcyc (iddfsCheck st).pm
        rw [hpmE]
        exact h1
      · intro k hk
        have hk' : (plookup st.pm k).isSome := by
          rw [← hpmE]
          exact hk
        show k ∈ addSet (iddfsCheck st).explored cur
        rw [hexE]
        rcases h3 k hk' with h | h
        · exact mem_addSet_of_mem cur h
        · rw [h]
          exact mem_addSet_self st.explored cur
      · intro k hk
        show (plookup (iddfsCheck st).pm k).isSome
        rw [hpmE]
        exact hk
      · intro x hx
        show x ∈ addSet (iddfsCheck st).explored cur
        rw [hexE]
        exact mem_addSet_of_mem cur hx
  | succ l ih =>
    intro cur st h1 h2 h3
    rw [iddfs_rec_unfold]
    have hpmE : (iddfsCheck st).pm = st.pm := (iddfsCheck_fields st).2.2
    have hexE : (iddfsCheck st).explored = st.explored := (iddfsCheck_fields st).1
    by_cases htgt : cur = tgt
    · rw [if_pos htgt]
      obtain ⟨lch, hlch⟩ := pmAcyc_total st.pm h1 cur h2
      have hrp : reconstruct_path (iddfsCheck st).pm cur = some lch.reverse := by
        unfold reconstruct_path
        rw [hpmE, hlch]
        rfl
      rw [hrp]
      refine ⟨_, some lch.reverse, rfl, ?_, ?_, ?_, ?_⟩
      · show pmAcyc (iddfsCheck st).pm
        rw [hpmE]
        exact h1
      · intro k hk
        have hk' : (plookup st.pm k).isSome := by
          rw [← hpmE]
          exact hk
        show k ∈ addSet (iddfsCheck st).explored cur
        rw [hexE]
        rcases h3 k hk' with h | h
        · exact mem_addSet_of_mem cur h
        · rw [h]
          exact mem_addSet_self st.explored cur
      · intro k hk
        show (plookup (iddfsCheck st).pm k).isSome
        rw [hpmE]
        exact hk
      · intro x hx
        show x ∈ addSet (iddfsCheck st).explored cur
        rw [hexE]
        exact mem_addSet_of_mem cur hx
    · rw [if_neg htgt]
      have hA3 : pmAcyc ({ iddfsCheck st with
          explored := addSet (iddfsCheck st).explored cur,
          history := (iddfsCheck st).history
            ++ [addSet (iddfsCheck st).explored cur] } : IddfsSt).pm := by
        show pmAcyc (iddfsCheck st).pm
        rw [hpmE]
        exact h1
      have h23 : (plookup ({ iddfsCheck st with
          explored := addSet (iddfsCheck st).explored cur,
          history := (iddfsCheck st).history
            ++ [addSet (iddfsCheck st).explored cur] } : IddfsSt).pm cur).isSome := by
        show (plookup (iddfsCheck st).pm cur).isSome
        rw [hpmE]
        exact h2
      have h33 : ∀ k, (plookup ({ iddfsCheck st with
          explored := addSet (iddfsCheck st).explored cur,
          history := (iddfsCheck st).history
            ++ [addSet (iddfsCheck st).explored cur] } : IddfsSt).pm k).isSome →
          k ∈ ({ iddfsCheck st with
          explored := addSet (iddfsCheck st).explored cur,
          history := (iddfsCheck st).history
            ++ [addSet (iddfsCheck st).explored cur] } : IddfsSt).explored := by
        intro k hk
        have hk' : (plookup st.pm k).isSome := by
          rw [← hpmE]
          exact hk
        show k ∈ addSet (iddfsCheck st).explored cur
        rw [hexE]
        rcases h3 k hk' with h | h
        · exact mem_addSet_of_mem cur h
        · rw [h]
          exact mem_addSet_self st.explored cur
      obtain ⟨st', po, hrun, hA, hd, hm, he⟩ :=
        iddfs_go_total_of_rec tgt l ih cur
          (get_neighbors (iddfsCheck st).grid cur) _ hA3 h23 h33
      refine ⟨st', po, hrun, hA, hd, ?_, ?_⟩
      · intro k hk
        refine hm k ?_
        show (plookup (iddfsCheck st).pm k).isSome
        rw [hpmE]
        exact hk
      · intro x hx
        refine he x ?_
        show x ∈ addSet (iddfsCheck st).explored cur
        rw [hexE]
        exact mem_addSet_of_mem cur hx


theorem iddfsIters_cons_some (tgt sp : Pos) (limit : Nat) (rest : List Nat)
    (st : IddfsSt) (allExp : List Pos) (st' : IddfsSt) (path : List Pos)
    (h : iddfs_dls_rec tgt limit sp
          ({ st with explored := [], pm := [(sp, none)] } : IddfsSt)
          = some (st', some path)) :
    iddfsIters tgt sp (limit :: rest) st allExp
      = some (st', unionSet allExp st'.explored, some path) := by
  show (match iddfs_dls_rec tgt limit sp
          ({ st with explored := [], pm := [(sp, none)] } : IddfsSt) with
        | none => none
        | some (st', po) =>
          match po with
          | some path => some (st', unionSet allExp st'.explored, some path)
          | none => iddfsIters tgt sp rest st' (unionSet allExp st'.explored)) = _
  rw [h]

theorem iddfsIters_cons_none (tgt sp : Pos) (limit : Nat) (rest : List Nat)
    (st : IddfsSt) (allExp : List Pos) (st' : IddfsSt)
    (h : iddfs_dls_rec tgt limit sp
          ({ st with explored := [], pm := [(sp, none)] } : IddfsSt)
          = some (st', none)) :
    iddfsIters tgt sp (limit :: rest) st allExp
      = iddfsIters tgt sp rest st' (unionSet allExp st'.explored) := by
  show (match iddfs_dls_rec tgt limit sp
          ({ st with explored := [], pm := [(sp, none)] } : IddfsSt) with
        | none => none
        | some (st', po) =>
          match po with
          | some path => some (st', unionSet allExp st'.explored, some path)
          | none => iddfsIters tgt sp rest st' (unionSet allExp st'.explored)) = _
  rw [h]

theorem iddfsIters_total (tgt sp : Pos) :
    ∀ (limits : List Nat) (st : IddfsSt) (allExp : List Pos),
      ∃ r, iddfsIters tgt sp limits st allExp = some r := by
  intro limits
  induction limits with
  | nil => intro st allExp; exact ⟨(st, allExp, none), rfl⟩
  | cons limit rest ih =>
    intro st allExp
    have hA0 : pmAcyc [(sp, (none : Option Pos))] :=
      ⟨trivial, rfl, fun c hc => by cases hc⟩
    have h20 : (plookup [(sp, (none : Option Pos))] sp).isSome := by
      rw [plookup_cons, if_pos rfl]
      rfl
    have h30 : ∀ k, (plookup [(sp, (none : Option Pos))] k).isSome →
        k ∈ ([] : List Pos) ∨ k = sp := by
      intro k hk
      rw [plookup_cons] at hk
      by_cases he : sp = k
      · exact Or.inr he.symm
      · rw [if_neg he] at hk
        cases hk
    obtain ⟨st', po, hrun, _, _, _, _⟩ :=
      iddfs_rec_total tgt limit sp
        ({ st with explored := [], pm := [(sp, none)] } : IddfsSt) hA0 h20 h30
    cases po with
    | some path =>
      exact ⟨(st', unionSet allExp st'.explored, some path),
        iddfsIters_cons_some tgt sp limit rest st allExp st' path hrun⟩
    | none =>
      obtain ⟨r, hr⟩ := ih st' (unionSet allExp st'.explored)
      exact ⟨r, by
        rw [iddfsIters_cons_none tgt sp limit rest st allExp st' hrun]
        exact hr⟩

theorem iterative_deepening_total (g : Grid) (sched : List (Option Pos)) :
    ∃ st' allExp po,
      iddfsIters g.target g.start
          (List.range' 1 (((max g.width g.height) * 2)).toNat)
          ({ grid := g, explored := [], pm := [], history := [], log := [],
             sched := sched } : IddfsSt) []
        = some (st', allExp, po) ∧
      iterative_deepening_search g sched = some
        { path := po.getD [], explored := allExp,
          frontier_history := st'.history,
          total_nodes_explored :=
            if allExp.isEmpty then st'.explored.length else allExp.length,
          found := po.isSome, dynamic_obstacles_encountered := st'.log } := by
  obtain ⟨⟨st', allExp, po⟩, hr⟩ :=
    iddfsIters_total g.target g.start
      (List.range' 1 (((max g.width g.height) * 2)).toNat)
      ({ grid := g, explored := [], pm := [], history := [], log := [],
         sched := sched } : IddfsSt) []
  refine ⟨st', allExp, po, hr, ?_⟩
  show (match iddfsIters g.target g.start
          (List.range' 1 (((max g.width g.height) * 2)).toNat)
          ({ grid := g, explored := [], pm := [], history := [], log := [],
             sched := sched } : IddfsSt) [] with
        | none => none
        | some (st', allExp, po) =>
          some ({ path := po.getD [], explored := allExp,
                  frontier_history := st'.history,
                  total_nodes_explored :=
                    if allExp.isEmpty then st'.explored.length else allExp.length,
                  found := po.isSome,
                  dynamic_obstacles_encountered := st'.log } : SearchResult)) = _
  rw [hr]

theorem iddfs_rec_zero (tgt cur : Pos) (st : IddfsSt) (hne : cur ≠ tgt) :
    iddfs_dls_rec tgt 0 cur st = some
      ({ iddfsCheck st with
           explored := addSet (iddfsCheck st).explored cur,
           history := (iddfsCheck st).history
             ++ [addSet (iddfsCheck st).explored cur] }, none) := by
  rw [iddfs_rec_unfold, if_neg hne]

theorem iddfsIters_reset (tgt sp : Pos) (limit : Nat) (rest : List Nat)
    (stA stB : IddfsSt) (allExp : List Pos)
    (hg : stA.grid = stB.grid) (hh : stA.history = stB.history)
    (hl : stA.log = stB.log) (hs : stA.sched = stB.sched) :
    iddfsIters tgt sp (limit :: rest) stA allExp
      = iddfsIters tgt sp (limit :: rest) stB allExp := by
  have hAB : ({ stA with explored := [], pm := [(sp, none)] } : IddfsSt)
      = { stB with explored := [], pm := [(sp, none)] } := by
    cases stA
    cases stB
    simp_all
  have hA0 : pmAcyc [(sp, (none : Option Pos))] :=
    ⟨trivial, rfl, fun c hc => by cases hc⟩
  have h20 : (plookup [(sp, (none : Option Pos))] sp).isSome := by
    rw [plookup_cons, if_pos rfl]
    rfl
  have h30 : ∀ k, (plookup [(sp, (none : Option Pos))] k).isSome →
      k ∈ ([] : List Pos) ∨ k = sp := by
    intro k hk
    rw [plookup_cons] at hk
    by_cases he : sp = k
    · exact Or.inr he.symm
    · rw [if_neg he] at hk
      cases hk
  obtain ⟨st', po, hrunA, _, _, _, _⟩ :=
    iddfs_rec_total tgt limit sp
      ({ stA with explored := [], pm := [(sp, none)] } : IddfsSt) hA0 h20 h30
  have hrunB : iddfs_dls_rec tgt limit sp
      ({ stB with explored := [], pm := [(sp, none)] } : IddfsSt)
      = some (st', po) := by
    rw [← hAB]
    exact hrunA
  cases po with
  | some path =>
    rw [iddfsIters_cons_some tgt sp limit rest stA allExp st' path hrunA,
      iddfsIters_cons_some tgt sp limit rest stB allExp st' path hrunB]
  | none =>
    rw [iddfsIters_cons_none tgt sp limit rest stA allExp st' hrunA,
      iddfsIters_cons_none tgt sp limit rest stB allExp st' hrunB]

/-- C8: the IDDFS driver runs the recursive depth-limited traversal over
the limit schedule `1, 2, …, 2 * max(width, height)` and always
terminates, returning a result whose `found` flag records whether some
iteration produced a path (the first iteration to do so ends the loop);
each iteration is insensitive to the explored set and parent map left by
the previous one (they are cleared at the start of every iteration); and
the recursion stops a branch at limit `0`, returning no path and leaving
the parent map untouched for a non-target node. -/
theorem c8_iddfs_schedule_and_termination (g : Grid) (sched : List (Option Pos))
    (tgt sp cur : Pos) (st stA stB : IddfsSt) (limit : Nat) (rest : List Nat)
    (allExp : List Pos) (hne : cur ≠ tgt)
    (hg : stA.grid = stB.grid) (hh : stA.history = stB.history)
    (hl : stA.log = stB.log) (hs : stA.sched = stB.sched) :
    (∃ st' allExp' po,
      iddfsIters g.target g.start
          (List.range' 1 (((max g.width g.height) * 2)).toNat)
          ({ grid := g, explored := [], pm := [], history := [], log := [],
             sched := sched } : IddfsSt) []
        = some (st', allExp', po) ∧
      iterative_deepening_search g sched = some
        { path := po.getD [], explored := allExp',
          frontier_history := st'.history,
          total_nodes_explored :=
            if allExp'.isEmpty then st'.explored.length else allExp'.length,
          found := po.isSome, dynamic_obstacles_encountered := st'.log }) ∧
    (∃ st', iddfs_dls_rec tgt 0 cur st = some (st', none) ∧
      st'.pm = st.pm ∧ st'.explored = addSet (iddfsCheck st).explored cur) ∧
    iddfsIters tgt sp (limit :: rest) stA allExp
      = iddfsIters tgt sp (limit :: rest) stB allExp := by
  refine ⟨iterative_deepening_total g sched, ?_, ?_⟩
  · refine ⟨_, iddfs_rec_zero tgt cur st hne, ?_, rfl⟩
    show (iddfsCheck st).pm = st.pm
    exact (iddfsCheck_fields st).2.2
  · exact iddfsIters_reset tgt sp limit rest stA stB allExp hg hh hl hs


/-- Witness for C8 at the 3×3 grid: the non-target node `(0,0) ≠ (2,2)`
and two states agreeing outside the explored set and parent map. -/
theorem c8_iddfs_schedule_and_termination_witness :
    ((((0, 0) : Pos) ≠ ((2, 2) : Pos)) ∧ c8stA.grid = c8stB.grid ∧
      c8stA.history = c8stB.history ∧ c8stA.log = c8stB.log ∧
      c8stA.sched = c8stB.sched) ∧
    ((∃ st' allExp' po,
      iddfsIters gridW.target gridW.start
          (List.range' 1 (((max gridW.width gridW.height) * 2)).toNat)
          ({ grid := gridW, explored := [], pm := [], history := [], log := [],
             sched := [] } : IddfsSt) []
        = some (st', allExp', po) ∧
      iterative_deepening_search gridW [] = some
        { path := po.getD [], explored := allExp',
          frontier_history := st'.history,
          total_nodes_explored :=
            if allExp'.isEmpty then st'.explored.length else allExp'.length,
          found := po.isSome, dynamic_obstacles_encountered := st'.log }) ∧
    (∃ st', iddfs_dls_rec ((2, 2) : Pos) 0 ((0, 0) : Pos) c8stB
        = some (st', none) ∧
      st'.pm = c8stB.pm ∧
      st'.explored = addSet (iddfsCheck c8stB).explored ((0, 0) : Pos)) ∧
    iddfsIters ((2, 2) : Pos) ((0, 0) : Pos) (1 :: []) c8stA []
      = iddfsIters ((2, 2) : Pos) ((0, 0) : Pos) (1 :: []) c8stB []) :=
  ⟨⟨by decide, rfl, rfl, rfl, rfl⟩,
    c8_iddfs_schedule_and_termination gridW [] ((2, 2) : Pos) ((0, 0) : Pos)
      ((0, 0) : Pos) c8stB c8stA c8stB 1 [] [] (by decide) rfl rfl rfl rfl⟩


theorem set_concat (x y : UItem) :
    ∀ l : List UItem, (l ++ [x]).set l.length y = l ++ [y] := by
  intro l
  induction l with
  | nil => rfl
  | cons a t ih => simp only [List.cons_append, List.length_cons, List.set_cons_succ, ih]

theorem getD_concat (x : UItem) :
    ∀ l : List UItem, (l ++ [x]).getD l.length uJunk = x := by
  intro l
  induction l with
  | nil => rfl
  | cons a t ih => simp [ih]

theorem midswap_perm (T D : List UItem) (a b : UItem) :
    List.Perm (a :: (T ++ b :: D)) (b :: (T ++ a :: D)) :=
  ((List.perm_middle).cons a).trans
    ((List.Perm.swap b a (T ++ D)).trans ((List.perm_middle.symm).cons b))

theorem set_set_perm : ∀ (l : List UItem) (i j : Nat) (x : UItem), i < j →
    j < l.length → List.Perm ((l.set j (l.getD i uJunk)).set i x) (l.set j x) := by
  intro l
  induction l with
  | nil =>
    intro i j x hij hj
    simp at hj
  | cons a t ih =>
    intro i j x hij hj
    cases j with
    | zero => omega
    | succ k =>
      have hk : k < t.length := by simpa using hj
      cases i with
      | zero =>
        show List.Perm (x :: t.set k a) (a :: t.set k x)
        rw [List.set_eq_take_cons_drop a hk, List.set_eq_take_cons_drop x hk]
        exact midswap_perm (t.take k) (t.drop (k + 1)) x a
      | succ m =>
        have hmk : m < k := by omega
        show List.Perm (a :: (t.set k (t.getD m uJunk)).set m x) (a :: t.set k x)
        exact (ih m k x hmk hk).cons a

theorem siftdownLoop_perm (newitem : UItem) (startpos : Nat) :
    ∀ (pos : Nat) (heap : List UItem), pos < heap.length →
      List.Perm (siftdownLoop newitem startpos pos heap) (heap.set pos newitem) := by
  intro pos
  induction pos using Nat.strong_induction_on with
  | _ pos ih =>
    intro heap hlt
    rw [siftdownLoop]
    split
    · rename_i hsp
      dsimp only
      split
      · rename_i hult
        have hd2 := Nat.div_le_self (pos - 1) 2
        have hpp : (pos - 1) / 2 < pos := by omega
        have hpl : (pos - 1) / 2 <
            (heap.set pos (heap.getD ((pos - 1) / 2) uJunk)).length := by
          rw [List.length_set]
          omega
        exact (ih ((pos - 1) / 2) hpp _ hpl).trans
          (set_set_perm heap ((pos - 1) / 2) pos newitem hpp hlt)
      · exact List.Perm.refl _
    · exact List.Perm.refl _

theorem heappush_perm (heap : List UItem) (item : UItem) :
    List.Perm (heappush heap item) (heap ++ [item]) := by
  have hlen : heap.length < (heap ++ [item]).length := by simp
  have hg : (heap ++ [item]).getD heap.length uJunk = item := getD_concat item heap
  have h1 := siftdownLoop_perm ((heap ++ [item]).getD heap.length uJunk) 0
    heap.length (heap ++ [item]) hlen
  rw [hg, set_concat] at h1
  unfold heappush heap_siftdown
  rw [hg]
  exact h1

theorem ucsRelax_cons (current : Pos) (cc : Nat) (n : Pos) (rest : List Pos)
    (s : UcsSt) :
    ucsRelax current cc (n :: rest) s =
      ucsRelax current cc rest
        (if (match clookup s.cost_map n with
             | none => true
             | some c => decide (cc + 1 < c)) then
           { s with cost_map := (n, cc + 1) :: s.cost_map,
                    pm := (n, some current) :: s.pm,
                    frontier := heappush s.frontier (cc + 1, s.counter, n),
                    counter := s.counter + 1 }
         else s) := rfl

theorem ucsRelax_frontier_perm (current : Pos) (cc : Nat) :
    ∀ (ns : List Pos) (s : UcsSt),
      ∃ pushed, List.Perm (ucsRelax current cc ns s).frontier (s.frontier ++ pushed) := by
  intro ns
  induction ns with
  | nil =>
    intro s
    exact ⟨[], by simp [ucsRelax]⟩
  | cons n rest ih =>
    intro s
    rw [ucsRelax_cons]
    split
    · obtain ⟨pushed, hp⟩ := ih
        { s with cost_map := (n, cc + 1) :: s.cost_map,
                 pm := (n, some current) :: s.pm,
                 frontier := heappush s.frontier (cc + 1, s.counter, n),
                 counter := s.counter + 1 }
      refine ⟨(cc + 1, s.counter, n) :: pushed, ?_⟩
      have h2 : List.Perm (heappush s.frontier (cc + 1, s.counter, n) ++ pushed)
          (s.frontier ++ ((cc + 1, s.counter, n) :: pushed)) := by
        have h3 := (heappush_perm s.frontier (cc + 1, s.counter, n)).append_right pushed
        rw [List.append_assoc] at h3
        exact h3
      exact hp.trans h2
    · exact ih s


theorem ucsStep_explored_skip (s : UcsSt) (cc cnt : Nat) (cur : Pos)
    (rest : List UItem) (hne : s.frontier.isEmpty = false)
    (hpop : heappop (ucsReconciled s).2.1 = Res.ok ((cc, cnt, cur), rest))
    (hexp : cur ∈ s.explored) :
    ∃ s', ucsStep s = StepOut.next s' ∧ s'.explored = s.explored ∧
      s'.pm = s.pm ∧ s'.cost_map = s.cost_map ∧ s'.frontier = rest := by
  unfold ucsStep
  unfold ucsReconciled at hpop
  rcases htc : takeChoice s.sched with ⟨choice, sched'⟩
  rcases hcd : check_dynamic_obstacles (fun it : UItem => it.2.2)
    s.grid s.frontier s.log choice with ⟨g', fr', log'⟩
  simp only [htc, hcd] at hpop ⊢
  simp only [hne, Bool.false_eq_true, if_false, hpop]
  rw [if_pos hexp]
  exact ⟨_, rfl, rfl, rfl, rfl, rfl⟩

theorem ucsStep_stale_discard (s : UcsSt) (cc cnt c : Nat) (cur : Pos)
    (rest : List UItem) (hne : s.frontier.isEmpty = false)
    (hpop : heappop (ucsReconciled s).2.1 = Res.ok ((cc, cnt, cur), rest))
    (hexp : cur ∉ s.explored) (hck : clookup s.cost_map cur = some c)
    (hgt : c < cc) :
    ∃ s', ucsStep s = StepOut.next s' ∧ s'.explored = s.explored ∧
      s'.pm = s.pm ∧ s'.cost_map = s.cost_map ∧ s'.frontier = rest := by
  unfold ucsStep
  unfold ucsReconciled at hpop
  rcases htc : takeChoice s.sched with ⟨choice, sched'⟩
  rcases hcd : check_dynamic_obstacles (fun it : UItem => it.2.2)
    s.grid s.frontier s.log choice with ⟨g', fr', log'⟩
  simp only [htc, hcd] at hpop ⊢
  simp only [hne, Bool.false_eq_true, if_false, hpop]
  rw [if_neg hexp]
  have hcond : (match clookup s.cost_map cur with
      | none => false
      | some c => decide (cc > c)) = true := by
    rw [hck]
    exact decide_eq_true hgt
  rw [if_pos hcond]
  exact ⟨_, rfl, rfl, rfl, rfl, rfl⟩


/-- Counterexample to C5's re-opening clause: in `c5st` the node `(1,1)`
was already pulled and expanded (it is in `explored`, best known cost
`2`), and the heap top is a strictly cheaper entry `(1, 5, (1,1))` for it;
the step discards that entry without re-expansion — explored set, parent
map and cost map are all unchanged — so the node is not re-opened. -/
theorem c5_counterexample :
    ((1, 1) : Pos) ∈ c5st.explored ∧
    clookup c5st.cost_map (1, 1) = some 2 ∧
    heappop (ucsReconciled c5st).2.1 = Res.ok ((1, 5, (1, 1)), []) ∧
    (1 : Nat) < 2 ∧
    ucsStep c5st = StepOut.next
      { grid := gridW, frontier := [], explored := [(1, 1)],
        pm := [((1, 1), some (0, 0)), ((0, 0), none)],
        cost_map := [((1, 1), 2), ((0, 0), 0)], counter := 6,
        history := [[(1, 1)]], log := [], sched := [] } :=
  ⟨by decide, by decide, by decide, by decide, rfl⟩

/-- C5: when the relaxation loop finds a strictly cheaper path to a
neighbor, it prepends the new cost and parent and pushes a fresh heap
entry; stale heap entries are never removed eagerly (the frontier after
relaxation is a permutation of the old frontier plus the pushed entries);
a popped entry whose recorded cost exceeds the best known cost for its
node is discarded without re-expansion; but a node already pulled and
expanded is never re-opened — a popped entry for an explored node is
discarded before any cost comparison, leaving explored set, parent map
and cost map unchanged. -/
theorem c5_ucs_cheaper_push_and_lazy_deletion :
    (∀ (current n : Pos) (current_cost c : Nat) (ns : List Pos) (s : UcsSt),
      clookup s.cost_map n = some c → current_cost + 1 < c →
      ucsRelax current current_cost (n :: ns) s =
        ucsRelax current current_cost ns
          { s with cost_map := (n, current_cost + 1) :: s.cost_map,
                   pm := (n, some current) :: s.pm,
                   frontier := heappush s.frontier
                     (current_cost + 1, s.counter, n),
                   counter := s.counter + 1 }) ∧
    (∀ (current : Pos) (current_cost : Nat) (ns : List Pos) (s : UcsSt),
      ∃ pushed, List.Perm (ucsRelax current current_cost ns s).frontier
        (s.frontier ++ pushed)) ∧
    (∀ (s : UcsSt) (cc cnt c : Nat) (cur : Pos) (rest : List UItem),
      s.frontier.isEmpty = false →
      heappop (ucsReconciled s).2.1 = Res.ok ((cc, cnt, cur), rest) →
      cur ∉ s.explored → clookup s.cost_map cur = some c → c < cc →
      ∃ s', ucsStep s = StepOut.next s' ∧ s'.explored = s.explored ∧
        s'.pm = s.pm ∧ s'.cost_map = s.cost_map ∧ s'.frontier = rest) ∧
    (∀ (s : UcsSt) (cc cnt : Nat) (cur : Pos) (rest : List UItem),
      s.frontier.isEmpty = false →
      heappop (ucsReconciled s).2.1 = Res.ok ((cc, cnt, cur), rest) →
      cur ∈ s.explored →
      ∃ s', ucsStep s = StepOut.next s' ∧ s'.explored = s.explored ∧
        s'.pm = s.pm ∧ s'.cost_map = s.cost_map ∧ s'.frontier = rest) := by
  refine ⟨?_, ?_, ?_, ?_⟩
  · intro current n current_cost c ns s hc hlt
    rw [ucsRelax_cons]
    have hcond : (match clookup s.cost_map n with
        | none => true
        | some c => decide (current_cost + 1 < c)) = true := by
      rw [hc]
      exact decide_eq_true hlt
    rw [if_pos hcond]
  · intro current current_cost ns s
    exact ucsRelax_frontier_perm current current_cost ns s
  · intro s cc cnt c cur rest h1 h2 h3 h4 h5
    exact ucsStep_stale_discard s cc cnt c cur rest h1 h2 h3 h4 h5
  · intro s cc cnt cur rest h1 h2 h3
    exact ucsStep_explored_skip s cc cnt cur rest h1 h2 h3

/-- Witness for C5: a cheaper push on `c5st`, lazy deletion from the
initial state, a stale pop on `c5stStale`, and an explored-node pop on
`c5st`. -/
theorem c5_ucs_cheaper_push_and_lazy_deletion_witness :
    (ucsRelax (0, 0) 0 [(1, 1)] c5st =
      ucsRelax (0, 0) 0 []
        { c5st with cost_map := ((1, 1), 1) :: c5st.cost_map,
                    pm := ((1, 1), some (0, 0)) :: c5st.pm,
                    frontier := heappush c5st.frontier (1, c5st.counter, (1, 1)),
                    counter := c5st.counter + 1 }) ∧
    (∃ pushed, List.Perm (ucsRelax (0, 0) 0 [(1, 1)] (ucsInit gridW [])).frontier
      ((ucsInit gridW []).frontier ++ pushed)) ∧
    (∃ s', ucsStep c5stStale = StepOut.next s' ∧
      s'.explored = c5stStale.explored ∧ s'.pm = c5stStale.pm ∧
      s'.cost_map = c5stStale.cost_map ∧ s'.frontier = []) ∧
    (∃ s', ucsStep c5st = StepOut.next s' ∧ s'.explored = c5st.explored ∧
      s'.pm = c5st.pm ∧ s'.cost_map = c5st.cost_map ∧ s'.frontier = []) :=
  ⟨c5_ucs_cheaper_push_and_lazy_deletion.1 (0, 0) (1, 1) 0 2 [] c5st
      (by decide) (by decide),
   c5_ucs_cheaper_push_and_lazy_deletion.2.1 (0, 0) 0 [(1, 1)] (ucsInit gridW []),
   c5_ucs_cheaper_push_and_lazy_deletion.2.2.1 c5stStale 3 7 1 (1, 0) []
      (by decide) (by decide) (by decide) (by decide) (by decide),
   c5_ucs_cheaper_push_and_lazy_deletion.2.2.2 c5st 1 5 (1, 1) []
      (by decide) (by decide) (by decide)⟩


theorem movements_symm (p q : Pos) (h : q ∈ movements p) : p ∈ movements q := by
  obtain ⟨a, b⟩ := p
  obtain ⟨c, d⟩ := q
  simp only [movements, List.mem_cons, List.not_mem_nil, or_false,
    Prod.mk.injEq] at h
  rcases h with ⟨h1, h2⟩ | ⟨h1, h2⟩ | ⟨h1, h2⟩ | ⟨h1, h2⟩ | ⟨h1, h2⟩ |
    ⟨h1, h2⟩ | ⟨h1, h2⟩ | ⟨h1, h2⟩ <;>
    subst h1 <;> subst h2 <;> simp [movements, Prod.mk.injEq]

theorem pmGet_none_plookup (pm : PM) (pos : Pos)
    (hdom : (plookup pm pos).isSome) (hg : pmGet pm pos = none) :
    plookup pm pos = some none := by
  unfold pmGet at hg
  rcases hq : plookup pm pos with _ | v
  · rw [hq] at hdom
    cases hdom
  · simp only [hq] at hg
    rw [hg]

theorem pmGet_some_plookup (pm : PM) (pos p : Pos)
    (hg : pmGet pm pos = some p) : plookup pm pos = some (some p) := by
  unfold pmGet at hg
  rcases hq : plookup pm pos with _ | v
  · simp only [hq] at hg
    exact Option.noConfusion hg
  · simp only [hq] at hg
    rw [hg]

theorem reconstructAux_shape (pm : PM) (sp : Pos) (hg : pmGood sp pm) :
    ∀ (fuel : Nat) (pos : Pos) (l : List Pos), (plookup pm pos).isSome →
      reconstructAux pm fuel pos = some l →
      l.head? = some pos ∧ l.getLast? = some sp ∧
        List.Chain' (fun a b => a ∈ movements b) l := by
  obtain ⟨hedg, hroot, hclosed⟩ := hg
  intro fuel
  induction fuel with
  | zero => intro pos l _ h; cases h
  | succ f ih =>
    intro pos l hdom h
    rw [reconstructAux] at h
    rcases hge : pmGet pm pos with _ | p
    · simp only [hge] at h
      injection h with h
      rw [← h]
      have hsp := hroot pos (pmGet_none_plookup pm pos hdom hge)
      exact ⟨rfl, by simp [hsp], List.chain'_singleton pos⟩
    · simp only [hge] at h
      rcases hr : reconstructAux pm f p with _ | l0
      · rw [hr] at h
        cases h
      · rw [hr] at h
        injection h with h
        have hpl := pmGet_some_plookup pm pos p hge
        have hedge : pos ∈ movements p := hedg pos p hpl
        have hpdom : (plookup pm p).isSome := hclosed pos p hpl
        obtain ⟨hh, hl, hch⟩ := ih p l0 hpdom hr
        rw [← h]
        refine ⟨rfl, ?_, ?_⟩
        · cases l0 with
          | nil => cases hh
          | cons a t => rw [List.getLast?_cons_cons]; exact hl
        · cases l0 with
          | nil => cases hh
          | cons a t =>
            have ha : a = p := by
              injection hh
            rw [List.chain'_cons]
            exact ⟨by rw [ha]; exact hedge, hch⟩

theorem reconstruct_path_shape (pm : PM) (sp cur : Pos) (hg : pmGood sp pm)
    (hdom : (plookup pm cur).isSome) (path : List Pos)
    (h : reconstruct_path pm cur = some path) :
    path.head? = some sp ∧ path.getLast? = some cur ∧
      List.Chain' (fun a b => b ∈ movements a) path := by
  unfold reconstruct_path at h
  rcases hr : reconstructAux pm (pm.length + 1) cur with _ | l
  · rw [hr] at h
    cases h
  · rw [hr] at h
    injection h with h
    obtain ⟨hh, hl, hch⟩ := reconstructAux_shape pm sp hg (pm.length + 1) cur l hdom hr
    rw [← h]
    refine ⟨?_, ?_, ?_⟩
    · rw [← List.getLast?_eq_head?_reverse]
      exact hl
    · rw [List.getLast?_eq_head?_reverse, List.reverse_reverse]
      exact hh
    · exact List.chain'_reverse.mpr hch

theorem pmGood_cons (sp current n : Pos) (pm : PM) (hg : pmGood sp pm)
    (hmv : n ∈ movements current) (hdom : (plookup pm current).isSome) :
    pmGood sp ((n, some current) :: pm) := by
  obtain ⟨he, hr, hc⟩ := hg
  refine ⟨?_, ?_, ?_⟩
  · intro x c h
    rw [plookup_cons] at h
    split at h
    · rename_i heq
      injection h with h
      injection h with h
      rw [← heq, ← h]
      exact hmv
    · exact he x c h
  · intro x h
    rw [plookup_cons] at h
    split at h
    · injection h with h
      cases h
    · exact hr x h
  · intro x c h
    rw [plookup_cons] at h
    split at h
    · injection h with h
      injection h with h
      rw [← h]
      exact plookup_isSome_cons _ _ _ _ hdom
    · exact plookup_isSome_cons _ _ _ _ (hc x c h)

theorem plainEnqueue_pm_inv (sp current : Pos) :
    ∀ (ns : List Pos) (s : PlainSt),
      pmGood sp s.pm → (plookup s.pm current).isSome →
      (∀ n ∈ ns, n ∈ movements current) →
      (∀ x ∈ s.frontier, (plookup s.pm x).isSome) →
      pmGood sp (plainEnqueue current ns s).pm ∧
      (∀ k, (plookup s.pm k).isSome →
        (plookup (plainEnqueue current ns s).pm k).isSome) ∧
      (∀ x ∈ (plainEnqueue current ns s).frontier,
        (plookup (plainEnqueue current ns s).pm x).isSome) := by
  intro ns
  induction ns with
  | nil =>
    intro s h1 h2 _ h4
    exact ⟨h1, fun k hk => hk, h4⟩
  | cons n rest ih =>
    intro s h1 h2 h3 h4
    have hstep : plainEnqueue current (n :: rest) s = plainEnqueue current rest
        (if n ∉ s.explored ∧ n ∉ s.in_frontier then
           { s with pm := (n, some current) :: s.pm,
                    frontier := s.frontier ++ [n],
                    in_frontier := addSet s.in_frontier n }
         else s) := rfl
    rw [hstep]
    split
    · have hmv : n ∈ movements current := h3 n (List.mem_cons_self n rest)
      have h1' : pmGood sp ((n, some current) :: s.pm) :=
        pmGood_cons sp current n s.pm h1 hmv h2
      have h2' : (plookup ((n, some current) :: s.pm) current).isSome :=
        plookup_isSome_cons _ _ _ _ h2
      have h4' : ∀ x ∈ s.frontier ++ [n],
          (plookup ((n, some current) :: s.pm) x).isSome := by
        intro x hx
        rcases List.mem_append.mp hx with hx | hx
        · exact plookup_isSome_cons _ _ _ _ (h4 x hx)
        · rw [List.mem_singleton.mp hx, plookup_cons, if_pos rfl]
          rfl
      obtain ⟨g1, g2, g3⟩ := ih
        { s with pm := (n, some current) :: s.pm,
                 frontier := s.frontier ++ [n],
                 in_frontier := addSet s.in_frontier n }
        h1' h2' (fun m hm => h3 m (List.mem_cons_of_mem n hm)) h4'
      exact ⟨g1, fun k hk => g2 k (plookup_isSome_cons _ _ _ _ hk), g3⟩
    · exact ih s h1 h2 (fun m hm => h3 m (List.mem_cons_of_mem n hm)) h4


theorem pmGood_init (sp : Pos) : pmGood sp [(sp, none)] := by
  refine ⟨?_, ?_, ?_⟩
  · intro n c h
    rw [plookup_cons] at h
    split at h
    · injection h with h
      cases h
    · cases h
  · intro n h
    rw [plookup_cons] at h
    split at h
    · rename_i he
      exact he.symm
    · cases h
  · intro n c h
    rw [plookup_cons] at h
    split at h
    · injection h with h
      cases h
    · cases h

theorem bfsStep_c1 (g0 : Grid) (s : PlainSt) (hinv : plainInv g0 s) :
    (∀ s1, bfsStep s = StepOut.next s1 → plainInv g0 s1) ∧
    (∀ s1 path, bfsStep s = StepOut.finished s1 (some path) →
      path.head? = some g0.start ∧ path.getLast? = some g0.target ∧
        List.Chain' (fun a b => b ∈ movements a) path) := by
  obtain ⟨hge, hpm, hfr⟩ := hinv
  unfold bfsStep
  by_cases hne : s.frontier.isEmpty
  · simp only [hne, if_true]
    constructor
    · intro s1 heq
      cases heq
    · intro s1 path heq
      injection heq with h1 h2
      cases h2
  · simp only [hne, Bool.false_eq_true, if_false]
    rcases htc : takeChoice s.sched with ⟨choice, sched'⟩
    rcases hcd : check_dynamic_obstacles id s.grid s.frontier s.log choice
      with ⟨g', fr', log'⟩
    simp only [htc, hcd]
    have hg' : gridExtends g0 g' := by
      have h5 := check_extends g0 id s.grid s.frontier s.log choice hge
      rw [hcd] at h5
      exact h5
    have hsub : List.Sublist fr' s.frontier := by
      have h6 := check_dynamic_sublist id s.grid s.frontier s.log choice
      rw [hcd] at h6
      exact h6
    have hfr' : ∀ x ∈ fr', (plookup s.pm x).isSome :=
      fun x hx => hfr x (hsub.mem hx)
    constructor
    · intro s1 heq
      split at heq
      · cases heq
      · rename_i current rest
        split at heq
        · injection heq with heq
          rw [← heq]
          exact ⟨hg', hpm, fun x hx =>
            hfr' x (List.mem_cons_of_mem current hx)⟩
        · split at heq
          · split at heq <;> cases heq
          · injection heq with heq
            rw [← heq]
            have hcd2 : (plookup s.pm current).isSome :=
              hfr' current (List.mem_cons_self current rest)
            obtain ⟨g1, g2, g3⟩ := plainEnqueue_pm_inv g0.start current
              (get_neighbors g' current)
              { grid := g', frontier := rest, explored := addSet s.explored current,
                pm := s.pm, in_frontier := discardSet s.in_frontier current,
                history := s.history ++ [List.dedup (current :: rest)], log := log',
                sched := sched' }
              hpm hcd2
              (fun n hn => get_neighbors_subset_movements g' current n hn)
              (fun x hx => hfr' x (List.mem_cons_of_mem current hx))
            refine ⟨?_, g1, g3⟩
            rw [(plainEnqueue_fields current (get_neighbors g' current) _).2.2.1]
            exact hg'
    · intro s1 path heq
      split at heq
      · cases heq
      · rename_i current rest
        split at heq
        · cases heq
        · split at heq
          · rename_i htar
            split at heq
            · cases heq
            · rename_i path0 hrp
              injection heq with h1 h2
              injection h2 with h2
              rw [← h2]
              have hcd2 : (plookup s.pm current).isSome :=
                hfr' current (List.mem_cons_self current rest)
              obtain ⟨p1, p2, p3⟩ := reconstruct_path_shape s.pm g0.start current
                hpm hcd2 path0 hrp
              refine ⟨p1, ?_, p3⟩
              rw [p2, htar, hg'.2.2.2.1]
          · cases heq

theorem dfsStep_c1 (g0 : Grid) (s : PlainSt) (hinv : plainInv g0 s) :
    (∀ s1, dfsStep s = StepOut.next s1 → plainInv g0 s1) ∧
    (∀ s1 path, dfsStep s = StepOut.finished s1 (some path) →
      path.head? = some g0.start ∧ path.getLast? = some g0.target ∧
        List.Chain' (fun a b => b ∈ movements a) path) := by
  obtain ⟨hge, hpm, hfr⟩ := hinv
  unfold dfsStep
  by_cases hne : s.frontier.isEmpty
  · simp only [hne, if_true]
    constructor
    · intro s1 heq
      cases heq
    · intro s1 path heq
      injection heq with h1 h2
      cases h2
  · simp only [hne, Bool.false_eq_true, if_false]
    rcases htc : takeChoice s.sched with ⟨choice, sched'⟩
    rcases hcd : check_dynamic_obstacles id s.grid s.frontier s.log choice
      with ⟨g', fr', log'⟩
    simp only [htc, hcd]
    have hg' : gridExtends g0 g' := by
      have h5 := check_extends g0 id s.grid s.frontier s.log choice hge
      rw [hcd] at h5
      exact h5
    have hsub : List.Sublist fr' s.frontier := by
      have h6 := check_dynamic_sublist id s.grid s.frontier s.log choice
      rw [hcd] at h6
      exact h6
    have hfr' : ∀ x ∈ fr', (plookup s.pm x).isSome :=
      fun x hx => hfr x (hsub.mem hx)
    constructor
    · intro s1 heq
      split at heq
      · cases heq
      · rename_i current hlast
        split at heq
        · injection heq with heq
          rw [← heq]
          exact ⟨hg', hpm, fun x hx =>
            hfr' x ((List.dropLast_sublist fr').mem hx)⟩
        · split at heq
          · split at heq <;> cases heq
          · injection heq with heq
            rw [← heq]
            have hcd2 : (plookup s.pm current).isSome :=
              hfr' current (mem_of_getLast_opt hlast)
            obtain ⟨g1, g2, g3⟩ := plainEnqueue_pm_inv g0.start current
              (get_neighbors g' current).reverse
              { grid := g', frontier := fr'.dropLast,
                explored := addSet s.explored current,
                pm := s.pm, in_frontier := discardSet s.in_frontier current,
                history := s.history ++ [List.dedup fr'], log := log', sched := sched' }
              hpm hcd2
              (fun n hn => get_neighbors_subset_movements g' current n
                (List.mem_reverse.mp hn))
              (fun x hx => hfr' x ((List.dropLast_sublist fr').mem hx))
            refine ⟨?_, g1, g3⟩
            rw [(plainEnqueue_fields current (get_neighbors g' current).reverse _).2.2.1]
            exact hg'
    · intro s1 path heq
      split at heq
      · cases heq
      · rename_i current hlast
        split at heq
        · cases heq
        · split at heq
          · rename_i htar
            split at heq
            · cases heq
            · rename_i path0 hrp
              injection heq with h1 h2
              injection h2 with h2
              rw [← h2]
              have hcd2 : (plookup s.pm current).isSome :=
                hfr' current (mem_of_getLast_opt hlast)
              obtain ⟨p1, p2, p3⟩ := reconstruct_path_shape s.pm g0.start current
                hpm hcd2 path0 hrp
              refine ⟨p1, ?_, p3⟩
              rw [p2, htar, hg'.2.2.2.1]
          · cases heq


theorem runLoop_succ {σ : Type} (step : σ → StepOut σ) (f : Nat) (s : σ) :
    runLoop step (f + 1) s =
      match step s with
      | StepOut.next s1 => runLoop step f s1
      | StepOut.finished s1 po => some (Res.ok (s1, po))
      | StepOut.fail e => some (Res.exc e)
      | StepOut.stuck => none := rfl

theorem bfs_run_c1 (g0 : Grid) : ∀ (fuel : Nat) (s : PlainSt), plainInv g0 s →
    ∀ s1 path, runLoop bfsStep fuel s = some (Res.ok (s1, some path)) →
    path.head? = some g0.start ∧ path.getLast? = some g0.target ∧
      List.Chain' (fun a b => b ∈ movements a) path := by
  intro fuel
  induction fuel with
  | zero =>
    intro s _ s1 path h
    cases h
  | succ f ih =>
    intro s hinv s1 path h
    rw [runLoop_succ] at h
    rcases hstep : bfsStep s with s2 | ⟨s2, po⟩ | e | _ <;> simp only [hstep] at h
    · exact ih s2 ((bfsStep_c1 g0 s hinv).1 s2 hstep) s1 path h
    · injection h with h
      injection h with h
      injection h with ha hb
      rw [hb] at hstep
      exact (bfsStep_c1 g0 s hinv).2 s2 path hstep
    · injection h with h
      exact Res.noConfusion h
    · exact Option.noConfusion h

theorem dfs_run_c1 (g0 : Grid) : ∀ (fuel : Nat) (s : PlainSt), plainInv g0 s →
    ∀ s1 path, runLoop dfsStep fuel s = some (Res.ok (s1, some path)) →
    path.head? = some g0.start ∧ path.getLast? = some g0.target ∧
      List.Chain' (fun a b => b ∈ movements a) path := by
  intro fuel
  induction fuel with
  | zero =>
    intro s _ s1 path h
    cases h
  | succ f ih =>
    intro s hinv s1 path h
    rw [runLoop_succ] at h
    rcases hstep : dfsStep s with s2 | ⟨s2, po⟩ | e | _ <;> simp only [hstep] at h
    · exact ih s2 ((dfsStep_c1 g0 s hinv).1 s2 hstep) s1 path h
    · injection h with h
      injection h with h
      injection h with ha hb
      rw [hb] at hstep
      exact (dfsStep_c1 g0 s hinv).2 s2 path hstep
    · injection h with h
      exact Res.noConfusion h
    · exact Option.noConfusion h

theorem plainInit_inv (g : Grid) (sched : List (Option Pos)) :
    plainInv g (plainInit g sched) := by
  refine ⟨gridExtends_refl g, pmGood_init g.start, ?_⟩
  intro x hx
  have hx' : x = g.start := List.mem_singleton.mp hx
  show (plookup [(g.start, none)] x).isSome
  rw [hx', plookup_cons, if_pos rfl]
  rfl

theorem breadth_first_search_c1 (g : Grid) (sched : List (Option Pos))
    (fuel : Nat) (r : SearchResult)
    (h : breadth_first_search g sched fuel = some (Res.ok r))
    (hf : r.found = true) :
    r.path.head? = some g.start ∧ r.path.getLast? = some g.target ∧
      List.Chain' (fun a b => b ∈ movements a) r.path := by
  unfold breadth_first_search at h
  rcases hr : runLoop bfsStep fuel (plainInit g sched) with _ | res
  · rw [hr] at h
    cases h
  · rw [hr] at h
    cases res with
    | exc e =>
      simp only [Option.map] at h
      injection h with h
      cases h
    | ok pr =>
      rcases pr with ⟨s1, po⟩
      simp only [Option.map] at h
      injection h with h
      injection h with h
      rcases po with _ | path
      · rw [← h] at hf
        simp [mkSearchResult] at hf
      · have hshape := bfs_run_c1 g fuel (plainInit g sched)
          (plainInit_inv g sched) s1 path hr
        rw [← h]
        simpa [mkSearchResult] using hshape

theorem depth_first_search_c1 (g : Grid) (sched : List (Option Pos))
    (fuel : Nat) (r : SearchResult)
    (h : depth_first_search g sched fuel = some (Res.ok r))
    (hf : r.found = true) :
    r.path.head? = some g.start ∧ r.path.getLast? = some g.target ∧
      List.Chain' (fun a b => b ∈ movements a) r.path := by
  unfold depth_first_search at h
  rcases hr : runLoop dfsStep fuel (plainInit g sched) with _ | res
  · rw [hr] at h
    cases h
  · rw [hr] at h
    cases res with
    | exc e =>
      simp only [Option.map] at h
      injection h with h
      cases h
    | ok pr =>
      rcases pr with ⟨s1, po⟩
      simp only [Option.map] at h
      injection h with h
      injection h with h
      rcases po with _ | path
      · rw [← h] at hf
        simp [mkSearchResult] at hf
      · have hshape := dfs_run_c1 g fuel (plainInit g sched)
          (plainInit_inv g sched) s1 path hr
        rw [← h]
        simpa [mkSearchResult] using hshape


theorem set_getD_self : ∀ (l : List UItem) (i : Nat), i < l.length →
    l.set i (l.getD i uJunk) = l := by
  intro l
  induction l with
  | nil =>
    intro i hi
    simp at hi
  | cons a t ih =>
    intro i hi
    cases i with
    | zero => rfl
    | succ m =>
      have hm : m < t.length := by simpa using hi
      show a :: t.set m (t.getD m uJunk) = a :: t
      rw [ih m hm]

theorem take_getD_drop : ∀ (l : List UItem) (i : Nat), i < l.length →
    l = l.take i ++ l.getD i uJunk :: l.drop (i + 1) := by
  intro l i hi
  conv_lhs => rw [← set_getD_self l i hi]
  exact List.set_eq_take_cons_drop (l.getD i uJunk) hi

theorem set_set_perm' : ∀ (l : List UItem) (i j : Nat) (x : UItem), i < j →
    j < l.length →
    List.Perm ((l.set i (l.getD j uJunk)).set j x) (l.set i x) := by
  intro l
  induction l with
  | nil =>
    intro i j x hij hj
    simp at hj
  | cons a t ih =>
    intro i j x hij hj
    cases j with
    | zero => omega
    | succ k =>
      have hk : k < t.length := by simpa using hj
      cases i with
      | zero =>
        show List.Perm (t.getD k uJunk :: t.set k x) (x :: t)
        conv_rhs => rw [take_getD_drop t k hk]
        rw [List.set_eq_take_cons_drop x hk]
        exact midswap_perm (t.take k) (t.drop (k + 1)) (t.getD k uJunk) x
      | succ m =>
        have hmk : m < k := by omega
        show List.Perm (a :: (t.set m (t.getD k uJunk)).set k x) (a :: t.set m x)
        exact (ih m k x hmk hk).cons a

theorem siftupLoop_perm (endpos : Nat) (newitem : UItem) :
    ∀ (m pos : Nat) (heap : List UItem), endpos - pos ≤ m → pos < endpos →
      endpos ≤ heap.length →
      (siftupLoop endpos newitem pos heap).1 < endpos ∧
      List.Perm (siftupLoop endpos newitem pos heap).2 (heap.set pos newitem) := by
  intro m
  induction m with
  | zero =>
    intro pos heap hm h1 h2
    omega
  | succ m ih =>
    intro pos heap hm h1 h2
    rw [siftupLoop]
    split
    · rename_i h3
      dsimp only
      have key : ∀ cp, pos < cp → cp < endpos →
          (siftupLoop endpos newitem cp
            (heap.set pos (heap.getD cp uJunk))).1 < endpos ∧
          List.Perm (siftupLoop endpos newitem cp
            (heap.set pos (heap.getD cp uJunk))).2 (heap.set pos newitem) := by
        intro cp hc1 hc2
        have hlen : endpos ≤ (heap.set pos (heap.getD cp uJunk)).length := by
          rw [List.length_set]
          exact h2
        obtain ⟨r1, r2⟩ := ih cp (heap.set pos (heap.getD cp uJunk))
          (by omega) hc2 hlen
        refine ⟨r1, r2.trans ?_⟩
        exact set_set_perm' heap pos cp newitem hc1 (by omega)
      split
      · rename_i h4
        exact key (2 * pos + 1 + 1) (by omega)
          (by simp only [Bool.and_eq_true, decide_eq_true_eq] at h4; omega)
      · exact key (2 * pos + 1) (by omega) h3
    · exact ⟨h1, List.Perm.refl _⟩

theorem heap_siftup_perm (heap : List UItem) (h0 : 0 < heap.length) :
    List.Perm (heap_siftup heap 0) heap := by
  unfold heap_siftup
  rcases hsl : siftupLoop heap.length (heap.getD 0 uJunk) 0 heap with ⟨pos1, h1⟩
  obtain ⟨r1, r2⟩ := siftupLoop_perm heap.length (heap.getD 0 uJunk)
    heap.length 0 heap (by omega) h0 (le_refl _)
  rw [hsl] at r1 r2
  rw [set_getD_self heap 0 h0] at r2
  simp only [hsl]
  unfold heap_siftdown
  have hl : pos1 < h1.length := by
    rw [r2.length_eq]
    exact r1
  have h3 := siftdownLoop_perm (h1.getD pos1 uJunk) 0 pos1 h1 hl
  rw [set_getD_self h1 pos1 hl] at h3
  exact h3.trans r2

theorem heappop_mem (heap : List UItem) (x : UItem) (rest : List UItem)
    (h : heappop heap = Res.ok (x, rest)) :
    x ∈ heap ∧ ∀ it ∈ rest, it ∈ heap := by
  unfold heappop at h
  match heap, h with
  | [x0], h =>
    injection h with h
    injection h with ha hb
    rw [← ha, ← hb]
    exact ⟨List.mem_singleton_self x0, fun it hit => absurd hit (List.not_mem_nil it)⟩
  | x0 :: y :: t, h =>
    injection h with h
    injection h with ha hb
    have hlast : ((x0 :: y :: t).getLast?).getD uJunk ∈ x0 :: y :: t := by
      rw [List.getLast?_eq_getLast (x0 :: y :: t) (by simp)]
      exact List.getLast_mem (by simp)
    refine ⟨by rw [← ha]; exact List.mem_cons_self x0 (y :: t), ?_⟩
    intro it hit
    rw [← hb] at hit
    have h0 : 0 < (((x0 :: y :: t).dropLast).set 0
        (((x0 :: y :: t).getLast?).getD uJunk)).length := by
      rw [List.length_set]
      simp
    have hperm := heap_siftup_perm _ h0
    have hit2 := hperm.mem_iff.mp hit
    rcases List.mem_or_eq_of_mem_set hit2 with h5 | h5
    · exact (List.dropLast_sublist (x0 :: y :: t)).mem h5
    · rw [h5]
      exact hlast


theorem ucsRelax_pm_inv (sp current : Pos) (cc : Nat) :
    ∀ (ns : List Pos) (s : UcsSt),
      pmGood sp s.pm → (plookup s.pm current).isSome →
      (∀ n ∈ ns, n ∈ movements current) →
      (∀ it ∈ s.frontier, (plookup s.pm it.2.2).isSome) →
      pmGood sp (ucsRelax current cc ns s).pm ∧
      (∀ it ∈ (ucsRelax current cc ns s).frontier,
        (plookup (ucsRelax current cc ns s).pm it.2.2).isSome) := by
  intro ns
  induction ns with
  | nil =>
    intro s h1 _ _ h4
    exact ⟨h1, h4⟩
  | cons n rest ih =>
    intro s h1 h2 h3 h4
    rw [ucsRelax_cons]
    split
    · have hmv : n ∈ movements current := h3 n (List.mem_cons_self n rest)
      have h1' : pmGood sp ((n, some current) :: s.pm) :=
        pmGood_cons sp current n s.pm h1 hmv h2
      have h2' : (plookup ((n, some current) :: s.pm) current).isSome :=
        plookup_isSome_cons _ _ _ _ h2
      have h4' : ∀ it ∈ heappush s.frontier (cc + 1, s.counter, n),
          (plookup ((n, some current) :: s.pm) it.2.2).isSome := by
        intro it hit
        have hit2 := (heappush_perm s.frontier (cc + 1, s.counter, n)).mem_iff.mp hit
        rcases List.mem_append.mp hit2 with h5 | h5
        · exact plookup_isSome_cons _ _ _ _ (h4 it h5)
        · rw [List.mem_singleton.mp h5]
          show (plookup ((n, some current) :: s.pm) n).isSome
          rw [plookup_cons, if_pos rfl]
          rfl
      exact ih
        { s with cost_map := (n, cc + 1) :: s.cost_map,
                 pm := (n, some current) :: s.pm,
                 frontier := heappush s.frontier (cc + 1, s.counter, n),
                 counter := s.counter + 1 }
        h1' h2' (fun m hm => h3 m (List.mem_cons_of_mem n hm)) h4'
    · exact ih s h1 h2 (fun m hm => h3 m (List.mem_cons_of_mem n hm)) h4

theorem ucsStep_c1 (g0 : Grid) (s : UcsSt) (hinv : ucsInv g0 s) :
    (∀ s1, ucsStep s = StepOut.next s1 → ucsInv g0 s1) ∧
    (∀ s1 path, ucsStep s = StepOut.finished s1 (some path) →
      path.head? = some g0.start ∧ path.getLast? = some g0.target ∧
        List.Chain' (fun a b => b ∈ movements a) path) := by
  obtain ⟨hge, hpm, hfr⟩ := hinv
  unfold ucsStep
  by_cases hne : s.frontier.isEmpty
  · simp only [hne, if_true]
    constructor
    · intro s1 heq
      cases heq
    · intro s1 path heq
      injection heq with h1 h2
      cases h2
  · simp only [hne, Bool.false_eq_true, if_false]
    rcases htc : takeChoice s.sched with ⟨choice, sched'⟩
    rcases hcd : check_dynamic_obstacles (fun it : UItem => it.2.2)
      s.grid s.frontier s.log choice with ⟨g', fr', log'⟩
    simp only [htc, hcd]
    have hg' : gridExtends g0 g' := by
      have h5 := check_extends g0 (fun it : UItem => it.2.2)
        s.grid s.frontier s.log choice hge
      rw [hcd] at h5
      exact h5
    have hsub : List.Sublist fr' s.frontier := by
      have h6 := check_dynamic_sublist (fun it : UItem => it.2.2)
        s.grid s.frontier s.log choice
      rw [hcd] at h6
      exact h6
    have hfr' : ∀ it ∈ fr', (plookup s.pm it.2.2).isSome :=
      fun it hit => hfr it (hsub.mem hit)
    constructor
    · intro s1 heq
      split at heq
      · cases heq
      · rename_i cc cnt current rest hpop
        obtain ⟨hx, hrest⟩ := heappop_mem fr' (cc, cnt, current) rest hpop
        have hcur : (plookup s.pm current).isSome := hfr' _ hx
        have hrest' : ∀ it ∈ rest, (plookup s.pm it.2.2).isSome :=
          fun it hit => hfr' it (hrest it hit)
        split at heq
        · injection heq with heq
          rw [← heq]
          exact ⟨hg', hpm, hrest'⟩
        · split at heq
          · injection heq with heq
            rw [← heq]
            exact ⟨hg', hpm, hrest'⟩
          · split at heq
            · split at heq <;> cases heq
            · injection heq with heq
              rw [← heq]
              obtain ⟨g1, g2⟩ := ucsRelax_pm_inv g0.start current cc
                (get_neighbors g' current)
                { grid := g', frontier := rest, explored := addSet s.explored current,
                  pm := s.pm, cost_map := s.cost_map, counter := s.counter,
                  history := s.history ++ [List.dedup (fr'.map (fun it => it.2.2))],
                  log := log', sched := sched' }
                hpm hcur
                (fun n hn => get_neighbors_subset_movements g' current n hn)
                hrest'
              refine ⟨?_, g1, g2⟩
              rw [(ucsRelax_fields current cc (get_neighbors g' current) _).2.2.1]
              exact hg'
    · intro s1 path heq
      split at heq
      · cases heq
      · rename_i cc cnt current rest hpop
        obtain ⟨hx, hrest⟩ := heappop_mem fr' (cc, cnt, current) rest hpop
        have hcur : (plookup s.pm current).isSome := hfr' _ hx
        split at heq
        · cases heq
        · split at heq
          · cases heq
          · split at heq
            · rename_i htar
              split at heq
              · cases heq
              · rename_i path0 hrp
                injection heq with h1 h2
                injection h2 with h2
                rw [← h2]
                obtain ⟨p1, p2, p3⟩ := reconstruct_path_shape s.pm g0.start current
                  hpm hcur path0 hrp
                refine ⟨p1, ?_, p3⟩
                rw [p2, htar, hg'.2.2.2.1]
            · cases heq

theorem ucs_run_c1 (g0 : Grid) : ∀ (fuel : Nat) (s : UcsSt), ucsInv g0 s →
    ∀ s1 path, runLoop ucsStep fuel s = some (Res.ok (s1, some path)) →
    path.head? = some g0.start ∧ path.getLast? = some g0.target ∧
      List.Chain' (fun a b => b ∈ movements a) path := by
  intro fuel
  induction fuel with
  | zero =>
    intro s _ s1 path h
    cases h
  | succ f ih =>
    intro s hinv s1 path h
    rw [runLoop_succ] at h
    rcases hstep : ucsStep s with s2 | ⟨s2, po⟩ | e | _ <;> simp only [hstep] at h
    · exact ih s2 ((ucsStep_c1 g0 s hinv).1 s2 hstep) s1 path h
    · injection h with h
      injection h with h
      injection h with ha hb
      rw [hb] at hstep
      exact (ucsStep_c1 g0 s hinv).2 s2 path hstep
    · injection h with h
      exact Res.noConfusion h
    · exact Option.noConfusion h

theorem ucsInit_inv (g : Grid) (sched : List (Option Pos)) :
    ucsInv g (ucsInit g sched) := by
  refine ⟨gridExtends_refl g, pmGood_init g.start, ?_⟩
  intro it hit
  have hit' : it = (0, 0, g.start) := List.mem_singleton.mp hit
  rw [hit']
  show (plookup [(g.start, none)] g.start).isSome
  rw [plookup_cons, if_pos rfl]
  rfl

theorem uniform_cost_search_c1 (g : Grid) (sched : List (Option Pos))
    (fuel : Nat) (r : SearchResult)
    (h : uniform_cost_search g sched fuel = some (Res.ok r))
    (hf : r.found = true) :
    r.path.head? = some g.start ∧ r.path.getLast? = some g.target ∧
      List.Chain' (fun a b => b ∈ movements a) r.path := by
  unfold uniform_cost_search at h
  rcases hr : runLoop ucsStep fuel (ucsInit g sched) with _ | res
  · rw [hr] at h
    cases h
  · rw [hr] at h
    cases res with
    | exc e =>
      simp only [Option.map] at h
      injection h with h
      cases h
    | ok pr =>
      rcases pr with ⟨s1, po⟩
      simp only [Option.map] at h
      injection h with h
      injection h with h
      rcases po with _ | path
      · rw [← h] at hf
        simp [mkSearchResult] at hf
      · have hshape := ucs_run_c1 g fuel (ucsInit g sched)
          (ucsInit_inv g sched) s1 path hr
        rw [← h]
        simpa [mkSearchResult] using hshape


theorem dlsEnqueue_pm_inv (sp current : Pos) (depth : Nat) :
    ∀ (ns : List Pos) (s : DlsSt),
      pmGood sp s.pm → (plookup s.pm current).isSome →
      (∀ n ∈ ns, n ∈ movements current) →
      (∀ it ∈ s.frontier, (plookup s.pm it.1).isSome) →
      pmGood sp (dlsEnqueue current depth ns s).pm ∧
      (∀ it ∈ (dlsEnqueue current depth ns s).frontier,
        (plookup (dlsEnqueue current depth ns s).pm it.1).isSome) := by
  intro ns
  induction ns with
  | nil =>
    intro s h1 _ _ h4
    exact ⟨h1, h4⟩
  | cons n rest ih =>
    intro s h1 h2 h3 h4
    have hstep : dlsEnqueue current depth (n :: rest) s = dlsEnqueue current depth rest
        (if n ∉ s.explored ∧ n ∉ s.in_frontier then
           { s with pm := (n, some current) :: s.pm,
                    frontier := s.frontier ++ [(n, depth + 1)],
                    in_frontier := addSet s.in_frontier n }
         else s) := rfl
    rw [hstep]
    split
    · have hmv : n ∈ movements current := h3 n (List.mem_cons_self n rest)
      have h1' : pmGood sp ((n, some current) :: s.pm) :=
        pmGood_cons sp current n s.pm h1 hmv h2
      have h2' : (plookup ((n, some current) :: s.pm) current).isSome :=
        plookup_isSome_cons _ _ _ _ h2
      have h4' : ∀ it ∈ s.frontier ++ [(n, depth + 1)],
          (plookup ((n, some current) :: s.pm) it.1).isSome := by
        intro it hit
        rcases List.mem_append.mp hit with h5 | h5
        · exact plookup_isSome_cons _ _ _ _ (h4 it h5)
        · rw [List.mem_singleton.mp h5]
          show (plookup ((n, some current) :: s.pm) n).isSome
          rw [plookup_cons, if_pos rfl]
          rfl
      exact ih
        { s with pm := (n, some current) :: s.pm,
                 frontier := s.frontier ++ [(n, depth + 1)],
                 in_frontier := addSet s.in_frontier n }
        h1' h2' (fun m hm => h3 m (List.mem_cons_of_mem n hm)) h4'
    · exact ih s h1 h2 (fun m hm => h3 m (List.mem_cons_of_mem n hm)) h4

theorem dlsStep_c1 (g0 : Grid) (L : Nat) (s : DlsSt) (hinv : dlsInv g0 s) :
    (∀ s1, dlsStep L s = StepOut.next s1 → dlsInv g0 s1) ∧
    (∀ s1 path, dlsStep L s = StepOut.finished s1 (some path) →
      path.head? = some g0.start ∧ path.getLast? = some g0.target ∧
        List.Chain' (fun a b => b ∈ movements a) path) := by
  obtain ⟨hge, hpm, hfr⟩ := hinv
  unfold dlsStep
  by_cases hne : s.frontier.isEmpty
  · simp only [hne, if_true]
    constructor
    · intro s1 heq
      cases heq
    · intro s1 path heq
      injection heq with h1 h2
      cases h2
  · simp only [hne, Bool.false_eq_true, if_false]
    rcases htc : takeChoice s.sched with ⟨choice, sched'⟩
    rcases hcd : check_dynamic_obstacles (fun it : Pos × Nat => it.1)
      s.grid s.frontier s.log choice with ⟨g', fr', log'⟩
    simp only [htc, hcd]
    have hg' : gridExtends g0 g' := by
      have h5 := check_extends g0 (fun it : Pos × Nat => it.1)
        s.grid s.frontier s.log choice hge
      rw [hcd] at h5
      exact h5
    have hsub : List.Sublist fr' s.frontier := by
      have h6 := check_dynamic_sublist (fun it : Pos × Nat => it.1)
        s.grid s.frontier s.log choice
      rw [hcd] at h6
      exact h6
    have hfr' : ∀ it ∈ fr', (plookup s.pm it.1).isSome :=
      fun it hit => hfr it (hsub.mem hit)
    constructor
    · intro s1 heq
      split at heq
      · cases heq
      · rename_i current depth hlast
        have hcur : (plookup s.pm current).isSome :=
          hfr' (current, depth) (mem_of_getLast_opt hlast)
        have hdrop : ∀ it ∈ fr'.dropLast, (plookup s.pm it.1).isSome :=
          fun it hit => hfr' it ((List.dropLast_sublist fr').mem hit)
        split at heq
        · injection heq with heq
          rw [← heq]
          exact ⟨hg', hpm, hdrop⟩
        · split at heq
          · split at heq <;> cases heq
          · split at heq
            · injection heq with heq
              rw [← heq]
              obtain ⟨g1, g2⟩ := dlsEnqueue_pm_inv g0.start current depth
                (get_neighbors g' current).reverse
                { grid := g', frontier := fr'.dropLast,
                  explored := addSet s.explored current,
                  pm := s.pm, in_frontier := discardSet s.in_frontier current,
                  history := s.history ++ [List.dedup (fr'.map (fun it => it.1))],
                  log := log', sched := sched' }
                hpm hcur
                (fun n hn => get_neighbors_subset_movements g' current n
                  (List.mem_reverse.mp hn))
                hdrop
              refine ⟨?_, g1, g2⟩
              rw [(dlsEnqueue_fields current depth
                (get_neighbors g' current).reverse _).2.2.1]
              exact hg'
            · injection heq with heq
              rw [← heq]
              exact ⟨hg', hpm, hdrop⟩
    · intro s1 path heq
      split at heq
      · cases heq
      · rename_i current depth hlast
        have hcur : (plookup s.pm current).isSome :=
          hfr' (current, depth) (mem_of_getLast_opt hlast)
        split at heq
        · cases heq
        · split at heq
          · rename_i htar
            split at heq
            · cases heq
            · rename_i path0 hrp
              injection heq with h1 h2
              injection h2 with h2
              rw [← h2]
              obtain ⟨p1, p2, p3⟩ := reconstruct_path_shape s.pm g0.start current
                hpm hcur path0 hrp
              refine ⟨p1, ?_, p3⟩
              rw [p2, htar, hg'.2.2.2.1]
          · split at heq <;> cases heq

theorem dls_run_c1 (g0 : Grid) (L : Nat) : ∀ (fuel : Nat) (s : DlsSt),
    dlsInv g0 s →
    ∀ s1 path, runLoop (dlsStep L) fuel s = some (Res.ok (s1, some path)) →
    path.head? = some g0.start ∧ path.getLast? = some g0.target ∧
      List.Chain' (fun a b => b ∈ movements a) path := by
  intro fuel
  induction fuel with
  | zero =>
    intro s _ s1 path h
    cases h
  | succ f ih =>
    intro s hinv s1 path h
    rw [runLoop_succ] at h
    rcases hstep : dlsStep L s with s2 | ⟨s2, po⟩ | e | _ <;> simp only [hstep] at h
    · exact ih s2 ((dlsStep_c1 g0 L s hinv).1 s2 hstep) s1 path h
    · injection h with h
      injection h with h
      injection h with ha hb
      rw [hb] at hstep
      exact (dlsStep_c1 g0 L s hinv).2 s2 path hstep
    · injection h with h
      exact Res.noConfusion h
    · exact Option.noConfusion h

theorem dlsInit_inv (g : Grid) (sched : List (Option Pos)) :
    dlsInv g (dlsInit g sched) := by
  refine ⟨gridExtends_refl g, pmGood_init g.start, ?_⟩
  intro it hit
  have hit' : it = (g.start, 0) := List.mem_singleton.mp hit
  rw [hit']
  show (plookup [(g.start, none)] g.start).isSome
  rw [plookup_cons, if_pos rfl]
  rfl

theorem depth_limited_search_c1 (g : Grid) (L : Nat) (sched : List (Option Pos))
    (fuel : Nat) (r : SearchResult)
    (h : depth_limited_search g L sched fuel = some (Res.ok r))
    (hf : r.found = true) :
    r.path.head? = some g.start ∧ r.path.getLast? = some g.target ∧
      List.Chain' (fun a b => b ∈ movements a) r.path := by
  unfold depth_limited_search at h
  rcases hr : runLoop (dlsStep L) fuel (dlsInit g sched) with _ | res
  · rw [hr] at h
    cases h
  · rw [hr] at h
    cases res with
    | exc e =>
      simp only [Option.map] at h
      injection h with h
      cases h
    | ok pr =>
      rcases pr with ⟨s1, po⟩
      simp only [Option.map] at h
      injection h with h
      injection h with h
      rcases po with _ | path
      · rw [← h] at hf
        simp [mkSearchResult] at hf
      · have hshape := dls_run_c1 g L fuel (dlsInit g sched)
          (dlsInit_inv g sched) s1 path hr
        rw [← h]
        simpa [mkSearchResult] using hshape


theorem iddfs_go_c1_of_rec (tgt sp : Pos) (l : Nat)
    (hrec : ∀ (cur : Pos) (st : IddfsSt), pmGood sp st.pm →
      (plookup st.pm cur).isSome →
      ∀ st' po, iddfs_dls_rec tgt l cur st = some (st', po) →
        pmGood sp st'.pm ∧
        (∀ k, (plookup st.pm k).isSome → (plookup st'.pm k).isSome) ∧
        (∀ path, po = some path →
          path.head? = some sp ∧ path.getLast? = some tgt ∧
            List.Chain' (fun a b => b ∈ movements a) path)) :
    ∀ (cur : Pos) (ns : List Pos) (st : IddfsSt), pmGood sp st.pm →
      (plookup st.pm cur).isSome → (∀ n ∈ ns, n ∈ movements cur) →
      ∀ st' po, iddfs_dls_go tgt l cur ns st = some (st', po) →
        pmGood sp st'.pm ∧
        (∀ k, (plookup st.pm k).isSome → (plookup st'.pm k).isSome) ∧
        (∀ path, po = some path →
          path.head? = some sp ∧ path.getLast? = some tgt ∧
            List.Chain' (fun a b => b ∈ movements a) path) := by
  intro cur ns
  induction ns with
  | nil =>
    intro st h1 h2 h3 st' po h
    rw [iddfs_dls_go] at h
    injection h with h
    injection h with ha hb
    rw [← ha, ← hb]
    exact ⟨h1, fun k hk => hk, fun path hp => Option.noConfusion hp⟩
  | cons n rest ih =>
    intro st h1 h2 h3 st' po h
    rw [iddfs_dls_go] at h
    split at h
    · exact ih st h1 h2 (fun m hm => h3 m (List.mem_cons_of_mem n hm)) st' po h
    · dsimp only at h
      have hmv : n ∈ movements cur := h3 n (List.mem_cons_self n rest)
      have h1' : pmGood sp ((n, some cur) :: st.pm) :=
        pmGood_cons sp cur n st.pm h1 hmv h2
      have h2' : (plookup ((n, some cur) :: st.pm) n).isSome := by
        rw [plookup_cons, if_pos rfl]
        rfl
      rcases hr : iddfs_dls_rec tgt l n
          { st with pm := (n, some cur) :: st.pm } with _ | ⟨st2, po2⟩
      · rw [hr] at h
        cases h
      · rw [hr] at h
        obtain ⟨r1, r2, r3⟩ := hrec n { st with pm := (n, some cur) :: st.pm }
          h1' h2' st2 po2 hr
        cases po2 with
        | some path2 =>
          injection h with h
          injection h with ha hb
          rw [← ha, ← hb]
          refine ⟨r1, ?_, ?_⟩
          · intro k hk
            exact r2 k (plookup_isSome_cons n (some cur) st.pm k hk)
          · intro path hp
            injection hp with hp
            rw [← hp]
            exact r3 path2 rfl
        | none =>
          have h2'' : (plookup st2.pm cur).isSome :=
            r2 cur (plookup_isSome_cons n (some cur) st.pm cur h2)
          obtain ⟨q1, q2, q3⟩ := ih st2 r1 h2''
            (fun m hm => h3 m (List.mem_cons_of_mem n hm)) st' po h
          refine ⟨q1, ?_, q3⟩
          intro k hk
          exact q2 k (r2 k (plookup_isSome_cons n (some cur) st.pm k hk))

theorem iddfs_rec_c1 (tgt sp : Pos) : ∀ (limit : Nat) (cur : Pos) (st : IddfsSt),
    pmGood sp st.pm → (plookup st.pm cur).isSome →
    ∀ st' po, iddfs_dls_rec tgt limit cur st = some (st', po) →
      pmGood sp st'.pm ∧
      (∀ k, (plookup st.pm k).isSome → (plookup st'.pm k).isSome) ∧
      (∀ path, po = some path →
        path.head? = some sp ∧ path.getLast? = some tgt ∧
          List.Chain' (fun a b => b ∈ movements a) path) := by
  intro limit
  induction limit with
  | zero =>
    intro cur st h1 h2 st' po h
    rw [iddfs_rec_unfold] at h
    have hpmE : (iddfsCheck st).pm = st.pm := (iddfsCheck_fields st).2.2
    by_cases htgt : cur = tgt
    · rw [if_pos htgt] at h
      rcases hrp : reconstruct_path (iddfsCheck st).pm cur with _ | path0
      · rw [hrp] at h
        cases h
      · rw [hrp] at h
        injection h with h
        injection h with ha hb
        rw [hpmE] at hrp
        obtain ⟨p1, p2, p3⟩ := reconstruct_path_shape st.pm sp cur h1 h2 path0 hrp
        refine ⟨?_, ?_, ?_⟩
        · rw [← ha]
          show pmGood sp (iddfsCheck st).pm
          rw [hpmE]
          exact h1
        · intro k hk
          rw [← ha]
          show (plookup (iddfsCheck st).pm k).isSome
          rw [hpmE]
          exact hk
        · intro path hp
          rw [← hb] at hp
          injection hp with hp
          rw [← hp]
          exact ⟨p1, by rw [p2, htgt], p3⟩
    · rw [if_neg htgt] at h
      injection h with h
      injection h with ha hb
      refine ⟨?_, ?_, ?_⟩
      · rw [← ha]
        show pmGood sp (iddfsCheck st).pm
        rw [hpmE]
        exact h1
      · intro k hk
        rw [← ha]
        show (plookup (iddfsCheck st).pm k).isSome
        rw [hpmE]
        exact hk
      · intro path hp
        rw [← hb] at hp
        cases hp
  | succ l ih =>
    intro cur st h1 h2 st' po h
    rw [iddfs_rec_unfold] at h
    have hpmE : (iddfsCheck st).pm = st.pm := (iddfsCheck_fields st).2.2
    by_cases htgt : cur = tgt
    · rw [if_pos htgt] at h
      rcases hrp : reconstruct_path (iddfsCheck st).pm cur with _ | path0
      · rw [hrp] at h
        cases h
      · rw [hrp] at h
        injection h with h
        injection h with ha hb
        rw [hpmE] at hrp
        obtain ⟨p1, p2, p3⟩ := reconstruct_path_shape st.pm sp cur h1 h2 path0 hrp
        refine ⟨?_, ?_, ?_⟩
        · rw [← ha]
          show pmGood sp (iddfsCheck st).pm
          rw [hpmE]
          exact h1
        · intro k hk
          rw [← ha]
          show (plookup (iddfsCheck st).pm k).isSome
          rw [hpmE]
          exact hk
        · intro path hp
          rw [← hb] at hp
          injection hp with hp
          rw [← hp]
          exact ⟨p1, by rw [p2, htgt], p3⟩
    · rw [if_neg htgt] at h
      have h1' : pmGood sp ({ iddfsCheck st with
          explored := addSet (iddfsCheck st).explored cur,
          history := (iddfsCheck st).history
            ++ [addSet (iddfsCheck st).explored cur] } : IddfsSt).pm := by
        show pmGood sp (iddfsCheck st).pm
        rw [hpmE]
        exact h1
      have h2' : (plookup ({ iddfsCheck st with
          explored := addSet (iddfsCheck st).explored cur,
          history := (iddfsCheck st).history
            ++ [addSet (iddfsCheck st).explored cur] } : IddfsSt).pm cur).isSome := by
        show (plookup (iddfsCheck st).pm cur).isSome
        rw [hpmE]
        exact h2
      obtain ⟨r1, r2, r3⟩ := iddfs_go_c1_of_rec tgt sp l ih cur
        (get_neighbors (iddfsCheck st).grid cur) _ h1' h2'
        (fun n hn => get_neighbors_subset_movements (iddfsCheck st).grid cur n hn)
        st' po h
      refine ⟨r1, ?_, r3⟩
      intro k hk
      refine r2 k ?_
      show (plookup (iddfsCheck st).pm k).isSome
      rw [hpmE]
      exact hk

theorem iddfsIters_cons_fail (tgt sp : Pos) (limit : Nat) (rest : List Nat)
    (st : IddfsSt) (allExp : List Pos)
    (h : iddfs_dls_rec tgt limit sp
          ({ st with explored := [], pm := [(sp, none)] } : IddfsSt) = none) :
    iddfsIters tgt sp (limit :: rest) st allExp = none := by
  show (match iddfs_dls_rec tgt limit sp
          ({ st with explored := [], pm := [(sp, none)] } : IddfsSt) with
        | none => none
        | some (st', po) =>
          match po with
          | some path => some (st', unionSet allExp st'.explored, some path)
          | none => iddfsIters tgt sp rest st' (unionSet allExp st'.explored)) = _
  rw [h]

theorem iddfsIters_c1 (tgt sp : Pos) : ∀ (limits : List Nat) (st : IddfsSt)
    (allExp : List Pos) (st' : IddfsSt) (allExp' : List Pos) (path : List Pos),
    iddfsIters tgt sp limits st allExp = some (st', allExp', some path) →
    path.head? = some sp ∧ path.getLast? = some tgt ∧
      List.Chain' (fun a b => b ∈ movements a) path := by
  intro limits
  induction limits with
  | nil =>
    intro st allExp st' allExp' path h
    injection h with h
    injection h with h1 h2
    injection h2 with h3 h4
    cases h4
  | cons limit rest ih =>
    intro st allExp st' allExp' path h
    rcases hr : iddfs_dls_rec tgt limit sp
        ({ st with explored := [], pm := [(sp, none)] } : IddfsSt)
        with _ | ⟨st2, po2⟩
    · rw [iddfsIters_cons_fail tgt sp limit rest st allExp hr] at h
      cases h
    · have hsp : (plookup ([(sp, (none : Option Pos))]) sp).isSome := by
        rw [plookup_cons, if_pos rfl]
        rfl
      obtain ⟨r1, r2, r3⟩ := iddfs_rec_c1 tgt sp limit sp
        { st with explored := [], pm := [(sp, none)] }
        (pmGood_init sp) hsp st2 po2 hr
      cases po2 with
      | some path2 =>
        rw [iddfsIters_cons_some tgt sp limit rest st allExp st2 path2 hr] at h
        injection h with h
        injection h with h1 h2
        injection h2 with h3 h4
        injection h4 with h4
        rw [← h4]
        exact r3 path2 rfl
      | none =>
        rw [iddfsIters_cons_none tgt sp limit rest st allExp st2 hr] at h
        exact ih st2 (unionSet allExp st2.explored) st' allExp' path h

theorem iterative_deepening_search_c1 (g : Grid) (sched : List (Option Pos))
    (r : SearchResult) (h : iterative_deepening_search g sched = some r)
    (hf : r.found = true) :
    r.path.head? = some g.start ∧ r.path.getLast? = some g.target ∧
      List.Chain' (fun a b => b ∈ movements a) r.path := by
  obtain ⟨st', allExp, po, hit, hres⟩ := iterative_deepening_total g sched
  rw [h] at hres
  injection hres with hres
  rcases po with _ | path
  · rw [hres] at hf
    simp at hf
  · have hshape := iddfsIters_c1 g.target g.start
      (List.range' 1 (((max g.width g.height) * 2)).toNat)
      { grid := g, explored := [], pm := [], history := [], log := [],
        sched := sched } [] st' allExp path hit
    rw [hres]
    simpa using hshape


theorem biForwardNeighbors_c1 (g0 : Grid) (current : Pos) :
    ∀ (ns : List Pos) (s : BiSt),
      pmGood g0.start s.forward_parent →
      (plookup s.forward_parent current).isSome →
      (∀ n ∈ ns, n ∈ movements current) →
      (∀ x ∈ s.forward_frontier, (plookup s.forward_parent x).isSome) →
      (∀ x ∈ s.forward_explored, (plookup s.forward_parent x).isSome) →
      ∀ s' om, biForwardNeighbors current ns s = (s', om) →
        pmGood g0.start s'.forward_parent ∧
        s'.backward_parent = s.backward_parent ∧
        (∀ x ∈ s'.forward_frontier, (plookup s'.forward_parent x).isSome) ∧
        (∀ x ∈ s'.forward_explored, (plookup s'.forward_parent x).isSome) ∧
        (∀ m, om = some m → m ∈ s.backward_explored ∧
          (plookup s'.forward_parent m).isSome) := by
  intro ns
  induction ns with
  | nil =>
    intro s h1 h2 h3 h4 h5 s' om h
    rw [biForwardNeighbors] at h
    injection h with ha hb
    rw [← ha, ← hb]
    exact ⟨h1, rfl, h4, h5, fun m hm => Option.noConfusion hm⟩
  | cons n rest ih =>
    intro s h1 h2 h3 h4 h5 s' om h
    rw [biForwardNeighbors] at h
    split at h
    · rename_i hmeet
      injection h with ha hb
      rw [← ha, ← hb]
      have hmv : n ∈ movements current := h3 n (List.mem_cons_self n rest)
      have h1' : pmGood g0.start ((n, some current) :: s.forward_parent) :=
        pmGood_cons g0.start current n s.forward_parent h1 hmv h2
      have hnd : (plookup ((n, some current) :: s.forward_parent) n).isSome := by
        rw [plookup_cons, if_pos rfl]
        rfl
      refine ⟨h1', rfl, ?_, ?_, ?_⟩
      · intro x hx
        exact plookup_isSome_cons _ _ _ _ (h4 x hx)
      · intro x hx
        exact plookup_isSome_cons _ _ _ _ (h5 x hx)
      · intro m hm
        injection hm with hm
        rw [← hm]
        exact ⟨hmeet, hnd⟩
    · split at h
      · have hmv : n ∈ movements current := h3 n (List.mem_cons_self n rest)
        have h1' : pmGood g0.start ((n, some current) :: s.forward_parent) :=
          pmGood_cons g0.start current n s.forward_parent h1 hmv h2
        have h2' : (plookup ((n, some current) :: s.forward_parent) current).isSome :=
          plookup_isSome_cons _ _ _ _ h2
        have h4' : ∀ x ∈ s.forward_frontier ++ [n],
            (plookup ((n, some current) :: s.forward_parent) x).isSome := by
          intro x hx
          rcases List.mem_append.mp hx with h6 | h6
          · exact plookup_isSome_cons _ _ _ _ (h4 x h6)
          · rw [List.mem_singleton.mp h6, plookup_cons, if_pos rfl]
            rfl
        have h5' : ∀ x ∈ s.forward_explored,
            (plookup ((n, some current) :: s.forward_parent) x).isSome :=
          fun x hx => plookup_isSome_cons _ _ _ _ (h5 x hx)
        obtain ⟨r1, r2, r3, r4, r5⟩ := ih
          { s with forward_parent := (n, some current) :: s.forward_parent,
                   forward_frontier := s.forward_frontier ++ [n],
                   forward_in_frontier := addSet s.forward_in_frontier n }
          h1' h2' (fun m hm => h3 m (List.mem_cons_of_mem n hm)) h4' h5' s' om h
        exact ⟨r1, r2, r3, r4, r5⟩
      · exact ih s h1 h2 (fun m hm => h3 m (List.mem_cons_of_mem n hm)) h4 h5 s' om h

theorem biBackwardNeighbors_c1 (g0 : Grid) (current : Pos) :
    ∀ (ns : List Pos) (s : BiSt),
      pmGood g0.target s.backward_parent →
      (plookup s.backward_parent current).isSome →
      (∀ n ∈ ns, n ∈ movements current) →
      (∀ x ∈ s.backward_frontier, (plookup s.backward_parent x).isSome) →
      (∀ x ∈ s.backward_explored, (plookup s.backward_parent x).isSome) →
      ∀ s' om, biBackwardNeighbors current ns s = (s', om) →
        pmGood g0.target s'.backward_parent ∧
        s'.forward_parent = s.forward_parent ∧
        (∀ x ∈ s'.backward_frontier, (plookup s'.backward_parent x).isSome) ∧
        (∀ x ∈ s'.backward_explored, (plookup s'.backward_parent x).isSome) ∧
        (∀ m, om = some m → m ∈ s.forward_explored ∧
          (plookup s'.backward_parent m).isSome) := by
  intro ns
  induction ns with
  | nil =>
    intro s h1 h2 h3 h4 h5 s' om h
    rw [biBackwardNeighbors] at h
    injection h with ha hb
    rw [← ha, ← hb]
    exact ⟨h1, rfl, h4, h5, fun m hm => Option.noConfusion hm⟩
  | cons n rest ih =>
    intro s h1 h2 h3 h4 h5 s' om h
    rw [biBackwardNeighbors] at h
    split at h
    · rename_i hmeet
      injection h with ha hb
      rw [← ha, ← hb]
      have hmv : n ∈ movements current := h3 n (List.mem_cons_self n rest)
      have h1' : pmGood g0.target ((n, some current) :: s.backward_parent) :=
        pmGood_cons g0.target current n s.backward_parent h1 hmv h2
      have hnd : (plookup ((n, some current) :: s.backward_parent) n).isSome := by
        rw [plookup_cons, if_pos rfl]
        rfl
      refine ⟨h1', rfl, ?_, ?_, ?_⟩
      · intro x hx
        exact plookup_isSome_cons _ _ _ _ (h4 x hx)
      · intro x hx
        exact plookup_isSome_cons _ _ _ _ (h5 x hx)
      · intro m hm
        injection hm with hm
        rw [← hm]
        exact ⟨hmeet, hnd⟩
    · split at h
      · have hmv : n ∈ movements current := h3 n (List.mem_cons_self n rest)
        have h1' : pmGood g0.target ((n, some current) :: s.backward_parent) :=
          pmGood_cons g0.target current n s.backward_parent h1 hmv h2
        have h2' : (plookup ((n, some current) :: s.backward_parent) current).isSome :=
          plookup_isSome_cons _ _ _ _ h2
        have h4' : ∀ x ∈ s.backward_frontier ++ [n],
            (plookup ((n, some current) :: s.backward_parent) x).isSome := by
          intro x hx
          rcases List.mem_append.mp hx with h6 | h6
          · exact plookup_isSome_cons _ _ _ _ (h4 x h6)
          · rw [List.mem_singleton.mp h6, plookup_cons, if_pos rfl]
            rfl
        have h5' : ∀ x ∈ s.backward_explored,
            (plookup ((n, some current) :: s.backward_parent) x).isSome :=
          fun x hx => plookup_isSome_cons _ _ _ _ (h5 x hx)
        obtain ⟨r1, r2, r3, r4, r5⟩ := ih
          { s with backward_parent := (n, some current) :: s.backward_parent,
                   backward_frontier := s.backward_frontier ++ [n],
                   backward_in_frontier := addSet s.backward_in_frontier n }
          h1' h2' (fun m hm => h3 m (List.mem_cons_of_mem n hm)) h4' h5' s' om h
        exact ⟨r1, r2, r3, r4, r5⟩
      · exact ih s h1 h2 (fun m hm => h3 m (List.mem_cons_of_mem n hm)) h4 h5 s' om h


theorem biForwardPhase_c1 (g0 : Grid) (s0 : BiSt)
    (hpm : pmGood g0.start s0.forward_parent)
    (hfr : ∀ x ∈ s0.forward_frontier, (plookup s0.forward_parent x).isSome)
    (hex : ∀ x ∈ s0.forward_explored, (plookup s0.forward_parent x).isSome) :
    ∀ s3 om, biForwardPhase s0 = (s3, om) →
      s3.grid = s0.grid ∧
      pmGood g0.start s3.forward_parent ∧
      s3.backward_parent = s0.backward_parent ∧
      (∀ x ∈ s3.forward_frontier, (plookup s3.forward_parent x).isSome) ∧
      (∀ x ∈ s3.forward_explored, (plookup s3.forward_parent x).isSome) ∧
      (∀ m, om = some m → m ∈ s0.backward_explored ∧
        (plookup s3.forward_parent m).isSome) := by
  intro s3 om hp
  unfold biForwardPhase at hp
  split at hp
  · injection hp with ha hb
    rw [← ha, ← hb]
    exact ⟨rfl, hpm, rfl, hfr, hex, fun m hm => Option.noConfusion hm⟩
  · rename_i current rest hfrr
    dsimp only at hp
    split at hp
    · injection hp with ha hb
      rw [← ha, ← hb]
      refine ⟨rfl, hpm, rfl, ?_, hex, fun m hm => Option.noConfusion hm⟩
      intro x hx
      exact hfr x (by rw [hfrr]; exact List.mem_cons_of_mem current hx)
    · have hcur : (plookup s0.forward_parent current).isSome :=
        hfr current (by rw [hfrr]; exact List.mem_cons_self current rest)
      have hp' : biForwardNeighbors current (get_neighbors s0.grid current)
          { s0 with forward_frontier := rest,
                    forward_in_frontier := discardSet s0.forward_in_frontier current,
                    forward_explored := addSet s0.forward_explored current,
                    explored := addSet s0.explored current } = (s3, om) := hp
      have hfr2 : ∀ x ∈ rest, (plookup s0.forward_parent x).isSome :=
        fun x hx => hfr x (by rw [hfrr]; exact List.mem_cons_of_mem current hx)
      have hex2 : ∀ x ∈ addSet s0.forward_explored current,
          (plookup s0.forward_parent x).isSome := by
        intro x hx
        rcases mem_addSet hx with h6 | h6
        · exact hex x h6
        · rw [h6]
          exact hcur
      obtain ⟨r1, r2, r3, r4, r5⟩ := biForwardNeighbors_c1 g0 current
        (get_neighbors s0.grid current)
        { s0 with forward_frontier := rest,
                  forward_in_frontier := discardSet s0.forward_in_frontier current,
                  forward_explored := addSet s0.forward_explored current,
                  explored := addSet s0.explored current }
        hpm hcur (fun n hn => get_neighbors_subset_movements s0.grid current n hn)
        hfr2 hex2 s3 om hp'
      have hg3 : s3.grid = s0.grid := by
        have h7 := (biForwardNeighbors_fields current (get_neighbors s0.grid current)
          { s0 with forward_frontier := rest,
                    forward_in_frontier := discardSet s0.forward_in_frontier current,
                    forward_explored := addSet s0.forward_explored current,
                    explored := addSet s0.explored current }).2.2.1
        rw [hp'] at h7
        exact h7
      refine ⟨hg3, r1, r2, r3, r4, ?_⟩
      intro m hm
      obtain ⟨q1, q2⟩ := r5 m hm
      exact ⟨q1, q2⟩

theorem biBackwardPhase_c1 (g0 : Grid) (s0 : BiSt)
    (hpm : pmGood g0.target s0.backward_parent)
    (hfr : ∀ x ∈ s0.backward_frontier, (plookup s0.backward_parent x).isSome)
    (hex : ∀ x ∈ s0.backward_explored, (plookup s0.backward_parent x).isSome) :
    ∀ s3 om, biBackwardPhase s0 = (s3, om) →
      s3.grid = s0.grid ∧
      pmGood g0.target s3.backward_parent ∧
      s3.forward_parent = s0.forward_parent ∧
      (∀ x ∈ s3.backward_frontier, (plookup s3.backward_parent x).isSome) ∧
      (∀ x ∈ s3.backward_explored, (plookup s3.backward_parent x).isSome) ∧
      (∀ m, om = some m → m ∈ s0.forward_explored ∧
        (plookup s3.backward_parent m).isSome) := by
  intro s3 om hp
  unfold biBackwardPhase at hp
  split at hp
  · injection hp with ha hb
    rw [← ha, ← hb]
    exact ⟨rfl, hpm, rfl, hfr, hex, fun m hm => Option.noConfusion hm⟩
  · rename_i current rest hfrr
    dsimp only at hp
    split at hp
    · injection hp with ha hb
      rw [← ha, ← hb]
      refine ⟨rfl, hpm, rfl, ?_, hex, fun m hm => Option.noConfusion hm⟩
      intro x hx
      exact hfr x (by rw [hfrr]; exact List.mem_cons_of_mem current hx)
    · have hcur : (plookup s0.backward_parent current).isSome :=
        hfr current (by rw [hfrr]; exact List.mem_cons_self current rest)
      have hp' : biBackwardNeighbors current (get_neighbors s0.grid current)
          { s0 with backward_frontier := rest,
                    backward_in_frontier := discardSet s0.backward_in_frontier current,
                    backward_explored := addSet s0.backward_explored current,
                    explored := addSet s0.explored current } = (s3, om) := hp
      have hfr2 : ∀ x ∈ rest, (plookup s0.backward_parent x).isSome :=
        fun x hx => hfr x (by rw [hfrr]; exact List.mem_cons_of_mem current hx)
      have hex2 : ∀ x ∈ addSet s0.backward_explored current,
          (plookup s0.backward_parent x).isSome := by
        intro x hx
        rcases mem_addSet hx with h6 | h6
        · exact hex x h6
        · rw [h6]
          exact hcur
      obtain ⟨r1, r2, r3, r4, r5⟩ := biBackwardNeighbors_c1 g0 current
        (get_neighbors s0.grid current)
        { s0 with backward_frontier := rest,
                  backward_in_frontier := discardSet s0.backward_in_frontier current,
                  backward_explored := addSet s0.backward_explored current,
                  explored := addSet s0.explored current }
        hpm hcur (fun n hn => get_neighbors_subset_movements s0.grid current n hn)
        hfr2 hex2 s3 om hp'
      have hg3 : s3.grid = s0.grid := by
        have h7 := (biBackwardNeighbors_fields current (get_neighbors s0.grid current)
          { s0 with backward_frontier := rest,
                    backward_in_frontier := discardSet s0.backward_in_frontier current,
                    backward_explored := addSet s0.backward_explored current,
                    explored := addSet s0.explored current }).2.2.1
        rw [hp'] at h7
        exact h7
      refine ⟨hg3, r1, r2, r3, r4, ?_⟩
      intro m hm
      obtain ⟨q1, q2⟩ := r5 m hm
      exact ⟨q1, q2⟩


theorem biStep_c1 (g0 : Grid) (s : BiSt) (hinv : biInv g0 s) :
    (∀ s1, biStep s = BiStepOut.next s1 → biInv g0 s1) ∧
    (∀ s1 m, biStep s = BiStepOut.meet s1 m → biInv g0 s1 ∧
      (plookup s1.forward_parent m).isSome ∧
      (plookup s1.backward_parent m).isSome) := by
  obtain ⟨hge, hpf, hpb, hff, hbf, hfe, hbe⟩ := hinv
  unfold biStep
  rcases h1 : takeChoice s.sched with ⟨c1, sched1⟩
  rcases h2 : check_dynamic_obstacles id s.grid s.forward_frontier s.log c1
    with ⟨g1, f1, log1⟩
  rcases h3 : takeChoice sched1 with ⟨c2, sched2⟩
  rcases h4 : check_dynamic_obstacles id g1 s.backward_frontier log1 c2
    with ⟨g2, b1, log2⟩
  simp only [h1, h2, h3, h4]
  have hg1 : gridExtends g0 g1 := by
    have h5 := check_extends g0 id s.grid s.forward_frontier s.log c1 hge
    rw [h2] at h5
    exact h5
  have hg2 : gridExtends g0 g2 := by
    have h5 := check_extends g0 id g1 s.backward_frontier log1 c2 hg1
    rw [h4] at h5
    exact h5
  have hsf : List.Sublist f1 s.forward_frontier := by
    have h6 := check_dynamic_sublist id s.grid s.forward_frontier s.log c1
    rw [h2] at h6
    exact h6
  have hsb : List.Sublist b1 s.backward_frontier := by
    have h6 := check_dynamic_sublist id g1 s.backward_frontier log1 c2
    rw [h4] at h6
    exact h6
  rcases hfp : biForwardPhase
      { grid := g2, forward_frontier := f1, backward_frontier := b1,
        forward_explored := s.forward_explored,
        backward_explored := s.backward_explored,
        forward_in_frontier := s.forward_in_frontier,
        backward_in_frontier := s.backward_in_frontier,
        forward_parent := s.forward_parent,
        backward_parent := s.backward_parent,
        explored := s.explored, history := s.history, log := log2,
        sched := sched2 } with ⟨s3, om3⟩
  obtain ⟨pg, p1, p2, p3, p4, p5⟩ := biForwardPhase_c1 g0
    { grid := g2, forward_frontier := f1, backward_frontier := b1,
        forward_explored := s.forward_explored,
        backward_explored := s.backward_explored,
        forward_in_frontier := s.forward_in_frontier,
        backward_in_frontier := s.backward_in_frontier,
        forward_parent := s.forward_parent,
        backward_parent := s.backward_parent,
        explored := s.explored, history := s.history, log := log2,
        sched := sched2 }
    hpf (fun x hx => hff x (hsf.mem hx)) hfe s3 om3 hfp
  obtain ⟨w1, w2, w3, _, _⟩ := biForwardPhase_fields
    { grid := g2, forward_frontier := f1, backward_frontier := b1,
        forward_explored := s.forward_explored,
        backward_explored := s.backward_explored,
        forward_in_frontier := s.forward_in_frontier,
        backward_in_frontier := s.backward_in_frontier,
        forward_parent := s.forward_parent,
        backward_parent := s.backward_parent,
        explored := s.explored, history := s.history, log := log2,
        sched := sched2 } (s3, om3) hfp
  have hp2 : s3.backward_parent = s.backward_parent := p2
  have hw2 : s3.backward_frontier = b1 := w2
  have hw3 : s3.backward_explored = s.backward_explored := w3
  have hbf3 : ∀ x ∈ s3.backward_frontier, (plookup s3.backward_parent x).isSome := by
    intro x hx
    rw [hp2]
    rw [hw2] at hx
    exact hbf x (hsb.mem hx)
  have hbe3 : ∀ x ∈ s3.backward_explored, (plookup s3.backward_parent x).isSome := by
    intro x hx
    rw [hp2]
    rw [hw3] at hx
    exact hbe x hx
  have hpb3 : pmGood g0.target s3.backward_parent := by
    rw [hp2]
    exact hpb
  have hge3 : gridExtends g0 s3.grid := by
    have : s3.grid = g2 := pg
    rw [this]
    exact hg2
  cases om3 with
  | some m3 =>
    constructor
    · intro s1 heq
      cases heq
    · intro s1 m heq
      injection heq with ha hb
      rw [← ha, ← hb]
      obtain ⟨q1, q2⟩ := p5 m3 rfl
      refine ⟨⟨hge3, p1, hpb3, p3, hbf3, p4, hbe3⟩, q2, ?_⟩
      rw [hp2]
      exact hbe m3 q1
  | none =>
    rcases hbp : biBackwardPhase s3 with ⟨s6, om6⟩
    simp only [hbp]
    obtain ⟨qg, q1, q2, q3, q4, q5⟩ := biBackwardPhase_c1 g0 s3 hpb3 hbf3 hbe3
      s6 om6 hbp
    obtain ⟨v1, v2, v3, _, _⟩ := biBackwardPhase_fields s3 (s6, om6) hbp
    have hv2 : s6.forward_frontier = s3.forward_frontier := v2
    have hv3 : s6.forward_explored = s3.forward_explored := v3
    have hq2 : s6.forward_parent = s3.forward_parent := q2
    have hpf6 : pmGood g0.start s6.forward_parent := by
      rw [hq2]
      exact p1
    have hff6 : ∀ x ∈ s6.forward_frontier, (plookup s6.forward_parent x).isSome := by
      intro x hx
      rw [hq2]
      rw [hv2] at hx
      exact p3 x hx
    have hfe6 : ∀ x ∈ s6.forward_explored, (plookup s6.forward_parent x).isSome := by
      intro x hx
      rw [hq2]
      rw [hv3] at hx
      exact p4 x hx
    have hge6 : gridExtends g0 s6.grid := by
      rw [qg]
      exact hge3
    cases om6 with
    | some m6 =>
      constructor
      · intro s1 heq
        cases heq
      · intro s1 m heq
        injection heq with ha hb
        rw [← ha, ← hb]
        obtain ⟨u1, u2⟩ := q5 m6 rfl
        refine ⟨⟨hge6, hpf6, q1, hff6, q3, hfe6, q4⟩, ?_, u2⟩
        rw [hq2]
        exact p4 m6 u1
    | none =>
      constructor
      · intro s1 heq
        injection heq with heq
        rw [← heq]
        exact ⟨hge6, hpf6, q1, hff6, q3, hfe6, q4⟩
      · intro s1 m heq
        cases heq

theorem biLoop_succ (f : Nat) (s : BiSt) :
    biLoop (f + 1) s =
      if s.forward_frontier.isEmpty && s.backward_frontier.isEmpty then
        some (s, none)
      else
        match biStep s with
        | BiStepOut.next s1 => biLoop f s1
        | BiStepOut.meet s1 m => some (s1, some m) := rfl

theorem biLoop_c1 (g0 : Grid) : ∀ (fuel : Nat) (s : BiSt), biInv g0 s →
    ∀ s1 m, biLoop fuel s = some (s1, some m) →
      biInv g0 s1 ∧ (plookup s1.forward_parent m).isSome ∧
        (plookup s1.backward_parent m).isSome := by
  intro fuel
  induction fuel with
  | zero =>
    intro s _ s1 m h
    cases h
  | succ f ih =>
    intro s hinv s1 m h
    rw [biLoop_succ] at h
    split at h
    · injection h with h
      injection h with ha hb
      cases hb
    · rcases hstep : biStep s with s2 | ⟨s2, m2⟩ <;> simp only [hstep] at h
      · exact ih s2 ((biStep_c1 g0 s hinv).1 s2 hstep) s1 m h
      · injection h with h
        injection h with ha hb
        injection hb with hb
        rw [← ha, ← hb]
        exact (biStep_c1 g0 s hinv).2 s2 m2 hstep

theorem biInit_inv (g : Grid) (sched : List (Option Pos)) :
    biInv g (biInit g sched) := by
  refine ⟨gridExtends_refl g, pmGood_init g.start, pmGood_init g.target,
    ?_, ?_, ?_, ?_⟩
  · intro x hx
    rw [List.mem_singleton.mp hx]
    show (plookup [(g.start, none)] g.start).isSome
    rw [plookup_cons, if_pos rfl]
    rfl
  · intro x hx
    rw [List.mem_singleton.mp hx]
    show (plookup [(g.target, none)] g.target).isSome
    rw [plookup_cons, if_pos rfl]
    rfl
  · intro x hx
    cases hx
  · intro x hx
    cases hx

theorem biAssemblePath_c1 (g0 : Grid) (s : BiSt) (m : Pos)
    (hf : pmGood g0.start s.forward_parent)
    (hb : pmGood g0.target s.backward_parent)
    (hmf : (plookup s.forward_parent m).isSome)
    (hmb : (plookup s.backward_parent m).isSome)
    (path : List Pos) (h : biAssemblePath s m = some path) :
    path.head? = some g0.start ∧ path.getLast? = some g0.target ∧
      List.Chain' (fun a b => b ∈ movements a) path := by
  unfold biAssemblePath at h
  rcases hfc : reconstructAux s.forward_parent (s.forward_parent.length + 1) m
    with _ | fchain
  · rw [hfc] at h
    cases h
  · rw [hfc] at h
    obtain ⟨f1, f2, f3⟩ := reconstructAux_shape s.forward_parent g0.start hf
      (s.forward_parent.length + 1) m fchain hmf hfc
    dsimp only at h
    rcases hbw : pmGet s.backward_parent m with _ | p
    · simp only [hbw] at h
      have hm_tgt : m = g0.target :=
        hb.2.1 m (pmGet_none_plookup s.backward_parent m hmb hbw)
      injection h with h
      rw [← h]
      refine ⟨?_, ?_, ?_⟩
      · rw [List.append_nil, ← List.getLast?_eq_head?_reverse]
        exact f2
      · rw [List.append_nil, List.getLast?_eq_head?_reverse,
          List.reverse_reverse, f1, hm_tgt]
      · rw [List.append_nil]
        exact List.chain'_reverse.mpr f3
    · simp only [hbw] at h
      rcases hbc : reconstructAux s.backward_parent
          (s.backward_parent.length + 1) p with _ | bchain
      · rw [hbc] at h
        cases h
      · rw [hbc] at h
        injection h with h
        have hpl : plookup s.backward_parent m = some (some p) :=
          pmGet_some_plookup s.backward_parent m p hbw
        have hmp : m ∈ movements p := hb.1 m p hpl
        have hpm : p ∈ movements m := movements_symm p m hmp
        have hpdom : (plookup s.backward_parent p).isSome := hb.2.2 m p hpl
        obtain ⟨b1, b2, b3⟩ := reconstructAux_shape s.backward_parent g0.target hb
          (s.backward_parent.length + 1) p bchain hpdom hbc
        have hfch_ne : fchain ≠ [] := by
          intro hc
          rw [hc] at f1
          cases f1
        have hbch_ne : bchain ≠ [] := by
          intro hc
          rw [hc] at b1
          cases b1
        rw [← h]
        refine ⟨?_, ?_, ?_⟩
        · rw [List.head?_append]
          rw [← List.getLast?_eq_head?_reverse, f2]
          rfl
        · rw [List.getLast?_append, b2]
          rfl
        · rw [List.chain'_append]
          refine ⟨List.chain'_reverse.mpr f3, ?_, ?_⟩
          · exact b3.imp (fun a b hab => movements_symm b a hab)
          · intro x hx y hy
            rw [List.getLast?_eq_head?_reverse, List.reverse_reverse, f1] at hx
            rw [b1] at hy
            injection hx with hx
            injection hy with hy
            rw [← hx, ← hy]
            exact hpm

theorem bidirectional_search_c1 (g : Grid) (sched : List (Option Pos))
    (fuel : Nat) (r : SearchResult)
    (h : bidirectional_search g sched fuel = some r) (hf : r.found = true) :
    r.path.head? = some g.start ∧ r.path.getLast? = some g.target ∧
      List.Chain' (fun a b => b ∈ movements a) r.path := by
  unfold bidirectional_search at h
  rcases hbl : biLoop fuel (biInit g sched) with _ | pr
  · rw [hbl] at h
    cases h
  · rcases pr with ⟨s1, om⟩
    simp only [hbl] at h
    cases om with
    | none =>
      injection h with h
      rw [← h] at hf
      simp [mkSearchResult] at hf
    | some m =>
      rcases hap : biAssemblePath s1 m with _ | path
      · simp only [hap] at h
        exact Option.noConfusion h
      · simp only [hap] at h
        injection h with h
        obtain ⟨hinv1, hmf, hmb⟩ := biLoop_c1 g fuel (biInit g sched)
          (biInit_inv g sched) s1 m hbl
        have hshape := biAssemblePath_c1 g s1 m hinv1.2.1 hinv1.2.2.1
          hmf hmb path hap
        rw [← h]
        simpa [mkSearchResult] using hshape


theorem iddfs_run_grid11 : iterative_deepening_search grid11 [] = some c1r0 := by
  obtain ⟨st', allExp, po, hit, hres⟩ := iterative_deepening_total grid11 []
  have hrange : List.range' 1 (((max grid11.width grid11.height) * 2)).toNat
      = [1, 2] := by decide
  have hrec : iddfs_dls_rec grid11.target 1 grid11.start
      ({ grid := grid11, explored := [], pm := [((0, 0), none)], history := [],
         log := [], sched := [] } : IddfsSt)
      = some ({ grid := grid11, explored := [(0, 0)], pm := [((0, 0), none)],
                history := [[(0, 0)]], log := [], sched := [] }, some [(0, 0)]) := by
    rw [iddfs_rec_unfold]
    decide
  have hcs := iddfsIters_cons_some grid11.target grid11.start 1 [2]
    ({ grid := grid11, explored := [], pm := [], history := [], log := [],
       sched := [] } : IddfsSt) []
    ({ grid := grid11, explored := [(0, 0)], pm := [((0, 0), none)],
       history := [[(0, 0)]], log := [], sched := [] } : IddfsSt)
    [(0, 0)] hrec
  rw [hrange] at hit
  rw [hcs] at hit
  injection hit with hit
  injection hit with h1 h2
  injection h2 with h2 h3
  subst h1
  subst h2
  subst h3
  rw [hres]
  decide

/-- Counterexample to C1's blocked-cell clause: on the 4-cell corridor an
obstacle spawns at `(1,0)` after the search has walked through it; the run
still returns `found = true` with a path that contains `(1,0)`, which is a
blocked cell of the final grid — the grid in effect when the path is
constructed. -/
theorem c1_counterexample :
    runLoop bfsStep 5 (plainInit grid41 sched41) =
      some (Res.ok (c1s41, some c1r41.path)) ∧
    breadth_first_search grid41 sched41 5 = some (Res.ok c1r41) ∧
    c1r41.found = true ∧ ((1, 0) : Pos) ∈ c1r41.path ∧
    is_blocked c1s41.grid (1, 0) = true :=
  ⟨by decide, by decide, by decide, by decide, by decide⟩

/-- C1 (amended): for every algorithm, a `found` result's path starts at
the grid's start, ends at its target, and each consecutive pair is one of
the 8 moves (in particular consecutive positions are never equal); the
original claim's further assertion that no path position is blocked at
path-construction time is false (see the counterexample: a dynamic
obstacle may spawn on an already-walked path cell). -/
theorem c1_path_endpoints_and_adjacency :
    (∀ (g : Grid) (sched : List (Option Pos)) (fuel : Nat) (r : SearchResult),
      breadth_first_search g sched fuel = some (Res.ok r) → r.found = true →
      r.path.head? = some g.start ∧ r.path.getLast? = some g.target ∧
        List.Chain' (fun a b => b ∈ movements a) r.path) ∧
    (∀ (g : Grid) (sched : List (Option Pos)) (fuel : Nat) (r : SearchResult),
      depth_first_search g sched fuel = some (Res.ok r) → r.found = true →
      r.path.head? = some g.start ∧ r.path.getLast? = some g.target ∧
        List.Chain' (fun a b => b ∈ movements a) r.path) ∧
    (∀ (g : Grid) (sched : List (Option Pos)) (fuel : Nat) (r : SearchResult),
      uniform_cost_search g sched fuel = some (Res.ok r) → r.found = true →
      r.path.head? = some g.start ∧ r.path.getLast? = some g.target ∧
        List.Chain' (fun a b => b ∈ movements a) r.path) ∧
    (∀ (g : Grid) (L : Nat) (sched : List (Option Pos)) (fuel : Nat)
        (r : SearchResult),
      depth_limited_search g L sched fuel = some (Res.ok r) → r.found = true →
      r.path.head? = some g.start ∧ r.path.getLast? = some g.target ∧
        List.Chain' (fun a b => b ∈ movements a) r.path) ∧
    (∀ (g : Grid) (sched : List (Option Pos)) (r : SearchResult),
      iterative_deepening_search g sched = some r → r.found = true →
      r.path.head? = some g.start ∧ r.path.getLast? = some g.target ∧
        List.Chain' (fun a b => b ∈ movements a) r.path) ∧
    (∀ (g : Grid) (sched : List (Option Pos)) (fuel : Nat) (r : SearchResult),
      bidirectional_search g sched fuel = some r → r.found = true →
      r.path.head? = some g.start ∧ r.path.getLast? = some g.target ∧
        List.Chain' (fun a b => b ∈ movements a) r.path) ∧
    (∀ p q, q ∈ movements p → q ≠ p) :=
  ⟨breadth_first_search_c1, depth_first_search_c1, uniform_cost_search_c1,
   depth_limited_search_c1, iterative_deepening_search_c1,
   bidirectional_search_c1, movements_ne_self⟩

/-- Witness for C1 on the 2-cell grid: all six algorithms find the path
`[(0,0), (1,0)]`, whose endpoints and single step satisfy the amended
claim. -/
theorem c1_path_endpoints_and_adjacency_witness :
    (c1r1.path.head? = some grid21.start ∧
      c1r1.path.getLast? = some grid21.target ∧
      List.Chain' (fun a b => b ∈ movements a) c1r1.path) ∧
    (c1r1.path.head? = some grid21.start ∧
      c1r1.path.getLast? = some grid21.target ∧
      List.Chain' (fun a b => b ∈ movements a) c1r1.path) ∧
    (c1r0.path.head? = some grid11.start ∧
      c1r0.path.getLast? = some grid11.target ∧
      List.Chain' (fun a b => b ∈ movements a) c1r0.path) ∧
    (c1r1.path.head? = some grid21.start ∧
      c1r1.path.getLast? = some grid21.target ∧
      List.Chain' (fun a b => b ∈ movements a) c1r1.path) ∧
    (c1r0.path.head? = some grid11.start ∧
      c1r0.path.getLast? = some grid11.target ∧
      List.Chain' (fun a b => b ∈ movements a) c1r0.path) ∧
    (c1r3.path.head? = some grid21.start ∧
      c1r3.path.getLast? = some grid21.target ∧
      List.Chain' (fun a b => b ∈ movements a) c1r3.path) ∧
    ((1, 0) : Pos) ≠ ((0, 0) : Pos) :=
  ⟨c1_path_endpoints_and_adjacency.1 grid21 [] 5 c1r1 (by decide) (by decide),
   c1_path_endpoints_and_adjacency.2.1 grid21 [] 5 c1r1 (by decide) (by decide),
   c1_path_endpoints_and_adjacency.2.2.1 grid11 [] 5 c1r0 (by decide) (by decide),
   c1_path_endpoints_and_adjacency.2.2.2.1 grid21 5 [] 5 c1r1 (by decide)
     (by decide),
   c1_path_endpoints_and_adjacency.2.2.2.2.1 grid11 [] c1r0 iddfs_run_grid11
     (by decide),
   c1_path_endpoints_and_adjacency.2.2.2.2.2.1 grid21 [] 5 c1r3 (by decide)
     (by decide),
   c1_path_endpoints_and_adjacency.2.2.2.2.2.2 (0, 0) (1, 0) (by decide)⟩


theorem distMin_unique (g : Grid) (y : Pos) (d d' : Nat)
    (h : distMin g y d) (h' : distMin g y d') : d = d' := by
  rcases Nat.lt_trichotomy d d' with hlt | heq | hgt
  · have h1 := h.1
    rw [h'.2 d hlt] at h1
    cases h1
  · exact heq
  · have h1 := h'.1
    rw [h.2 d' hgt] at h1
    cases h1

theorem walk_to_distMin (g : Grid) (y : Pos) :
    ∀ n, walkNb g n g.start y = true → ∃ d, d ≤ n ∧ distMin g y d := by
  intro n
  induction n using Nat.strong_induction_on with
  | _ n ih =>
    intro hw
    by_cases hmin : ∀ m, m < n → walkNb g m g.start y = false
    · exact ⟨n, le_refl n, hw, hmin⟩
    · push_neg at hmin
      obtain ⟨m, hm, hne⟩ := hmin
      cases hb : walkNb g m g.start y with
      | false => exact absurd hb hne
      | true =>
        obtain ⟨d, hd, hdm⟩ := ih m hm hb
        exact ⟨d, le_trans hd (le_of_lt hm), hdm⟩

theorem distMin_start (g : Grid) : distMin g g.start 0 := by
  constructor
  · show decide (g.start = g.start) = true
    simp
  · intro m hm
    exact absurd hm (Nat.not_lt_zero m)

theorem distMin_zero_eq (g : Grid) (u : Pos) (h : distMin g u 0) : u = g.start := by
  have h1 : decide (g.start = u) = true := h.1
  exact (of_decide_eq_true h1).symm

theorem walk_unsnoc (g : Grid) : ∀ (e : Nat) (p u : Pos),
    walkNb g (e + 1) p u = true →
    ∃ w, walkNb g e p w = true ∧ u ∈ get_neighbors g w := by
  intro e
  induction e with
  | zero =>
    intro p u hw
    rw [walkNb] at hw
    obtain ⟨r, hr, hru⟩ := List.any_eq_true.mp hw
    rw [walkNb] at hru
    have : r = u := of_decide_eq_true hru
    rw [this] at hr
    refine ⟨p, ?_, hr⟩
    rw [walkNb]
    simp
  | succ e ih =>
    intro p u hw
    rw [walkNb] at hw
    obtain ⟨r, hr, hru⟩ := List.any_eq_true.mp hw
    obtain ⟨w, hw1, hw2⟩ := ih r u hru
    refine ⟨w, ?_, hw2⟩
    rw [walkNb]
    exact List.any_eq_true.mpr ⟨r, hr, hw1⟩

theorem distMin_pred (g : Grid) (u : Pos) (e : Nat) (h : distMin g u (e + 1)) :
    ∃ w, distMin g w e ∧ u ∈ get_neighbors g w := by
  obtain ⟨h1, h2⟩ := h
  obtain ⟨w, hw1, hw2⟩ := walk_unsnoc g e g.start u h1
  obtain ⟨d, hd, hdm⟩ := walk_to_distMin g w e hw1
  rcases Nat.lt_or_ge d e with hlt | hge
  · exfalso
    have hsn := walk_snoc g d g.start w u hdm.1 hw2
    rw [h2 (d + 1) (by omega)] at hsn
    cases hsn
  · have hde : d = e := le_antisymm hd hge
    rw [hde] at hdm
    exact ⟨w, hdm, hw2⟩

theorem dist_edge_le (g : Grid) (x n : Pos) (d0 : Nat) (hx : distMin g x d0)
    (hn : n ∈ get_neighbors g x) : ∃ e, e ≤ d0 + 1 ∧ distMin g n e :=
  walk_to_distMin g n (d0 + 1) (walk_snoc g d0 g.start x n hx.1 hn)


theorem check_none {α : Type} (extract : α → Pos) (g : Grid)
    (frontier : List α) (log : List Pos) :
    check_dynamic_obstacles extract g frontier log none = (g, frontier, log) := rfl

theorem takeChoice_none (sched : List (Option Pos))
    (hall : ∀ c ∈ sched, c = none) (choice : Option Pos)
    (sched' : List (Option Pos)) (h : takeChoice sched = (choice, sched')) :
    choice = none ∧ ∀ c ∈ sched', c = none := by
  cases sched with
  | nil =>
    rw [takeChoice] at h
    injection h with h1 h2
    rw [← h1, ← h2]
    exact ⟨rfl, fun c hc => absurd hc (List.not_mem_nil c)⟩
  | cons c0 rest =>
    rw [takeChoice] at h
    injection h with h1 h2
    rw [← h1, ← h2]
    exact ⟨hall c0 (List.mem_cons_self c0 rest),
      fun c hc => hall c (List.mem_cons_of_mem c0 hc)⟩

theorem c6_closure (g : Grid) (s : PlainSt) (hinv : c6Inv g s)
    (current : Pos) (rest : List Pos) (hfr : s.frontier = current :: rest)
    (d0 : Nat) (hd0 : distMin g current d0) :
    ∀ du, du ≤ d0 → ∀ u, distMin g u du → (plookup s.pm u).isSome := by
  obtain ⟨hg, hsch, hdom, hifs, hnd, hfe, hcomp, hstart, hacy, hdepth, hpair⟩ := hinv
  intro du
  induction du using Nat.strong_induction_on with
  | _ du ih =>
    intro hle u hu
    cases du with
    | zero =>
      rw [distMin_zero_eq g u hu]
      exact hstart
    | succ e =>
      obtain ⟨w, hw, hedge⟩ := distMin_pred g u e hu
      have hwdisc : (plookup s.pm w).isSome := ih e (by omega) (by omega) w hw
      have hwnotfr : w ∉ s.frontier := by
        intro hmem
        rw [hfr] at hmem
        rcases List.mem_cons.mp hmem with hh | hh
        · rw [hh] at hw
          have := distMin_unique g current e d0 hw hd0
          omega
        · have hpair' := hpair
          rw [hfr] at hpair'
          obtain ⟨h1, h2⟩ := (List.pairwise_cons.mp hpair').1 w hh d0 e hd0 hw
          omega
      have hwexp : w ∈ s.explored := by
        rcases (hdom w).mp hwdisc with h | h
        · exact h
        · exact absurd ((hifs w).mp h) hwnotfr
      exact hcomp w hwexp u hedge


theorem c6_enqueue (g : Grid) (current : Pos) (d0 : Nat) (hd0 : distMin g current d0) :
    ∀ (ns : List Pos) (t : PlainSt),
      (∀ n ∈ ns, n ∈ get_neighbors g current) →
      t.grid = g → (∀ c ∈ t.sched, c = none) →
      (∀ x, (plookup t.pm x).isSome ↔ (x ∈ t.explored ∨ x ∈ t.in_frontier)) →
      (∀ x, x ∈ t.in_frontier ↔ x ∈ t.frontier) →
      t.frontier.Nodup →
      (∀ x ∈ t.frontier, x ∉ t.explored) →
      (∀ u ∈ t.explored, u ≠ current → ∀ v ∈ get_neighbors g u,
        (plookup t.pm v).isSome) →
      (plookup t.pm g.start).isSome →
      pmAcyc t.pm →
      (∀ x, (plookup t.pm x).isSome → ∃ d l, distMin g x d ∧
        reconstructAux t.pm (t.pm.length + 1) x = some l ∧ l.length = d + 1) →
      List.Pairwise (fun a b => ∀ da db, distMin g a da → distMin g b db →
        da ≤ db ∧ db ≤ da + 1) t.frontier →
      (∀ x ∈ t.frontier, ∀ dx, distMin g x dx → d0 ≤ dx ∧ dx ≤ d0 + 1) →
      (∀ u du, du ≤ d0 → distMin g u du → (plookup t.pm u).isSome) →
      (plookup t.pm current).isSome →
      (plainEnqueue current ns t).grid = g ∧
      (∀ c ∈ (plainEnqueue current ns t).sched, c = none) ∧
      (∀ x, (plookup (plainEnqueue current ns t).pm x).isSome ↔
        (x ∈ (plainEnqueue current ns t).explored ∨
         x ∈ (plainEnqueue current ns t).in_frontier)) ∧
      (∀ x, x ∈ (plainEnqueue current ns t).in_frontier ↔
        x ∈ (plainEnqueue current ns t).frontier) ∧
      (plainEnqueue current ns t).frontier.Nodup ∧
      (∀ x ∈ (plainEnqueue current ns t).frontier,
        x ∉ (plainEnqueue current ns t).explored) ∧
      (∀ u ∈ (plainEnqueue current ns t).explored, u ≠ current →
        ∀ v ∈ get_neighbors g u,
        (plookup (plainEnqueue current ns t).pm v).isSome) ∧
      (plookup (plainEnqueue current ns t).pm g.start).isSome ∧
      pmAcyc (plainEnqueue current ns t).pm ∧
      (∀ x, (plookup (plainEnqueue current ns t).pm x).isSome →
        ∃ d l, distMin g x d ∧
          reconstructAux (plainEnqueue current ns t).pm
            ((plainEnqueue current ns t).pm.length + 1) x = some l ∧
          l.length = d + 1) ∧
      List.Pairwise (fun a b => ∀ da db, distMin g a da → distMin g b db →
        da ≤ db ∧ db ≤ da + 1) (plainEnqueue current ns t).frontier ∧
      (∀ v ∈ ns, (plookup (plainEnqueue current ns t).pm v).isSome) ∧
      (plainEnqueue current ns t).explored = t.explored ∧
      (∀ k, (plookup t.pm k).isSome →
        (plookup (plainEnqueue current ns t).pm k).isSome) := by
  intro ns
  induction ns with
  | nil =>
    intro t hns hg hsch hdom hifs hnd hfe hcomp hstart hacy hdepth hpair hband
      hclo hcur
    exact ⟨hg, hsch, hdom, hifs, hnd, hfe, hcomp, hstart, hacy, hdepth, hpair,
      fun v hv => absurd hv (List.not_mem_nil v), rfl, fun k hk => hk⟩
  | cons n rest ih =>
    intro t hns hg hsch hdom hifs hnd hfe hcomp hstart hacy hdepth hpair hband
      hclo hcur
    have hstep : plainEnqueue current (n :: rest) t = plainEnqueue current rest
        (if n ∉ t.explored ∧ n ∉ t.in_frontier then
           { t with pm := (n, some current) :: t.pm,
                    frontier := t.frontier ++ [n],
                    in_frontier := addSet t.in_frontier n }
         else t) := rfl
    rw [hstep]
    split
    · rename_i hgate
      have hnb : n ∈ get_neighbors g current := hns n (List.mem_cons_self n rest)
      have hfresh : plookup t.pm n = none := by
        rcases hq : plookup t.pm n with _ | v
        · rfl
        · exfalso
          rcases (hdom n).mp (by rw [hq]; rfl) with h | h
          · exact hgate.1 h
          · exact hgate.2 h
      have hnfr : n ∉ t.frontier := fun hc => hgate.2 ((hifs n).mpr hc)
      obtain ⟨e, he, hde⟩ := dist_edge_le g current n d0 hd0 hnb
      have hegt : e = d0 + 1 := by
        rcases Nat.lt_or_ge e (d0 + 1) with hlt | hge
        · exfalso
          have := hclo n e (by omega) hde
          rw [hfresh] at this
          cases this
        · omega
      rw [hegt] at hde
      obtain ⟨dc, lc, hdc, hlc, hlenc⟩ := hdepth current hcur
      have hdceq : dc = d0 := distMin_unique g current dc d0 hdc hd0
      rw [hdceq] at hlenc
      have hclosed := pmAcyc_closed t.pm hacy
      have hlc1 : reconstructAux ((n, some current) :: t.pm)
          (t.pm.length + 1) current = some lc :=
        reconstructAux_cons_fresh t.pm n (some current) hfresh hclosed
          (t.pm.length + 1) current lc hcur hlc
      have hpmlen : ((n, some current) :: t.pm).length + 1 = (t.pm.length + 1) + 1 := by
        rw [List.length_cons]
      have hln : reconstructAux ((n, some current) :: t.pm)
          (((n, some current) :: t.pm).length + 1) n = some (n :: lc) := by
        rw [hpmlen, reconstructAux]
        have hpg : pmGet ((n, some current) :: t.pm) n = some current := by
          unfold pmGet
          rw [plookup_cons, if_pos rfl]
        simp only [hpg, hlc1, Option.map]
      have hdomn : (plookup ((n, some current) :: t.pm) n).isSome := by
        rw [plookup_cons, if_pos rfl]
        rfl
      have hdom1 : ∀ x, (plookup ((n, some current) :: t.pm) x).isSome ↔
          (x ∈ t.explored ∨ x ∈ addSet t.in_frontier n) := by
        intro x
        rw [plookup_cons]
        by_cases hx : n = x
        · rw [if_pos hx, ← hx]
          simp only [Option.isSome_some, true_iff]
          exact Or.inr (mem_addSet_self t.in_frontier n)
        · rw [if_neg hx]
          rw [hdom x]
          constructor
          · rintro (h | h)
            · exact Or.inl h
            · exact Or.inr (mem_addSet_of_mem n h)
          · rintro (h | h)
            · exact Or.inl h
            · rcases mem_addSet h with h1 | h1
              · exact Or.inr h1
              · exact absurd h1.symm hx
      have hifs1 : ∀ x, x ∈ addSet t.in_frontier n ↔ x ∈ t.frontier ++ [n] := by
        intro x
        constructor
        · intro hx
          rcases mem_addSet hx with h1 | h1
          · exact List.mem_append_left [n] ((hifs x).mp h1)
          · rw [h1]
            exact List.mem_append_right t.frontier (List.mem_singleton_self n)
        · intro hx
          rcases List.mem_append.mp hx with h1 | h1
          · exact mem_addSet_of_mem n ((hifs x).mpr h1)
          · rw [List.mem_singleton.mp h1]
            exact mem_addSet_self t.in_frontier n
      have hnd1 : (t.frontier ++ [n]).Nodup := by
        rw [List.nodup_append]
        exact ⟨hnd, List.nodup_singleton n,
          fun a ha hb => hnfr (by rw [List.mem_singleton.mp hb] at ha; exact ha)⟩
      have hfe1 : ∀ x ∈ t.frontier ++ [n], x ∉ t.explored := by
        intro x hx
        rcases List.mem_append.mp hx with h1 | h1
        · exact hfe x h1
        · rw [List.mem_singleton.mp h1]
          exact hgate.1
      have hacy1 : pmAcyc ((n, some current) :: t.pm) :=
        ⟨hacy, hfresh, fun c hc => by injection hc with hc; rw [← hc]; exact hcur⟩
      have hdepth1 : ∀ x, (plookup ((n, some current) :: t.pm) x).isSome →
          ∃ d l, distMin g x d ∧
            reconstructAux ((n, some current) :: t.pm)
              (((n, some current) :: t.pm).length + 1) x = some l ∧
            l.length = d + 1 := by
        intro x hx
        rw [plookup_cons] at hx
        by_cases hxn : n = x
        · refine ⟨d0 + 1, n :: lc, ?_, ?_, ?_⟩
          · rw [← hxn]
            exact hde
          · rw [← hxn]
            exact hln
          · rw [List.length_cons, hlenc]
        · rw [if_neg hxn] at hx
          obtain ⟨d, l, hd, hl, hlen⟩ := hdepth x hx
          refine ⟨d, l, hd, ?_, hlen⟩
          have h1 := reconstructAux_cons_fresh t.pm n (some current) hfresh hclosed
            (t.pm.length + 1) x l hx hl
          exact reconstructAux_mono ((n, some current) :: t.pm)
            (t.pm.length + 1) (((n, some current) :: t.pm).length + 1) x l
            (by rw [hpmlen]; omega) h1
      have hpair1 : List.Pairwise (fun a b => ∀ da db, distMin g a da →
          distMin g b db → da ≤ db ∧ db ≤ da + 1) (t.frontier ++ [n]) := by
        rw [List.pairwise_append]
        refine ⟨hpair, List.pairwise_singleton _ n, ?_⟩
        intro a ha b hb da db hda hdb
        rw [List.mem_singleton.mp hb] at hdb
        have hdbe : db = d0 + 1 := distMin_unique g n db (d0 + 1) hdb hde
        obtain ⟨h1, h2⟩ := hband a ha da hda
        omega
      have hband1 : ∀ x ∈ t.frontier ++ [n], ∀ dx, distMin g x dx →
          d0 ≤ dx ∧ dx ≤ d0 + 1 := by
        intro x hx dx hdx
        rcases List.mem_append.mp hx with h1 | h1
        · exact hband x h1 dx hdx
        · rw [List.mem_singleton.mp h1] at hdx
          have := distMin_unique g n dx (d0 + 1) hdx hde
          omega
      obtain ⟨g1, g2, g3, g4, g5, g6, g7, g8, g9, g10, g11, g12, g13, g14⟩ :=
        ih { t with pm := (n, some current) :: t.pm,
                    frontier := t.frontier ++ [n],
                    in_frontier := addSet t.in_frontier n }
          (fun m hm => hns m (List.mem_cons_of_mem n hm)) hg hsch hdom1 hifs1
          hnd1 hfe1
          (fun u hu hne v hv => plookup_isSome_cons _ _ _ _ (hcomp u hu hne v hv))
          (plookup_isSome_cons _ _ _ _ hstart) hacy1 hdepth1 hpair1 hband1
          (fun u du hdu hdmu => plookup_isSome_cons _ _ _ _ (hclo u du hdu hdmu))
          (plookup_isSome_cons _ _ _ _ hcur)
      refine ⟨g1, g2, g3, g4, g5, g6, g7, g8, g9, g10, g11, ?_, g13, ?_⟩
      · intro v hv
        rcases List.mem_cons.mp hv with h1 | h1
        · rw [h1]
          exact g14 n hdomn
        · exact g12 v h1
      · intro k hk
        exact g14 k (plookup_isSome_cons _ _ _ _ hk)
    · rename_i hgate
      have hdisc : (plookup t.pm n).isSome := by
        rw [hdom n]
        rcases Decidable.not_and_iff_or_not.mp hgate with h | h
        · exact Or.inl (Decidable.not_not.mp h)
        · exact Or.inr (Decidable.not_not.mp h)
      obtain ⟨g1, g2, g3, g4, g5, g6, g7, g8, g9, g10, g11, g12, g13, g14⟩ :=
        ih t (fun m hm => hns m (List.mem_cons_of_mem n hm)) hg hsch hdom hifs
          hnd hfe hcomp hstart hacy hdepth hpair hband hclo hcur
      refine ⟨g1, g2, g3, g4, g5, g6, g7, g8, g9, g10, g11, ?_, g13, g14⟩
      intro v hv
      rcases List.mem_cons.mp hv with h1 | h1
      · rw [h1]
        exact g14 n hdisc
      · exact g12 v h1


theorem c6Step (g : Grid) (s : PlainSt) (hinv : c6Inv g s) :
    (∀ s1, bfsStep s = StepOut.next s1 → c6Inv g s1) ∧
    (∀ s1 path, bfsStep s = StepOut.finished s1 (some path) →
      ∃ d, distMin g g.target d ∧ path.length = d + 1) := by
  obtain ⟨hg, hsch, hdom, hifs, hnd, hfe, hcomp, hstart, hacy, hdepth, hpair⟩ := hinv
  subst hg
  unfold bfsStep
  by_cases hne : s.frontier.isEmpty
  · simp only [hne, if_true]
    constructor
    · intro s1 heq
      cases heq
    · intro s1 path heq
      injection heq with h1 h2
      cases h2
  · simp only [hne, Bool.false_eq_true, if_false]
    rcases htc : takeChoice s.sched with ⟨choice, sched'⟩
    obtain ⟨hch, hsch'⟩ := takeChoice_none s.sched hsch choice sched' htc
    subst hch
    simp only [htc, check_none]
    constructor
    · intro s1 heq
      split at heq
      · rename_i hfr
        cases heq
      · rename_i current rest hfr
        split at heq
        · rename_i hcx
          exact absurd hcx (hfe current (by rw [hfr]; exact List.mem_cons_self current rest))
        · split at heq
          · split at heq <;> cases heq
          · rename_i hntar
            injection heq with heq
            rw [← heq]
            have hcurfr : current ∈ s.frontier := by
              rw [hfr]
              exact List.mem_cons_self current rest
            have hcur : (plookup s.pm current).isSome :=
              (hdom current).mpr (Or.inr ((hifs current).mpr hcurfr))
            obtain ⟨d0, lc, hd0, hlc, hlenc⟩ := hdepth current hcur
            have hndrest : rest.Nodup ∧ current ∉ rest := by
              have h1 := hnd
              rw [hfr] at h1
              obtain ⟨h2, h3⟩ := List.nodup_cons.mp h1
              exact ⟨h3, h2⟩
            have hdomT : ∀ x, (plookup s.pm x).isSome ↔
                (x ∈ addSet s.explored current ∨
                 x ∈ discardSet s.in_frontier current) := by
              intro x
              rw [hdom x]
              constructor
              · rintro (h | h)
                · exact Or.inl (mem_addSet_of_mem current h)
                · by_cases hxc : x = current
                  · rw [hxc]
                    exact Or.inl (mem_addSet_self s.explored current)
                  · refine Or.inr ?_
                    unfold discardSet
                    rw [List.mem_filter]
                    exact ⟨h, decide_eq_true hxc⟩
              · rintro (h | h)
                · rcases mem_addSet h with h1 | h1
                  · exact Or.inl h1
                  · rw [h1]
                    exact Or.inr ((hifs current).mpr hcurfr)
                · unfold discardSet at h
                  exact Or.inr (List.mem_filter.mp h).1
            have hifsT : ∀ x, x ∈ discardSet s.in_frontier current ↔ x ∈ rest := by
              intro x
              unfold discardSet
              rw [List.mem_filter]
              constructor
              · rintro ⟨h1, h2⟩
                have h3 := (hifs x).mp h1
                rw [hfr] at h3
                rcases List.mem_cons.mp h3 with h4 | h4
                · exact absurd h4 (of_decide_eq_true h2)
                · exact h4
              · intro hx
                refine ⟨(hifs x).mpr (by rw [hfr]; exact List.mem_cons_of_mem current hx), ?_⟩
                refine decide_eq_true ?_
                intro hc
                rw [hc] at hx
                exact hndrest.2 hx
            have hfeT : ∀ x ∈ rest, x ∉ addSet s.explored current := by
              intro x hx hcon
              rcases mem_addSet hcon with h1 | h1
              · exact hfe x (by rw [hfr]; exact List.mem_cons_of_mem current hx) h1
              · rw [h1] at hx
                exact hndrest.2 hx
            have hcompT : ∀ u ∈ addSet s.explored current, u ≠ current →
                ∀ v ∈ get_neighbors s.grid u, (plookup s.pm v).isSome := by
              intro u hu hne2 v hv
              rcases mem_addSet hu with h1 | h1
              · exact hcomp u h1 v hv
              · exact absurd h1 hne2
            have hpairT : List.Pairwise (fun a b => ∀ da db, distMin s.grid a da →
                distMin s.grid b db → da ≤ db ∧ db ≤ da + 1) rest := by
              have h1 := hpair
              rw [hfr] at h1
              exact (List.pairwise_cons.mp h1).2
            have hbandT : ∀ x ∈ rest, ∀ dx, distMin s.grid x dx →
                d0 ≤ dx ∧ dx ≤ d0 + 1 := by
              intro x hx dx hdx
              have h1 := hpair
              rw [hfr] at h1
              exact (List.pairwise_cons.mp h1).1 x hx d0 dx hd0 hdx
            have hcloT := c6_closure s.grid s
              ⟨rfl, hsch, hdom, hifs, hnd, hfe, hcomp, hstart, hacy, hdepth, hpair⟩
              current rest hfr d0 hd0
            obtain ⟨g1, g2, g3, g4, g5, g6, g7, g8, g9, g10, g11, g12, g13, g14⟩ :=
              c6_enqueue s.grid current d0 hd0 (get_neighbors s.grid current)
                { grid := s.grid, frontier := rest,
                  explored := addSet s.explored current, pm := s.pm,
                  in_frontier := discardSet s.in_frontier current,
                  history := s.history ++ [List.dedup s.frontier], log := s.log,
                  sched := sched' }
                (fun m hm => hm) rfl hsch' hdomT hifsT hndrest.1 hfeT hcompT
                hstart hacy hdepth hpairT hbandT
                (fun u du hdu hdmu => hcloT du hdu u hdmu) hcur
            refine ⟨g1, g2, g3, g4, g5, g6, ?_, g8, g9, g10, g11⟩
            intro u hu v hv
            rw [g13] at hu
            rcases mem_addSet hu with h1 | h1
            · exact g7 u (by rw [g13]; exact mem_addSet_of_mem current h1)
                (fun hc => hfe current hcurfr (by rw [← hc]; exact h1)) v hv
            · rw [h1] at hv
              exact g12 v hv
    · intro s1 path heq
      split at heq
      · rename_i hfr
        cases heq
      · rename_i current rest hfr
        split at heq
        · cases heq
        · split at heq
          · rename_i htar
            split at heq
            · cases heq
            · rename_i path0 hrp
              injection heq with h1 h2
              injection h2 with h2
              have hcurfr : current ∈ s.frontier := by
                rw [hfr]
                exact List.mem_cons_self current rest
              have hcur : (plookup s.pm current).isSome :=
                (hdom current).mpr (Or.inr ((hifs current).mpr hcurfr))
              obtain ⟨d0, lc, hd0, hlc, hlenc⟩ := hdepth current hcur
              unfold reconstruct_path at hrp
              rw [hlc] at hrp
              injection hrp with hrp
              refine ⟨d0, ?_, ?_⟩
              · rw [← htar]
                exact hd0
              · rw [← h2, ← hrp, List.length_reverse, hlenc]
          · cases heq

theorem c6Init (g : Grid) (sched : List (Option Pos))
    (hns : ∀ c ∈ sched, c = none) : c6Inv g (plainInit g sched) := by
  refine ⟨rfl, hns, ?_, fun x => Iff.rfl, List.nodup_singleton g.start,
    ?_, ?_, ?_, ?_, ?_, List.pairwise_singleton _ g.start⟩
  · intro x
    show (plookup [(g.start, none)] x).isSome ↔ (x ∈ [] ∨ x ∈ [g.start])
    rw [plookup_cons]
    by_cases h : g.start = x
    · rw [if_pos h]
      simp only [Option.isSome_some, true_iff]
      exact Or.inr (by rw [← h]; exact List.mem_singleton_self g.start)
    · rw [if_neg h]
      constructor
      · intro hc
        cases hc
      · rintro (hc | hc)
        · cases hc
        · exact absurd (List.mem_singleton.mp hc).symm h
  · intro x hx hc
    cases hc
  · intro u hu
    cases hu
  · show (plookup [(g.start, none)] g.start).isSome
    rw [plookup_cons, if_pos rfl]
    rfl
  · exact ⟨trivial, rfl, fun c hc => by cases hc⟩
  · intro x hx
    have hx' : (plookup [(g.start, (none : Option Pos))] x).isSome := hx
    rw [plookup_cons] at hx'
    by_cases h : g.start = x
    · refine ⟨0, [g.start], ?_, ?_, rfl⟩
      · rw [← h]
        exact distMin_start g
      · have hpg : pmGet [(g.start, (none : Option Pos))] g.start = none := by
          unfold pmGet
          rw [plookup_cons, if_pos rfl]
        show reconstructAux [(g.start, (none : Option Pos))] (1 + 1) x
          = some [g.start]
        rw [← h, reconstructAux]
        simp only [hpg]
    · rw [if_neg h] at hx'
      cases hx' 


theorem c6_run (g : Grid) : ∀ (fuel : Nat) (s : PlainSt), c6Inv g s →
    ∀ s1 path, runLoop bfsStep fuel s = some (Res.ok (s1, some path)) →
    ∃ d, distMin g g.target d ∧ path.length = d + 1 := by
  intro fuel
  induction fuel with
  | zero =>
    intro s _ s1 path h
    cases h
  | succ f ih =>
    intro s hinv s1 path h
    rw [runLoop_succ] at h
    rcases hstep : bfsStep s with s2 | ⟨s2, po⟩ | e | _ <;> simp only [hstep] at h
    · exact ih s2 ((c6Step g s hinv).1 s2 hstep) s1 path h
    · injection h with h
      injection h with h
      injection h with ha hb
      rw [hb] at hstep
      exact (c6Step g s hinv).2 s2 path hstep
    · injection h with h
      exact Res.noConfusion h
    · exact Option.noConfusion h

/-- C6: on a run in which no dynamic obstacle is ever spawned (the spawn
oracle draws only `none`), a successful BFS returns a path of minimal
length: there is a least step count `d` from start to target under
8-directional movement on the static grid (no walk of fewer steps
exists), and the returned path has exactly `d + 1` positions, i.e. `d`
steps. -/
theorem c6_bfs_shortest_path (g : Grid) (sched : List (Option Pos))
    (fuel : Nat) (r : SearchResult) (hnone : ∀ c ∈ sched, c = none)
    (h : breadth_first_search g sched fuel = some (Res.ok r))
    (hf : r.found = true) :
    ∃ d, distMin g g.target d ∧ r.path.length = d + 1 := by
  unfold breadth_first_search at h
  rcases hr : runLoop bfsStep fuel (plainInit g sched) with _ | res
  · rw [hr] at h
    cases h
  · rw [hr] at h
    cases res with
    | exc e =>
      simp only [Option.map] at h
      injection h with h
      cases h
    | ok pr =>
      rcases pr with ⟨s1, po⟩
      simp only [Option.map] at h
      injection h with h
      injection h with h
      rcases po with _ | path
      · rw [← h] at hf
        simp [mkSearchResult] at hf
      · obtain ⟨d, hd, hlen⟩ := c6_run g fuel (plainInit g sched)
          (c6Init g sched hnone) s1 path hr
        refine ⟨d, hd, ?_⟩
        rw [← h]
        simpa [mkSearchResult] using hlen

/-- Witness for C6 on the 2-cell grid with the empty (never-spawning)
schedule: BFS finds the 1-step path `[(0,0), (1,0)]`, and indeed `1` is
the least step count to the target. -/
theorem c6_bfs_shortest_path_witness :
    ∃ d, distMin grid21 grid21.target d ∧ c1r1.path.length = d + 1 :=
  c6_bfs_shortest_path grid21 [] 5 c1r1
    (fun c hc => absurd hc (List.not_mem_nil c)) (by decide) (by decide)

end GridSearch
